import Mathlib

/-!
# The reorder buffer of the runahead O3 CPU

A shallow embedding of `gem5/src/cpu/runaheado3/rob.cc` and the properties of it
that the specification states.

Conventions of the embedding.

* The fixed-size arrays indexed by `ThreadID` (`maxEntries`, `threadEntries`,
  `instList`, `squashIt`, `squashedSeqNum`, `doneSquashing`, `robStatus`) are
  functions on thread ids.  Their common size `MaxThreads` is declared in
  `limits.hh`, which is not part of the sources, so it is a field of the state.
  A member function called with a thread id that is not below `MaxThreads`
  indexes past the arrays; this is reported as `Fault.undefined`.  The thread
  ids read from `activeThreads` are supplied by the CPU and are not checked.
* Thread ids (`ThreadID`), sequence numbers (`InstSeqNum`) and instruction
  references (`DynInstPtr`) are natural numbers.  A `DynInstPtr` is a non-null
  reference to an instruction object, so `assert(inst)` and
  `assert(head_inst != 0)` hold by typing; the objects live in `ROB.insts` and
  are changed in place through the references, as the C++ code does through its
  shared pointers.
* A `std::list` iterator is `InstIt`: the past-the-end position of a thread's
  list or one of its nodes.  A node is named by the number of `push_back`
  calls on its list that came before its own, which does not change when
  other nodes are erased, as a list iterator does not.  `ROB.erased` counts
  the nodes erased from the front of each list, so that the nodes alive in
  `instList[tid]` are `erased tid, ..., erased tid + length - 1`.
* A call that hits a failed `assert` yields `Fault.assertion`; a call that
  dereferences an invalid iterator yields `Fault.undefined`.
* The counters are mathematical integers; the widths of the fields are declared
  in `rob.hh`, which is not part of the sources.  A decrement is the truncated
  subtraction; `retireHead` fails on an empty queue before it decrements, so the
  counter it decrements is positive whenever it equals the length of the queue.
* `DPRINTF` tracing and the two statistics counters are not modelled.
-/

namespace Runahead

/-- The three ROB sharing policies (`RunaheadSMTQueuePolicy`). -/
inductive RunaheadSMTQueuePolicy where
  | Dynamic
  | Partitioned
  | Threshold
  deriving DecidableEq, Repr

/-- The part of an instruction object the ROB reads and writes: its sequence
number, its thread and its status flags. -/
structure DynInst where
  seqNum : Nat
  threadNumber : Nat
  inROB : Bool
  squashed : Bool
  canCommit : Bool
  committed : Bool
  runaheadInst : Bool
  deriving DecidableEq, Repr

namespace DynInst

/-- Modelled from the spec: `setInROB` of `dyn_inst.hh` (absent) sets the `inROB` flag. -/
def setInROB (i : DynInst) : DynInst := { i with inROB := true }

/-- Modelled from the spec: `clearInROB` of `dyn_inst.hh` (absent) clears the `inROB` flag. -/
def clearInROB (i : DynInst) : DynInst := { i with inROB := false }

/-- Modelled from the spec: `setCommitted` of `dyn_inst.hh` (absent) sets the `committed` flag. -/
def setCommitted (i : DynInst) : DynInst := { i with committed := true }

/-- Modelled from the spec: `setSquashed` of `dyn_inst.hh` (absent) sets the `squashed` flag. -/
def setSquashed (i : DynInst) : DynInst := { i with squashed := true }

/-- Modelled from the spec: `setCanCommit` of `dyn_inst.hh` (absent) sets the
`readyToCommit` flag. -/
def setCanCommit (i : DynInst) : DynInst := { i with canCommit := true }

/-- Modelled from the spec: `setRunaheadInst` of `dyn_inst.hh` (absent) sets the
`runaheadMarked` flag. -/
def setRunaheadInst (i : DynInst) : DynInst := { i with runaheadInst := true }

/-- Modelled from the spec: `readyToCommit` of `dyn_inst.hh` (absent) reads the
`readyToCommit` flag. -/
def readyToCommit (i : DynInst) : Bool := i.canCommit

/-- Modelled from the spec: `isRunaheadInst` of `dyn_inst.hh` (absent) reads the
`runaheadMarked` flag. -/
def isRunaheadInst (i : DynInst) : Bool := i.runaheadInst

/-- Modelled from the spec: `isInROB` of `dyn_inst.hh` (absent) reads the `inROB` flag. -/
def isInROB (i : DynInst) : Bool := i.inROB

/-- Modelled from the spec: `isSquashed` of `dyn_inst.hh` (absent) reads the
`squashed` flag. -/
def isSquashed (i : DynInst) : Bool := i.squashed

end DynInst

/-- How a call can fail. -/
inductive Fault where
  | assertion
  | undefined
  deriving DecidableEq, Repr

/-- Modelled from the spec: the per-thread squash state (`Idle`, `Squashing`)
of the status enum declared in `rob.hh` (absent). -/
inductive Status where
  | Idle
  | ROBSquashing
  deriving DecidableEq, Repr

/-- A `std::list<DynInstPtr>::iterator` into `instList[tid]`. -/
inductive InstIt where
  | endOf (tid : Nat)
  | node (tid : Nat) (k : Nat)
  deriving DecidableEq, Repr

/-- The constructor parameters read by `ROB::ROB`. -/
structure RunaheadO3CPUParams where
  smtROBPolicy : RunaheadSMTQueuePolicy
  numROBEntries : Nat
  squashWidth : Nat
  numThreads : Nat
  smtROBThreshold : Nat

/-- Array element assignment `a[i] = v`. -/
def setAt {α : Type} (a : Nat → α) (i : Nat) (v : α) : Nat → α :=
  fun j => if j = i then v else a j

/-- The ROB together with the objects it refers to: the instruction objects
(`insts`), the CPU's list of active threads (`activeThreads`) and the CPU's
answer to `isThreadExiting` (`threadExiting`). -/
structure ROB where
  MaxThreads : Nat
  robPolicy : RunaheadSMTQueuePolicy
  numEntries : Nat
  squashWidth : Nat
  numInstsInROB : Nat
  numThreads : Nat
  maxEntries : Nat → Nat
  threadEntries : Nat → Nat
  instList : Nat → List Nat
  erased : Nat → Nat
  squashIt : Nat → InstIt
  squashedSeqNum : Nat → Nat
  doneSquashing : Nat → Bool
  robStatus : Nat → Status
  head : InstIt
  tail : InstIt
  activeThreads : List Nat
  insts : Nat → DynInst
  threadExiting : Nat → Bool

namespace ROB

/-- The iterator `instList[tid].begin()`. -/
def beginIt (rob : ROB) (tid : Nat) : InstIt :=
  match rob.instList tid with
  | [] => .endOf tid
  | _ :: _ => .node tid (rob.erased tid)

/-- The iterator obtained by `it = instList[tid].end(); it--`, which is
undefined on an empty list. -/
def lastIt (rob : ROB) (tid : Nat) : Option InstIt :=
  match rob.instList tid with
  | [] => none
  | _ :: l => some (.node tid (rob.erased tid + l.length))

/-- Dereferencing an iterator, `*it`; `none` when the iterator is past the end
or its node has been erased. -/
def deref (rob : ROB) : InstIt → Option Nat
  | .endOf _ => none
  | .node tid k =>
    if rob.erased tid ≤ k then (rob.instList tid)[k - rob.erased tid]? else none

/-- The iterator decrement `it--`; `none` where it is undefined. -/
def prevIt (rob : ROB) : InstIt → Option InstIt
  | .endOf tid => rob.lastIt tid
  | .node tid k => if rob.erased tid < k then some (.node tid (k - 1)) else none

/-- The sequence number of the instruction a pointer refers to. -/
def seqOf (rob : ROB) (p : Nat) : Nat := (rob.insts p).seqNum

/-- The effect of `ROB::resetState`. -/
def resetState (rob : ROB) : ROB :=
  { rob with
    threadEntries := fun tid => if tid < rob.MaxThreads then 0 else rob.threadEntries tid
    squashIt := fun tid => if tid < rob.MaxThreads then .endOf tid else rob.squashIt tid
    squashedSeqNum := fun tid => if tid < rob.MaxThreads then 0 else rob.squashedSeqNum tid
    doneSquashing := fun tid => if tid < rob.MaxThreads then true else rob.doneSquashing tid
    numInstsInROB := 0
    head := .endOf 0
    tail := .endOf 0 }

/-- The constructor `ROB::ROB`: the quotas follow the policy for the thread
contexts below `numThreads` and are zero above, the lists are empty, and
`resetState` is run.  The three last arguments are the objects the ROB refers
to. -/
def construct (MaxThreads : Nat) (params : RunaheadO3CPUParams)
    (insts : Nat → DynInst) (activeThreads : List Nat)
    (threadExiting : Nat → Bool) : ROB :=
  resetState
    { MaxThreads := MaxThreads
      robPolicy := params.smtROBPolicy
      numEntries := params.numROBEntries
      squashWidth := params.squashWidth
      numInstsInROB := 0
      numThreads := params.numThreads
      maxEntries := fun tid =>
        if tid < params.numThreads then
          match params.smtROBPolicy with
          | .Dynamic => params.numROBEntries
          | .Partitioned => params.numROBEntries / params.numThreads
          | .Threshold => params.smtROBThreshold
        else 0
      threadEntries := fun _ => 0
      instList := fun _ => []
      erased := fun _ => 0
      squashIt := fun tid => .endOf tid
      squashedSeqNum := fun _ => 0
      doneSquashing := fun _ => true
      robStatus := fun _ => .Idle
      head := .endOf 0
      tail := .endOf 0
      activeThreads := activeThreads
      insts := insts
      threadExiting := threadExiting }

/-- The effect of `ROB::setActiveThreads`, also used for the CPU changing its list. -/
def setActiveThreads (rob : ROB) (at_ptr : List Nat) : ROB :=
  { rob with activeThreads := at_ptr }

/-- The loop of `ROB::resetEntries` over the active threads. -/
def resetEntriesLoop (active_threads : Nat) : List Nat → ROB → ROB
  | [], rob => rob
  | tid :: threads, rob =>
    if rob.robPolicy = .Partitioned then
      resetEntriesLoop active_threads threads
        { rob with maxEntries := setAt rob.maxEntries tid (rob.numEntries / active_threads) }
    else if rob.robPolicy = .Threshold ∧ active_threads = 1 then
      resetEntriesLoop active_threads threads
        { rob with maxEntries := setAt rob.maxEntries tid rob.numEntries }
    else
      resetEntriesLoop active_threads threads rob

/-- The effect of `ROB::resetEntries`. -/
def resetEntries (rob : ROB) : ROB :=
  if rob.robPolicy ≠ .Dynamic ∨ rob.numThreads > 1 then
    resetEntriesLoop rob.activeThreads.length rob.activeThreads rob
  else rob

/-- The value of `ROB::entryAmount`; the division by zero is undefined. -/
def entryAmount (rob : ROB) (num_threads : Nat) : Except Fault Nat :=
  if rob.robPolicy = .Partitioned then
    if num_threads = 0 then .error .undefined else .ok (rob.numEntries / num_threads)
  else .ok 0

/-- The value of `ROB::countInsts(tid)`. -/
def countInstsOf (rob : ROB) (tid : Nat) : Nat := (rob.instList tid).length

/-- The value of `ROB::countInsts()`. -/
def countInsts (rob : ROB) : Nat :=
  ((List.range rob.numThreads).map rob.countInstsOf).sum

/-- Modelled from the spec: `isEmpty(tid)` of `rob.hh` (absent) tells whether
the thread's queue is empty. -/
def isEmptyOf (rob : ROB) (tid : Nat) : Bool := (rob.instList tid).isEmpty

/-- The loop of `ROB::updateHead` over the active threads; the loop state is
`head`, `lowest_num` and `first_valid`. -/
def updateHeadLoop (rob : ROB) :
    List Nat → InstIt × Nat × Bool → InstIt × Nat × Bool
  | [], st => st
  | tid :: threads, (head, lowest_num, first_valid) =>
    match rob.instList tid with
    | [] => updateHeadLoop rob threads (head, lowest_num, first_valid)
    | head_inst :: _ =>
      if first_valid then
        updateHeadLoop rob threads (rob.beginIt tid, rob.seqOf head_inst, false)
      else if rob.seqOf head_inst < lowest_num then
        updateHeadLoop rob threads (rob.beginIt tid, rob.seqOf head_inst, first_valid)
      else
        updateHeadLoop rob threads (head, lowest_num, first_valid)

/-- The effect of `ROB::updateHead`. -/
def updateHead (rob : ROB) : ROB :=
  let st := updateHeadLoop rob rob.activeThreads (rob.head, 0, true)
  if st.2.2 then { rob with head := .endOf 0 } else { rob with head := st.1 }

/-- The loop of `ROB::updateTail` over the active threads; the loop state is
`tail` and `first_valid`. -/
def updateTailLoop (rob : ROB) : List Nat → InstIt × Bool → Except Fault (InstIt × Bool)
  | [], st => .ok st
  | tid :: threads, (tail, first_valid) =>
    match rob.lastIt tid, (rob.instList tid).getLast? with
    | some tail_thread, some tail_inst =>
      if first_valid then
        updateTailLoop rob threads (tail_thread, false)
      else
        match rob.deref tail with
        | none => .error .undefined
        | some cur =>
          if rob.seqOf tail_inst > rob.seqOf cur then
            updateTailLoop rob threads (tail_thread, first_valid)
          else
            updateTailLoop rob threads (tail, first_valid)
    | _, _ => updateTailLoop rob threads (tail, first_valid)

/-- The effect of `ROB::updateTail`. -/
def updateTail (rob : ROB) : Except Fault ROB :=
  match updateTailLoop rob rob.activeThreads (.endOf 0, true) with
  | .error e => .error e
  | .ok (tail, _) => .ok { rob with tail := tail }

/-- The list operation `instList[tid].push_back(inst)`. -/
def pushBack (rob : ROB) (tid : Nat) (inst : Nat) : ROB :=
  { rob with instList := setAt rob.instList tid (rob.instList tid ++ [inst]) }

/-- The list operation `instList[tid].erase(instList[tid].begin())`, which
leaves `rest` in the list. -/
def eraseFront (rob : ROB) (tid : Nat) (rest : List Nat) : ROB :=
  { rob with
    instList := setAt rob.instList tid rest
    erased := setAt rob.erased tid (rob.erased tid + 1) }

/-- The effect of `ROB::insertInst`. -/
def insertInst (rob : ROB) (inst : Nat) : Except Fault ROB :=
  if rob.numInstsInROB = rob.numEntries then .error .assertion
  else
    let tid := (rob.insts inst).threadNumber
    if rob.MaxThreads ≤ tid then .error .undefined
    else
      let rob1 := rob.pushBack tid inst
      let head := if rob.numInstsInROB = 0 then rob1.beginIt tid else rob.head
      if rob.numInstsInROB = 0 ∧ rob1.deref head ≠ some inst then .error .assertion
      else
        match rob1.lastIt tid with
        | none => .error .undefined
        | some tail =>
          .ok { rob1 with
                head := head
                tail := tail
                insts := setAt rob.insts inst (rob.insts inst).setInROB
                numInstsInROB := rob.numInstsInROB + 1
                threadEntries := setAt rob.threadEntries tid (rob.threadEntries tid + 1) }

/-- The effect of `ROB::retireHead`, with the instruction it hands to
`cpu->removeFrontInst`. -/
def retireHead (rob : ROB) (tid : Nat) : Except Fault (ROB × Nat) :=
  if ¬ (rob.numInstsInROB > 0) then .error .assertion
  else if rob.MaxThreads ≤ tid then .error .undefined
  else
    match rob.instList tid with
    | [] => .error .undefined
    | head_inst :: rest =>
      if ¬ (rob.insts head_inst).isRunaheadInst ∧ ¬ (rob.insts head_inst).readyToCommit then
        .error .assertion
      else
        .ok (updateHead
              { rob.eraseFront tid rest with
                numInstsInROB := rob.numInstsInROB - 1
                threadEntries := setAt rob.threadEntries tid (rob.threadEntries tid - 1)
                insts := setAt rob.insts head_inst (rob.insts head_inst).clearInROB.setCommitted },
             head_inst)

/-- The value of `ROB::isHeadReady`. -/
def isHeadReady (rob : ROB) (tid : Nat) : Except Fault Bool :=
  if rob.MaxThreads ≤ tid then .error .undefined
  else if rob.threadEntries tid ≠ 0 then
    match rob.instList tid with
    | [] => .error .undefined
    | front :: _ => .ok (rob.insts front).readyToCommit
  else .ok false

/-- The loop of `ROB::canCommit` over the active threads. -/
def canCommitLoop (rob : ROB) : List Nat → Except Fault Bool
  | [] => .ok false
  | tid :: threads =>
    match rob.isHeadReady tid with
    | .error e => .error e
    | .ok true => .ok true
    | .ok false => canCommitLoop rob threads

/-- The value of `ROB::canCommit`. -/
def canCommit (rob : ROB) : Except Fault Bool := canCommitLoop rob rob.activeThreads

/-- The value of `ROB::numFreeEntries()`. -/
def numFreeEntries (rob : ROB) : Nat := rob.numEntries - rob.numInstsInROB

/-- How the `for` loop of `ROB::doSquash` ended. -/
structure SquashLoop where
  rob : ROB
  robTailUpdate : Bool
  returned : Bool
  marked : List Nat

/-- The `for` loop of `ROB::doSquash`; the first argument is what is left of
`numInstsToSquash`, and `marked` collects the instructions `setSquashed` was
called on, in the order of the calls. -/
def doSquashLoop (tid : Nat) :
    Nat → ROB → Bool → List Nat → Except Fault SquashLoop
  | 0, rob, robTailUpdate, marked => .ok ⟨rob, robTailUpdate, false, marked⟩
  | n + 1, rob, robTailUpdate, marked =>
    if rob.squashIt tid = .endOf tid then .ok ⟨rob, robTailUpdate, false, marked⟩
    else
      match rob.deref (rob.squashIt tid) with
      | none => .error .undefined
      | some inst =>
        if ¬ (rob.seqOf inst > rob.squashedSeqNum tid) then
          .ok ⟨rob, robTailUpdate, false, marked⟩
        else
          let rob1 := { rob with
            insts := setAt rob.insts inst (rob.insts inst).setSquashed.setCanCommit }
          if rob1.squashIt tid = rob1.beginIt tid then
            .ok ⟨{ rob1 with
                    squashIt := setAt rob1.squashIt tid (.endOf tid)
                    doneSquashing := setAt rob1.doneSquashing tid true },
                 robTailUpdate, true, marked ++ [inst]⟩
          else
            match (rob1.instList tid).getLast?, rob1.prevIt (rob1.squashIt tid) with
            | some tail_inst, some it =>
              doSquashLoop tid n { rob1 with squashIt := setAt rob1.squashIt tid it }
                (if inst = tail_inst then true else robTailUpdate) (marked ++ [inst])
            | _, _ => .error .undefined

/-- The check of `ROB::doSquash` after its loop: whether the ROB is done squashing. -/
def doSquashCheckDone (rob : ROB) (tid : Nat) : Except Fault ROB :=
  match rob.deref (rob.squashIt tid) with
  | none => .error .undefined
  | some cur =>
    if rob.seqOf cur ≤ rob.squashedSeqNum tid then
      .ok { rob with
            squashIt := setAt rob.squashIt tid (.endOf tid)
            doneSquashing := setAt rob.doneSquashing tid true }
    else .ok rob

/-- The effect of `ROB::doSquash`, with the instructions the call marked. -/
def doSquashMarking (rob : ROB) (tid : Nat) : Except Fault (ROB × List Nat) :=
  if rob.MaxThreads ≤ tid then .error .undefined
  else if rob.squashIt tid = .endOf tid then .error .assertion
  else
    match rob.deref (rob.squashIt tid) with
    | none => .error .undefined
    | some inst =>
      if rob.seqOf inst < rob.squashedSeqNum tid then
        .ok ({ rob with
                squashIt := setAt rob.squashIt tid (.endOf tid)
                doneSquashing := setAt rob.doneSquashing tid true }, [])
      else
        let numInstsToSquash := if rob.threadExiting tid then rob.numEntries else rob.squashWidth
        match doSquashLoop tid numInstsToSquash rob false [] with
        | .error e => .error e
        | .ok res =>
          if res.returned then .ok (res.rob, res.marked)
          else
            match res.rob.doSquashCheckDone tid with
            | .error e => .error e
            | .ok rob2 =>
              if res.robTailUpdate then
                match rob2.updateTail with
                | .error e => .error e
                | .ok rob3 => .ok (rob3, res.marked)
              else .ok (rob2, res.marked)

/-- The effect of `ROB::doSquash`. -/
def doSquash (rob : ROB) (tid : Nat) : Except Fault ROB :=
  match rob.doSquashMarking tid with
  | .error e => .error e
  | .ok (rob1, _) => .ok rob1

/-- The effect of `ROB::squash`, with the instructions its `doSquash` call marked. -/
def squashMarking (rob : ROB) (squash_num : Nat) (tid : Nat) :
    Except Fault (ROB × List Nat) :=
  if rob.MaxThreads ≤ tid then .error .undefined
  else if rob.isEmptyOf tid then .ok (rob, [])
  else
    let rob1 := { rob with
      robStatus := setAt rob.robStatus tid .ROBSquashing
      doneSquashing := setAt rob.doneSquashing tid false
      squashedSeqNum := setAt rob.squashedSeqNum tid squash_num }
    match rob1.lastIt tid with
    | none => .ok (rob1, [])
    | some tail_thread =>
      doSquashMarking { rob1 with squashIt := setAt rob1.squashIt tid tail_thread } tid

/-- The effect of `ROB::squash`. -/
def squash (rob : ROB) (squash_num : Nat) (tid : Nat) : Except Fault ROB :=
  match rob.squashMarking squash_num tid with
  | .error e => .error e
  | .ok (rob1, _) => .ok rob1

/-- A call of one of the four state-changing member functions. -/
inductive Call where
  | insertInst (inst : Nat)
  | retireHead (tid : Nat)
  | squash (squash_num : Nat) (tid : Nat)
  | doSquash (tid : Nat)
  deriving DecidableEq, Repr

/-- What a call did to a thread's queue: `insertInst` queued an instruction,
`retireHead` released one. -/
inductive Event where
  | inserted (tid : Nat) (inst : Nat)
  | released (tid : Nat) (inst : Nat)
  deriving DecidableEq, Repr

/-- One call, with the queue events it caused. -/
def step (rob : ROB) : Call → Except Fault (ROB × List Event)
  | .insertInst inst =>
    match rob.insertInst inst with
    | .error e => .error e
    | .ok rob1 => .ok (rob1, [.inserted (rob.insts inst).threadNumber inst])
  | .retireHead tid =>
    match rob.retireHead tid with
    | .error e => .error e
    | .ok (rob1, head_inst) => .ok (rob1, [.released tid head_inst])
  | .squash squash_num tid =>
    match rob.squash squash_num tid with
    | .error e => .error e
    | .ok rob1 => .ok (rob1, [])
  | .doSquash tid =>
    match rob.doSquash tid with
    | .error e => .error e
    | .ok rob1 => .ok (rob1, [])

/-- A sequence of calls, each made in the state the one before left; it fails
as soon as one call fails. -/
def run (rob : ROB) : List Call → Except Fault (ROB × List Event)
  | [] => .ok (rob, [])
  | c :: cs =>
    match rob.step c with
    | .error e => .error e
    | .ok (rob1, ev) =>
      match run rob1 cs with
      | .error e => .error e
      | .ok (rob2, evs) => .ok (rob2, ev ++ evs)

/-- The sum of `threadEntries[tid]` over all thread ids. -/
def sumThreadEntries (rob : ROB) : Nat :=
  ∑ tid ∈ Finset.range rob.MaxThreads, rob.threadEntries tid

/-- The counters agree with the queues: each `threadEntries[tid]` is the length
of `instList[tid]`, `numInstsInROB` is their sum and does not exceed
`numEntries`. -/
structure Counted (rob : ROB) : Prop where
  entries : ∀ tid, tid < rob.MaxThreads → rob.threadEntries tid = (rob.instList tid).length
  total : rob.numInstsInROB = rob.sumThreadEntries
  bound : rob.numInstsInROB ≤ rob.numEntries

/-- What the squash engine leaves alone: the configuration, the queues with
their counters and quotas, the head pointer, and the sequence number and thread
of every instruction. -/
structure SquashFrame (r r' : ROB) : Prop where
  MaxThreads : r'.MaxThreads = r.MaxThreads
  robPolicy : r'.robPolicy = r.robPolicy
  numEntries : r'.numEntries = r.numEntries
  squashWidth : r'.squashWidth = r.squashWidth
  numInstsInROB : r'.numInstsInROB = r.numInstsInROB
  numThreads : r'.numThreads = r.numThreads
  maxEntries : r'.maxEntries = r.maxEntries
  threadEntries : r'.threadEntries = r.threadEntries
  instList : r'.instList = r.instList
  erased : r'.erased = r.erased
  head : r'.head = r.head
  activeThreads : r'.activeThreads = r.activeThreads
  threadExiting : r'.threadExiting = r.threadExiting
  seqNum : ∀ p, (r'.insts p).seqNum = (r.insts p).seqNum
  threadNumber : ∀ p, (r'.insts p).threadNumber = (r.insts p).threadNumber

/-- The instructions inserted into thread `tid`, in insertion order. -/
def insertedOf (tid : Nat) : List Event → List Nat
  | [] => []
  | .inserted t inst :: evs => if t = tid then inst :: insertedOf tid evs else insertedOf tid evs
  | .released _ _ :: evs => insertedOf tid evs

/-- The instructions released by the `retireHead(tid)` calls, in the order of
the calls. -/
def releasedOf (tid : Nat) : List Event → List Nat
  | [] => []
  | .inserted _ _ :: evs => releasedOf tid evs
  | .released t inst :: evs => if t = tid then inst :: releasedOf tid evs else releasedOf tid evs

/-- What a successful `insertInst rob inst` did, field by field. -/
structure InsertSpec (rob : ROB) (inst : Nat) (rob1 : ROB) : Prop where
  notFull : rob.numInstsInROB ≠ rob.numEntries
  tidBound : (rob.insts inst).threadNumber < rob.MaxThreads
  headInst : rob.numInstsInROB = 0 →
    (rob.instList (rob.insts inst).threadNumber ++ [inst]).head? = some inst
  MaxThreads : rob1.MaxThreads = rob.MaxThreads
  robPolicy : rob1.robPolicy = rob.robPolicy
  numEntries : rob1.numEntries = rob.numEntries
  squashWidth : rob1.squashWidth = rob.squashWidth
  numThreads : rob1.numThreads = rob.numThreads
  maxEntries : rob1.maxEntries = rob.maxEntries
  erased : rob1.erased = rob.erased
  squashIt : rob1.squashIt = rob.squashIt
  squashedSeqNum : rob1.squashedSeqNum = rob.squashedSeqNum
  doneSquashing : rob1.doneSquashing = rob.doneSquashing
  robStatus : rob1.robStatus = rob.robStatus
  activeThreads : rob1.activeThreads = rob.activeThreads
  threadExiting : rob1.threadExiting = rob.threadExiting
  numInstsInROB : rob1.numInstsInROB = rob.numInstsInROB + 1
  threadEntries : rob1.threadEntries =
    setAt rob.threadEntries (rob.insts inst).threadNumber
      (rob.threadEntries (rob.insts inst).threadNumber + 1)
  instList : rob1.instList =
    setAt rob.instList (rob.insts inst).threadNumber
      (rob.instList (rob.insts inst).threadNumber ++ [inst])
  insts : rob1.insts = setAt rob.insts inst (rob.insts inst).setInROB
  tail : rob1.tail =
    .node (rob.insts inst).threadNumber
      (rob.erased (rob.insts inst).threadNumber +
        (rob.instList (rob.insts inst).threadNumber).length)
  head : rob1.head =
    if rob.numInstsInROB = 0 then
      .node (rob.insts inst).threadNumber (rob.erased (rob.insts inst).threadNumber)
    else rob.head

/-- What a successful `retireHead rob tid` did, field by field; `rest` is what
is left of the thread's queue. -/
structure RetireSpec (rob : ROB) (tid : Nat) (rob1 : ROB) (head_inst : Nat)
    (rest : List Nat) : Prop where
  notEmpty : 0 < rob.numInstsInROB
  tidBound : tid < rob.MaxThreads
  queue : rob.instList tid = head_inst :: rest
  ready : (rob.insts head_inst).runaheadInst = true ∨ (rob.insts head_inst).canCommit = true
  MaxThreads : rob1.MaxThreads = rob.MaxThreads
  robPolicy : rob1.robPolicy = rob.robPolicy
  numEntries : rob1.numEntries = rob.numEntries
  squashWidth : rob1.squashWidth = rob.squashWidth
  numThreads : rob1.numThreads = rob.numThreads
  maxEntries : rob1.maxEntries = rob.maxEntries
  squashIt : rob1.squashIt = rob.squashIt
  squashedSeqNum : rob1.squashedSeqNum = rob.squashedSeqNum
  doneSquashing : rob1.doneSquashing = rob.doneSquashing
  robStatus : rob1.robStatus = rob.robStatus
  tail : rob1.tail = rob.tail
  activeThreads : rob1.activeThreads = rob.activeThreads
  threadExiting : rob1.threadExiting = rob.threadExiting
  numInstsInROB : rob1.numInstsInROB = rob.numInstsInROB - 1
  threadEntries : rob1.threadEntries = setAt rob.threadEntries tid (rob.threadEntries tid - 1)
  instList : rob1.instList = setAt rob.instList tid rest
  erased : rob1.erased = setAt rob.erased tid (rob.erased tid + 1)
  insts : rob1.insts = setAt rob.insts head_inst (rob.insts head_inst).clearInROB.setCommitted
  head : ((∀ t ∈ rob1.activeThreads, rob1.instList t = []) ∧ rob1.head = .endOf 0) ∨
    (∃ t ∈ rob1.activeThreads, ∃ a l, rob1.instList t = a :: l ∧
      rob1.head = .node t (rob1.erased t) ∧
      ∀ t1 ∈ rob1.activeThreads, ∀ a1 l1, rob1.instList t1 = a1 :: l1 →
        rob1.seqOf a ≤ rob1.seqOf a1)

/-- The instruction objects after `setSquashed` and `setCanCommit` have been
called on the instructions of `ps`. -/
def markAll (insts : Nat → DynInst) (ps : List Nat) : Nat → DynInst :=
  fun p => if p ∈ ps then (insts p).setSquashed.setCanCommit else insts p

/-- The squash cursor of thread `tid` is on instruction `p` of the thread's
queue, with `pre` in front of it and `suf` behind it. -/
def CursorAt (rob : ROB) (tid : Nat) (pre : List Nat) (p : Nat) (suf : List Nat) : Prop :=
  rob.instList tid = pre ++ p :: suf ∧ rob.squashIt tid = .node tid (rob.erased tid + pre.length)

/-- The number of instructions `doSquash(tid)` may mark in one call. -/
def squashQuota (rob : ROB) (tid : Nat) : Nat :=
  if rob.threadExiting tid then rob.numEntries else rob.squashWidth

/-- Calling `doSquash(tid)` again and again while `doneSquashing[tid]` is false,
at most `fuel` times. -/
def squashUntilDone : Nat → ROB → Nat → Except Fault ROB
  | 0, rob, _ => .ok rob
  | fuel + 1, rob, tid =>
    if rob.doneSquashing tid then .ok rob
    else
      match rob.doSquash tid with
      | .error e => .error e
      | .ok rob1 => squashUntilDone fuel rob1 tid

/-- The same as `squashUntilDone`, with the instructions the calls marked. -/
def squashUntilDoneMarking : Nat → ROB → Nat → Except Fault (ROB × List Nat)
  | 0, rob, _ => .ok (rob, [])
  | fuel + 1, rob, tid =>
    if rob.doneSquashing tid then .ok (rob, [])
    else
      match rob.doSquashMarking tid with
      | .error e => .error e
      | .ok (rob1, m) =>
        match squashUntilDoneMarking fuel rob1 tid with
        | .error e => .error e
        | .ok (rob2, ms) => .ok (rob2, m ++ ms)

/-- The call `squash(squash_num, tid)` followed by `doSquash(tid)` while
`doneSquashing[tid]` is false, at most `fuel` times. -/
def squashAndDrain (fuel : Nat) (rob : ROB) (squash_num tid : Nat) : Except Fault ROB :=
  match rob.squash squash_num tid with
  | .error e => .error e
  | .ok rob1 => squashUntilDone fuel rob1 tid

/-- The same as `squashAndDrain`, with the instructions the calls marked. -/
def squashAndDrainMarking (fuel : Nat) (rob : ROB) (squash_num tid : Nat) :
    Except Fault (ROB × List Nat) :=
  match rob.squashMarking squash_num tid with
  | .error e => .error e
  | .ok (rob1, m) =>
    match squashUntilDoneMarking fuel rob1 tid with
    | .error e => .error e
    | .ok (rob2, ms) => .ok (rob2, m ++ ms)

/-! ### Example states -/

/-- An example population of instruction objects: the instruction at reference
`p` has sequence number `p`, belongs to thread `p % 2` and is ready to commit. -/
def exHeap : Nat → DynInst := fun p => ⟨p, p % 2, false, false, true, false, false⟩

/-- An example ROB: eight entries, squash width two, two threads, both active. -/
def exRob : ROB := construct 4 ⟨.Dynamic, 8, 2, 2, 0⟩ exHeap [0, 1] (fun _ => false)

/-- The instruction objects of the scenarios: the instruction at reference `p`
has sequence number `p`, belongs to thread 0 and has no flag set. -/
def scHeap : Nat → DynInst := fun p => ⟨p, 0, false, false, false, false, false⟩

/-- The ROB of the squash scenario: squash width two and one thread, which is
active and not exiting. -/
def squashScenario : ROB := construct 4 ⟨.Dynamic, 8, 2, 1, 0⟩ scHeap [0] (fun _ => false)

/-- The ROB of the commit scenario: capacity four, policy `Dynamic`, one thread,
which is active. -/
def commitScenario : ROB := construct 4 ⟨.Dynamic, 4, 2, 1, 0⟩ scHeap [0] (fun _ => false)

/-- The execution stage marking an instruction ready to commit; this happens
outside the ROB. -/
def markReady (rob : ROB) (inst : Nat) : ROB :=
  { rob with insts := setAt rob.insts inst (rob.insts inst).setCanCommit }

/-- A ROB of capacity 32 under the `Partitioned` policy with four threads, all
active. -/
def partitionedExample : ROB :=
  construct 4 ⟨.Partitioned, 32, 2, 4, 0⟩ scHeap [0, 1, 2, 3] (fun _ => false)

/-- The state a sequence of calls leaves, or the starting state if a call fails. -/
def stateAfter (rob : ROB) (calls : List Call) : ROB :=
  match rob.run calls with
  | .ok (rob1, _) => rob1
  | .error _ => rob

/-- The squash scenario with the instructions 1 to 5 inserted in this order. -/
def squashScenarioLoaded : ROB :=
  stateAfter squashScenario
    [.insertInst 1, .insertInst 2, .insertInst 3, .insertInst 4, .insertInst 5]

/-- The head pointer refers to an instruction held by an active thread whose
sequence number is least among the instructions the active threads hold. -/
def HeadIsOldest (rob : ROB) : Prop :=
  ∃ p, rob.deref rob.head = some p ∧ (∃ tid ∈ rob.activeThreads, p ∈ rob.instList tid) ∧
    ∀ tid ∈ rob.activeThreads, ∀ q ∈ rob.instList tid, rob.seqOf p ≤ rob.seqOf q

/-- The instructions a sequence of calls inserts, in the order of the calls. -/
def insertsOf : List Call → List Nat
  | [] => []
  | .insertInst inst :: cs => inst :: insertsOf cs
  | .retireHead _ :: cs => insertsOf cs
  | .squash _ _ :: cs => insertsOf cs
  | .doSquash _ :: cs => insertsOf cs

/-- The call is an `insertInst` or a `retireHead`. -/
def Call.isInsertOrRetire : Call → Bool
  | .insertInst _ => true
  | .retireHead _ => true
  | .squash _ _ => false
  | .doSquash _ => false

/-- The state the head pointer relies on: the counters agree with the queues,
only active threads below `MaxThreads` hold instructions, every queue has
strictly increasing sequence numbers, and the head pointer refers to the oldest
instruction when the buffer is not empty. -/
structure HeadInv (rob : ROB) : Prop where
  counted : Counted rob
  inactive : ∀ tid, tid ∉ rob.activeThreads → rob.instList tid = []
  outside : ∀ tid, rob.MaxThreads ≤ tid → rob.instList tid = []
  sorted : ∀ tid, (rob.instList tid).Pairwise (fun a b => rob.seqOf a < rob.seqOf b)
  head : rob.numInstsInROB ≠ 0 → HeadIsOldest rob

/-- A second example ROB: as `exRob`, with thread 0 the only active thread. -/
def exRobOneActive : ROB := construct 4 ⟨.Dynamic, 8, 2, 2, 0⟩ exHeap [0] (fun _ => false)

/-- The value of `ROB::readHeadInst`; `none` is the `dummyInst` it returns for a
thread without entries. -/
def readHeadInst (rob : ROB) (tid : Nat) : Except Fault (Option Nat) :=
  if rob.MaxThreads ≤ tid then .error .undefined
  else if rob.threadEntries tid ≠ 0 then
    match rob.instList tid with
    | [] => .error .undefined
    | head_inst :: _ =>
      if (rob.insts head_inst).isInROB then .ok (some head_inst) else .error .assertion
  else .ok none

/-- The value of `ROB::readTailInst`. -/
def readTailInst (rob : ROB) (tid : Nat) : Except Fault Nat :=
  if rob.MaxThreads ≤ tid then .error .undefined
  else
    match (rob.instList tid).getLast? with
    | none => .error .undefined
    | some tail_inst => .ok tail_inst

/-- The value of `ROB::findInst`; `none` is `NULL`. -/
def findInst (rob : ROB) (tid : Nat) (squash_inst : Nat) : Option Nat :=
  (rob.instList tid).find? (fun it => rob.seqOf it = squash_inst)

/-- The inner loop of `ROB::markAllRunahead` over the instructions of one list. -/
def markRunaheadList (insts : Nat → DynInst) : List Nat → Nat → DynInst
  | [] => insts
  | instPtr :: l => markRunaheadList (setAt insts instPtr (insts instPtr).setRunaheadInst) l

/-- The outer loop of `ROB::markAllRunahead` over the lists of `instList`. -/
def markRunaheadThreads (rob : ROB) : List Nat → (Nat → DynInst) → Nat → DynInst
  | [], insts => insts
  | tid :: tids, insts => markRunaheadThreads rob tids (markRunaheadList insts (rob.instList tid))

/-- The effect of `ROB::markAllRunahead`. -/
def markAllRunahead (rob : ROB) : ROB :=
  { rob with insts := markRunaheadThreads rob (List.range rob.MaxThreads) rob.insts }

/-- The states the ROB can reach after its construction: by the member
functions `insertInst`, `retireHead`, `squash`, `doSquash` and `resetEntries`
where they succeed, and by what happens outside the ROB, the CPU changing its
list of active threads and the execution stage marking an instruction ready. -/
inductive Reachable : ROB → Prop where
  | construct (MaxThreads : Nat) (params : RunaheadO3CPUParams) (insts : Nat → DynInst)
      (activeThreads : List Nat) (threadExiting : Nat → Bool) :
      Reachable (construct MaxThreads params insts activeThreads threadExiting)
  | insertInst {rob rob1 : ROB} (inst : Nat) :
      Reachable rob → rob.insertInst inst = .ok rob1 → Reachable rob1
  | retireHead {rob rob1 : ROB} (tid head_inst : Nat) :
      Reachable rob → rob.retireHead tid = .ok (rob1, head_inst) → Reachable rob1
  | squash {rob rob1 : ROB} (squash_num tid : Nat) :
      Reachable rob → rob.squash squash_num tid = .ok rob1 → Reachable rob1
  | doSquash {rob rob1 : ROB} (tid : Nat) :
      Reachable rob → rob.doSquash tid = .ok rob1 → Reachable rob1
  | resetEntries {rob : ROB} : Reachable rob → Reachable rob.resetEntries
  | setActiveThreads {rob : ROB} (at_ptr : List Nat) :
      Reachable rob → Reachable (rob.setActiveThreads at_ptr)
  | markReady {rob : ROB} (inst : Nat) : Reachable rob → Reachable (rob.markReady inst)

/-- The tail pointer is what `updateTail` computes: the end of list 0 when no
active thread holds an instruction, and otherwise the back of a non-empty active
thread's queue whose back sequence number is greatest among the backs of the
non-empty active queues. -/
def TailIsYoungest (rob : ROB) : Prop :=
  ((∀ t ∈ rob.activeThreads, rob.instList t = []) ∧ rob.tail = .endOf 0) ∨
  (∃ t ∈ rob.activeThreads, ∃ b, (rob.instList t).getLast? = some b ∧
    rob.lastIt t = some rob.tail ∧
    ∀ t1 ∈ rob.activeThreads, ∀ b1, (rob.instList t1).getLast? = some b1 →
      rob.seqOf b1 ≤ rob.seqOf b)

/-- A ROB of capacity 32 under the `Threshold` policy with threshold 10 and four
threads, all active. -/
def thresholdExample : ROB :=
  construct 4 ⟨.Threshold, 32, 2, 4, 10⟩ scHeap [0, 1, 2, 3] (fun _ => false)

/-- The commit scenario with the instructions 1 to 4 inserted in this order,
none of them ready to commit. -/
def commitScenarioLoaded : ROB :=
  stateAfter commitScenario [.insertInst 1, .insertInst 2, .insertInst 3, .insertInst 4]

/-- Another pipeline stage marking an instruction squashed; this happens outside
the ROB. -/
def markSquashedOutside (rob : ROB) (inst : Nat) : ROB :=
  { rob with insts := setAt rob.insts inst (rob.insts inst).setSquashed }

/-- The example ROB holding instruction 7 in thread 1 and the instructions 2
and 4, inserted after it, in thread 0, at the point where `squash(2, 0)` calls
`doSquash(0)`: thread 0 is squashing towards sequence number 2 and its cursor is
on instruction 4, the back of its queue. -/
def exRobTailEntered : ROB :=
  { stateAfter exRob [.insertInst 7, .insertInst 2, .insertInst 4] with
    robStatus :=
      setAt (stateAfter exRob [.insertInst 7, .insertInst 2, .insertInst 4]).robStatus 0
        .ROBSquashing
    doneSquashing :=
      setAt (stateAfter exRob [.insertInst 7, .insertInst 2, .insertInst 4]).doneSquashing 0 false
    squashedSeqNum :=
      setAt (stateAfter exRob [.insertInst 7, .insertInst 2, .insertInst 4]).squashedSeqNum 0 2
    squashIt :=
      setAt (stateAfter exRob [.insertInst 7, .insertInst 2, .insertInst 4]).squashIt 0
        (.node 0 1) }

/-- The example ROB holding instruction 5 in thread 1 and instruction 2,
inserted after it, in thread 0, at the point where `squash(0, 0)` calls
`doSquash(0)`. -/
def exRobEntered : ROB :=
  { stateAfter exRob [.insertInst 5, .insertInst 2] with
    robStatus := setAt (stateAfter exRob [.insertInst 5, .insertInst 2]).robStatus 0 .ROBSquashing
    doneSquashing := setAt (stateAfter exRob [.insertInst 5, .insertInst 2]).doneSquashing 0 false
    squashedSeqNum := setAt (stateAfter exRob [.insertInst 5, .insertInst 2]).squashedSeqNum 0 0
    squashIt := setAt (stateAfter exRob [.insertInst 5, .insertInst 2]).squashIt 0 (.node 0 0) }

/-- The ROB of the squash scenario with squash width zero, holding the
instructions 1 to 5 inserted in this order; its one thread is not exiting. -/
def squashZeroWidthLoaded : ROB :=
  stateAfter (construct 4 ⟨.Dynamic, 8, 0, 1, 0⟩ scHeap [0] (fun _ => false))
    [.insertInst 1, .insertInst 2, .insertInst 3, .insertInst 4, .insertInst 5]

/-! # Properties

## Arrays -/

theorem setAt_same {α : Type} (a : Nat → α) (i : Nat) (v : α) : setAt a i v i = v := by
  simp [setAt]

theorem setAt_other {α : Type} (a : Nat → α) {i j : Nat} (v : α) (h : j ≠ i) :
    setAt a i v j = a j := by
  simp [setAt, h]

theorem sum_setAt (a : Nat → Nat) (i v M : Nat) (h : i < M) :
    ∑ j ∈ Finset.range M, setAt a i v j + a i = ∑ j ∈ Finset.range M, a j + v := by
  induction M with
  | zero => omega
  | succ M ih =>
    rw [Finset.sum_range_succ, Finset.sum_range_succ]
    by_cases hi : i = M
    · subst hi
      have hsum : ∑ j ∈ Finset.range i, setAt a i v j = ∑ j ∈ Finset.range i, a j := by
        apply Finset.sum_congr rfl
        intro j hj
        have hlt := Finset.mem_range.mp hj
        exact setAt_other a v (by omega)
      rw [hsum, setAt_same]
      omega
    · have hlt : i < M := by omega
      have hrec := ih hlt
      rw [setAt_other a v (Ne.symm hi)]
      omega

/-! ## What the squash engine leaves alone -/

theorem SquashFrame.refl (r : ROB) : SquashFrame r r := by
  constructor <;> intros <;> rfl

theorem SquashFrame.trans {a b c : ROB} (h1 : SquashFrame a b) (h2 : SquashFrame b c) :
    SquashFrame a c := by
  constructor
  · rw [h2.MaxThreads, h1.MaxThreads]
  · rw [h2.robPolicy, h1.robPolicy]
  · rw [h2.numEntries, h1.numEntries]
  · rw [h2.squashWidth, h1.squashWidth]
  · rw [h2.numInstsInROB, h1.numInstsInROB]
  · rw [h2.numThreads, h1.numThreads]
  · rw [h2.maxEntries, h1.maxEntries]
  · rw [h2.threadEntries, h1.threadEntries]
  · rw [h2.instList, h1.instList]
  · rw [h2.erased, h1.erased]
  · rw [h2.head, h1.head]
  · rw [h2.activeThreads, h1.activeThreads]
  · rw [h2.threadExiting, h1.threadExiting]
  · intro p; rw [h2.seqNum, h1.seqNum]
  · intro p; rw [h2.threadNumber, h1.threadNumber]

theorem squashFrame_mark (r : ROB) (inst : Nat) :
    SquashFrame r
      { r with insts := setAt r.insts inst (r.insts inst).setSquashed.setCanCommit } := by
  constructor <;> try rfl
  · intro p
    by_cases h : p = inst
    · subst h; simp [setAt, DynInst.setSquashed, DynInst.setCanCommit]
    · simp [setAt, h]
  · intro p
    by_cases h : p = inst
    · subst h; simp [setAt, DynInst.setSquashed, DynInst.setCanCommit]
    · simp [setAt, h]

theorem squashFrame_cursor (r : ROB) (f : Nat → InstIt) (g : Nat → Bool) :
    SquashFrame r { r with squashIt := f, doneSquashing := g } := by
  constructor <;> intros <;> rfl

theorem squashFrame_ite (r : ROB) {a b : ROB} (c : Prop) [Decidable c]
    (h1 : SquashFrame r a) (h2 : SquashFrame r b) : SquashFrame r (if c then a else b) := by
  split
  · exact h1
  · exact h2

theorem doSquashLoop_frame (tid : Nat) (n : Nat) :
    ∀ (rob : ROB) (u : Bool) (m : List Nat) (res : SquashLoop),
      doSquashLoop tid n rob u m = .ok res → SquashFrame rob res.rob := by
  induction n with
  | zero =>
    intro rob u m res h
    simp only [doSquashLoop, Except.ok.injEq] at h
    subst h
    exact SquashFrame.refl rob
  | succ n ih =>
    intro rob u m res h
    simp only [doSquashLoop] at h
    split at h
    · simp only [Except.ok.injEq] at h
      subst h
      exact SquashFrame.refl rob
    · split at h
      · cases h
      · split at h
        · simp only [Except.ok.injEq] at h
          subst h
          exact SquashFrame.refl rob
        · split at h
          · simp only [Except.ok.injEq] at h
            subst h
            exact (squashFrame_mark rob _).trans (squashFrame_cursor _ _ _)
          · split at h
            · refine SquashFrame.trans ?_ (ih _ _ _ _ h)
              exact (squashFrame_mark rob _).trans (by constructor <;> intros <;> rfl)
            · cases h

theorem updateTail_frame {rob rob1 : ROB} (h : rob.updateTail = .ok rob1) :
    SquashFrame rob rob1 := by
  simp only [updateTail] at h
  split at h
  · cases h
  · simp only [Except.ok.injEq] at h
    subst h
    constructor <;> intros <;> rfl

theorem doSquashCheckDone_frame {rob rob1 : ROB} {tid : Nat}
    (h : rob.doSquashCheckDone tid = .ok rob1) : SquashFrame rob rob1 := by
  simp only [doSquashCheckDone] at h
  cases hd : rob.deref (rob.squashIt tid) with
  | none => simp [hd] at h
  | some cur =>
    simp only [hd] at h
    split at h
    · simp only [Except.ok.injEq] at h
      subst h
      exact squashFrame_cursor _ _ _
    · simp only [Except.ok.injEq] at h
      subst h
      exact SquashFrame.refl _

theorem doSquashMarking_frame {rob rob1 : ROB} {tid : Nat} {m : List Nat}
    (h : rob.doSquashMarking tid = .ok (rob1, m)) : SquashFrame rob rob1 := by
  simp only [doSquashMarking] at h
  split at h
  · cases h
  split at h
  · cases h
  cases hd : rob.deref (rob.squashIt tid) with
  | none => simp [hd] at h
  | some inst =>
    simp only [hd] at h
    split at h
    · simp only [Except.ok.injEq, Prod.mk.injEq] at h
      obtain ⟨h, -⟩ := h
      subst h
      exact squashFrame_cursor _ _ _
    cases hl : doSquashLoop tid (if rob.threadExiting tid then rob.numEntries else rob.squashWidth)
        rob false [] with
    | error e => simp [hl] at h
    | ok res =>
      have hf := doSquashLoop_frame _ _ _ _ _ _ hl
      simp only [hl] at h
      split at h
      · simp only [Except.ok.injEq, Prod.mk.injEq] at h
        obtain ⟨h, -⟩ := h
        subst h
        exact hf
      cases hc : res.rob.doSquashCheckDone tid with
      | error e => simp [hc] at h
      | ok rob2 =>
        have hf2 := hf.trans (doSquashCheckDone_frame hc)
        simp only [hc] at h
        split at h
        · cases ht : rob2.updateTail with
          | error e => simp [ht] at h
          | ok rob3 =>
            simp only [ht, Except.ok.injEq, Prod.mk.injEq] at h
            obtain ⟨h, -⟩ := h
            subst h
            exact hf2.trans (updateTail_frame ht)
        · simp only [Except.ok.injEq, Prod.mk.injEq] at h
          obtain ⟨h, -⟩ := h
          subst h
          exact hf2

theorem doSquash_frame {rob rob1 : ROB} {tid : Nat}
    (h : rob.doSquash tid = .ok rob1) : SquashFrame rob rob1 := by
  simp only [doSquash] at h
  split at h
  · cases h
  · rename_i hm
    simp only [Except.ok.injEq] at h
    subst h
    exact doSquashMarking_frame hm

theorem squashMarking_frame {rob rob1 : ROB} {n : Nat} {tid : Nat}
    {m : List Nat} (h : rob.squashMarking n tid = .ok (rob1, m)) :
    SquashFrame rob rob1 := by
  simp only [squashMarking] at h
  split at h
  · cases h
  · split at h
    · simp only [Except.ok.injEq, Prod.mk.injEq] at h
      obtain ⟨h, -⟩ := h
      subst h
      exact SquashFrame.refl _
    · split at h
      · simp only [Except.ok.injEq, Prod.mk.injEq] at h
        obtain ⟨h, -⟩ := h
        subst h
        constructor <;> intros <;> rfl
      · refine SquashFrame.trans ?_ (doSquashMarking_frame h)
        constructor <;> intros <;> rfl

theorem squash_frame {rob rob1 : ROB} {n : Nat} {tid : Nat}
    (h : rob.squash n tid = .ok rob1) : SquashFrame rob rob1 := by
  simp only [squash] at h
  split at h
  · cases h
  · rename_i hm
    simp only [Except.ok.injEq] at h
    subst h
    exact squashMarking_frame hm

/-! ## Recomputing the head pointer -/

theorem updateHead_eq (rob : ROB) : ∃ h, rob.updateHead = { rob with head := h } := by
  simp only [updateHead]
  split
  · exact ⟨_, rfl⟩
  · exact ⟨_, rfl⟩

/-- The loop of `updateHead` once a first non-empty queue has been seen: the
result is the state it started from or the front of one of the scanned queues,
and its sequence number is the least of the starting one and the fronts of the
scanned queues. -/
theorem updateHeadLoop_later (rob : ROB) (threads : List Nat) :
    ∀ (h : InstIt) (low : Nat),
      (updateHeadLoop rob threads (h, low, false)).2.2 = false ∧
      (((updateHeadLoop rob threads (h, low, false)).1 = h ∧
          (updateHeadLoop rob threads (h, low, false)).2.1 = low) ∨
        ∃ t ∈ threads, ∃ a l, rob.instList t = a :: l ∧
          (updateHeadLoop rob threads (h, low, false)).1 = .node t (rob.erased t) ∧
          (updateHeadLoop rob threads (h, low, false)).2.1 = rob.seqOf a) ∧
      (updateHeadLoop rob threads (h, low, false)).2.1 ≤ low ∧
      ∀ t ∈ threads, ∀ a l, rob.instList t = a :: l →
        (updateHeadLoop rob threads (h, low, false)).2.1 ≤ rob.seqOf a := by
  induction threads with
  | nil =>
    intro h low
    simp [updateHeadLoop]
  | cons tid threads ih =>
    intro h low
    cases hl : rob.instList tid with
    | nil =>
      have e : updateHeadLoop rob (tid :: threads) (h, low, false)
          = updateHeadLoop rob threads (h, low, false) := by
        simp [updateHeadLoop, hl]
      rw [e]
      obtain ⟨i1, i2, i3, i4⟩ := ih h low
      refine ⟨i1, ?_, i3, ?_⟩
      · rcases i2 with i2 | ⟨t, ht, a, l, i2⟩
        · exact Or.inl i2
        · exact Or.inr ⟨t, List.mem_cons_of_mem _ ht, a, l, i2⟩
      · intro t ht a l hal
        rcases List.mem_cons.mp ht with ht | ht
        · subst ht
          rw [hl] at hal
          cases hal
        · exact i4 t ht a l hal
    | cons a0 l0 =>
      by_cases hlt : rob.seqOf a0 < low
      · have e : updateHeadLoop rob (tid :: threads) (h, low, false)
            = updateHeadLoop rob threads (.node tid (rob.erased tid), rob.seqOf a0, false) := by
          simp [updateHeadLoop, hl, hlt, beginIt]
        rw [e]
        obtain ⟨i1, i2, i3, i4⟩ := ih (.node tid (rob.erased tid)) (rob.seqOf a0)
        refine ⟨i1, Or.inr ?_, by omega, ?_⟩
        · rcases i2 with ⟨i2, i2'⟩ | ⟨t, ht, a, l, i2⟩
          · exact ⟨tid, List.mem_cons_self _ _, a0, l0, hl, i2, i2'⟩
          · exact ⟨t, List.mem_cons_of_mem _ ht, a, l, i2⟩
        · intro t ht a l hal
          rcases List.mem_cons.mp ht with ht | ht
          · subst ht
            rw [hl] at hal
            cases hal
            exact i3
          · exact i4 t ht a l hal
      · have e : updateHeadLoop rob (tid :: threads) (h, low, false)
            = updateHeadLoop rob threads (h, low, false) := by
          simp [updateHeadLoop, hl, hlt]
        rw [e]
        obtain ⟨i1, i2, i3, i4⟩ := ih h low
        refine ⟨i1, ?_, i3, ?_⟩
        · rcases i2 with i2 | ⟨t, ht, a, l, i2⟩
          · exact Or.inl i2
          · exact Or.inr ⟨t, List.mem_cons_of_mem _ ht, a, l, i2⟩
        · intro t ht a l hal
          rcases List.mem_cons.mp ht with ht | ht
          · subst ht
            rw [hl] at hal
            cases hal
            omega
          · exact i4 t ht a l hal

/-- The loop of `updateHead` from its start: either every scanned queue is
empty and `first_valid` is still set, or the result is the front of a scanned
queue whose sequence number is least among the fronts of the scanned queues. -/
theorem updateHeadLoop_first (rob : ROB) (threads : List Nat) :
    ∀ (h : InstIt) (low : Nat),
      ((updateHeadLoop rob threads (h, low, true)).2.2 = true ∧
        ∀ t ∈ threads, rob.instList t = []) ∨
      ((updateHeadLoop rob threads (h, low, true)).2.2 = false ∧
        (∃ t ∈ threads, ∃ a l, rob.instList t = a :: l ∧
          (updateHeadLoop rob threads (h, low, true)).1 = .node t (rob.erased t) ∧
          (updateHeadLoop rob threads (h, low, true)).2.1 = rob.seqOf a) ∧
        ∀ t ∈ threads, ∀ a l, rob.instList t = a :: l →
          (updateHeadLoop rob threads (h, low, true)).2.1 ≤ rob.seqOf a) := by
  induction threads with
  | nil =>
    intro h low
    simp [updateHeadLoop]
  | cons tid threads ih =>
    intro h low
    cases hl : rob.instList tid with
    | nil =>
      have e : updateHeadLoop rob (tid :: threads) (h, low, true)
          = updateHeadLoop rob threads (h, low, true) := by
        simp [updateHeadLoop, hl]
      rw [e]
      rcases ih h low with ⟨i1, i2⟩ | ⟨i1, ⟨t, ht, a, l, i2⟩, i3⟩
      · refine Or.inl ⟨i1, ?_⟩
        intro t ht
        rcases List.mem_cons.mp ht with ht | ht
        · subst ht; exact hl
        · exact i2 t ht
      · refine Or.inr ⟨i1, ⟨t, List.mem_cons_of_mem _ ht, a, l, i2⟩, ?_⟩
        intro t ht a l hal
        rcases List.mem_cons.mp ht with ht | ht
        · subst ht
          rw [hl] at hal
          cases hal
        · exact i3 t ht a l hal
    | cons a0 l0 =>
      have e : updateHeadLoop rob (tid :: threads) (h, low, true)
          = updateHeadLoop rob threads (.node tid (rob.erased tid), rob.seqOf a0, false) := by
        simp [updateHeadLoop, hl, beginIt]
      rw [e]
      obtain ⟨i1, i2, i3, i4⟩ := updateHeadLoop_later rob threads (.node tid (rob.erased tid))
        (rob.seqOf a0)
      refine Or.inr ⟨i1, ?_, ?_⟩
      · rcases i2 with ⟨i2, i2'⟩ | ⟨t, ht, a, l, i2⟩
        · exact ⟨tid, List.mem_cons_self _ _, a0, l0, hl, i2, i2'⟩
        · exact ⟨t, List.mem_cons_of_mem _ ht, a, l, i2⟩
      · intro t ht a l hal
        rcases List.mem_cons.mp ht with ht | ht
        · subst ht
          rw [hl] at hal
          cases hal
          exact i3
        · exact i4 t ht a l hal

/-- What `updateHead` computes: the end of list 0 when every active thread's
queue is empty, and otherwise the front of a non-empty active queue whose front
sequence number is least among the fronts of the non-empty active queues. -/
theorem updateHead_spec (rob : ROB) :
    ((∀ t ∈ rob.activeThreads, rob.instList t = []) ∧ rob.updateHead.head = .endOf 0) ∨
    (∃ t ∈ rob.activeThreads, ∃ a l, rob.instList t = a :: l ∧
      rob.updateHead.head = .node t (rob.erased t) ∧
      ∀ t1 ∈ rob.activeThreads, ∀ a1 l1, rob.instList t1 = a1 :: l1 →
        rob.seqOf a ≤ rob.seqOf a1) := by
  rcases updateHeadLoop_first rob rob.activeThreads rob.head 0 with
    ⟨i1, i2⟩ | ⟨i1, ⟨t, ht, a, l, i2, i3, i4⟩, i5⟩
  · exact Or.inl ⟨i2, by simp [updateHead, i1]⟩
  · refine Or.inr ⟨t, ht, a, l, i2, ?_, ?_⟩
    · simp [updateHead, i1, i3]
    · intro t1 ht1 a1 l1 h1
      rw [← i4]
      exact i5 t1 ht1 a1 l1 h1


/-- The same, stated on the state `updateHead` returns. -/
theorem updateHead_result {r rob1 : ROB} (h : r.updateHead = rob1) :
    (∃ hd, rob1 = { r with head := hd }) ∧
    (((∀ t ∈ rob1.activeThreads, rob1.instList t = []) ∧ rob1.head = .endOf 0) ∨
      (∃ t ∈ rob1.activeThreads, ∃ a l, rob1.instList t = a :: l ∧
        rob1.head = .node t (rob1.erased t) ∧
        ∀ t1 ∈ rob1.activeThreads, ∀ a1 l1, rob1.instList t1 = a1 :: l1 →
          rob1.seqOf a ≤ rob1.seqOf a1)) := by
  obtain ⟨hd, e⟩ := updateHead_eq r
  have hsp := updateHead_spec r
  rw [h] at e hsp
  refine ⟨⟨hd, e⟩, ?_⟩
  have e1 : rob1.activeThreads = r.activeThreads := by rw [e]
  have e2 : rob1.instList = r.instList := by rw [e]
  have e3 : rob1.erased = r.erased := by rw [e]
  have e4 : rob1.seqOf = r.seqOf := by rw [e]; rfl
  rw [e1, e2, e3, e4]
  exact hsp

/-! ## Iterators and the two queue operations -/

theorem beginIt_of_cons {rob : ROB} {tid : Nat} {a : Nat} {l : List Nat}
    (h : rob.instList tid = a :: l) : rob.beginIt tid = .node tid (rob.erased tid) := by
  simp [beginIt, h]

theorem lastIt_of_ne_nil {rob : ROB} {tid : Nat} (h : rob.instList tid ≠ []) :
    rob.lastIt tid = some (.node tid (rob.erased tid + ((rob.instList tid).length - 1))) := by
  unfold lastIt
  cases hl : rob.instList tid with
  | nil => exact absurd hl h
  | cons a l => simp

theorem deref_node (rob : ROB) (tid : Nat) (i : Nat) :
    rob.deref (.node tid (rob.erased tid + i)) = (rob.instList tid)[i]? := by
  simp [deref]

theorem pushBack_instList (rob : ROB) (tid : Nat) (inst : Nat) :
    (rob.pushBack tid inst).instList tid = rob.instList tid ++ [inst] := by
  simp [pushBack, setAt_same]

theorem beginIt_pushBack (rob : ROB) (tid : Nat) (inst : Nat) :
    (rob.pushBack tid inst).beginIt tid = .node tid (rob.erased tid) := by
  have hne : (rob.pushBack tid inst).instList tid ≠ [] := by simp [pushBack_instList]
  obtain ⟨a, l, hal⟩ := List.exists_cons_of_ne_nil hne
  exact beginIt_of_cons hal

theorem lastIt_pushBack (rob : ROB) (tid : Nat) (inst : Nat) :
    (rob.pushBack tid inst).lastIt tid
      = some (.node tid (rob.erased tid + (rob.instList tid).length)) := by
  rw [lastIt_of_ne_nil (by simp [pushBack_instList])]
  simp [pushBack_instList]
  rfl

theorem insertInst_spec {rob rob1 : ROB} {inst : Nat}
    (h : rob.insertInst inst = .ok rob1) : InsertSpec rob inst rob1 := by
  unfold insertInst at h
  by_cases hfull : rob.numInstsInROB = rob.numEntries
  · simp [hfull] at h
  by_cases hb : rob.MaxThreads ≤ (rob.insts inst).threadNumber
  · simp [hfull, hb] at h
  simp only [hfull, hb, if_false, beginIt_pushBack, lastIt_pushBack] at h
  by_cases hassert : rob.numInstsInROB = 0 ∧
      (rob.pushBack (rob.insts inst).threadNumber inst).deref
        (if rob.numInstsInROB = 0 then
          .node (rob.insts inst).threadNumber (rob.erased (rob.insts inst).threadNumber)
        else rob.head) ≠ some inst
  · rw [if_pos hassert] at h
    cases h
  rw [if_neg hassert] at h
  simp only [Except.ok.injEq] at h
  subst h
  have hhead : rob.numInstsInROB = 0 →
      (rob.instList (rob.insts inst).threadNumber ++ [inst]).head? = some inst := by
    intro h0
    simp only [h0, if_true, true_and, not_not] at hassert
    have hd := deref_node (rob.pushBack (rob.insts inst).threadNumber inst)
      (rob.insts inst).threadNumber 0
    simp only [Nat.add_zero, pushBack_instList] at hd
    have he : (rob.pushBack (rob.insts inst).threadNumber inst).erased = rob.erased := rfl
    rw [he, hassert] at hd
    rw [hd]
    cases (rob.instList (rob.insts inst).threadNumber ++ [inst]) <;> simp
  have hlt : (rob.insts inst).threadNumber < rob.MaxThreads := by omega
  exact ⟨hfull, hlt, hhead, rfl, rfl, rfl, rfl, rfl, rfl, rfl, rfl, rfl, rfl, rfl, rfl, rfl,
    rfl, rfl, rfl, rfl, rfl, rfl⟩

theorem retireHead_spec {rob rob1 : ROB} {tid : Nat} {head_inst : Nat}
    (h : rob.retireHead tid = .ok (rob1, head_inst)) :
    ∃ rest, RetireSpec rob tid rob1 head_inst rest := by
  unfold retireHead at h
  by_cases h0 : rob.numInstsInROB > 0
  swap
  · simp [h0] at h
  by_cases hb : rob.MaxThreads ≤ tid
  · simp [h0, hb] at h
  simp only [h0, hb, not_true, if_false] at h
  cases hl : rob.instList tid with
  | nil => simp [hl] at h
  | cons a rest =>
    simp only [hl] at h
    by_cases hready : ¬ (rob.insts a).isRunaheadInst ∧ ¬ (rob.insts a).readyToCommit
    · rw [if_pos hready] at h
      cases h
    rw [if_neg hready] at h
    simp only [Except.ok.injEq, Prod.mk.injEq] at h
    obtain ⟨h, ha⟩ := h
    subst ha
    obtain ⟨⟨hd, hupd⟩, hsp⟩ := updateHead_result h
    subst hupd
    have hr : (rob.insts a).runaheadInst = true ∨ (rob.insts a).canCommit = true := by
      simp only [DynInst.isRunaheadInst, DynInst.readyToCommit] at hready
      by_cases hr : (rob.insts a).runaheadInst = true
      · exact Or.inl hr
      · right
        by_contra hc
        exact hready ⟨hr, hc⟩
    have hlt : tid < rob.MaxThreads := by omega
    exact ⟨rest, h0, hlt, hl, hr, rfl, rfl, rfl, rfl, rfl, rfl, rfl, rfl, rfl, rfl, rfl,
      rfl, rfl, rfl, rfl, rfl, rfl, rfl, hsp⟩

/-! ## The counters -/

theorem Counted.frame {r r1 : ROB} (hf : SquashFrame r r1) (h : Counted r) : Counted r1 := by
  constructor
  · intro tid ht
    rw [hf.threadEntries, hf.instList]
    exact h.entries tid (hf.MaxThreads ▸ ht)
  · rw [hf.numInstsInROB, sumThreadEntries, hf.threadEntries, hf.MaxThreads]
    exact h.total
  · rw [hf.numInstsInROB, hf.numEntries]
    exact h.bound

theorem Counted.insert {rob rob1 : ROB} {inst : Nat} (h : Counted rob)
    (hi : rob.insertInst inst = .ok rob1) : Counted rob1 := by
  have hs := insertInst_spec hi
  constructor
  · intro tid ht
    rw [hs.MaxThreads] at ht
    rw [hs.threadEntries, hs.instList]
    by_cases htid : tid = (rob.insts inst).threadNumber
    · subst htid
      rw [setAt_same, setAt_same, h.entries _ ht]
      simp
    · rw [setAt_other _ _ htid, setAt_other _ _ htid]
      exact h.entries tid ht
  · rw [hs.numInstsInROB, sumThreadEntries, hs.threadEntries, hs.MaxThreads]
    have hsum := sum_setAt rob.threadEntries (rob.insts inst).threadNumber
      (rob.threadEntries (rob.insts inst).threadNumber + 1) rob.MaxThreads hs.tidBound
    have ht := h.total
    unfold sumThreadEntries at ht
    omega
  · rw [hs.numInstsInROB, hs.numEntries]
    have := h.bound
    have := hs.notFull
    omega

theorem Counted.retire {rob rob1 : ROB} {tid head_inst : Nat} (h : Counted rob)
    (hr : rob.retireHead tid = .ok (rob1, head_inst)) : Counted rob1 := by
  obtain ⟨rest, hs⟩ := retireHead_spec hr
  have hlen : rob.threadEntries tid = rest.length + 1 := by
    rw [h.entries tid hs.tidBound, hs.queue]
    rfl
  constructor
  · intro t ht
    rw [hs.MaxThreads] at ht
    rw [hs.threadEntries, hs.instList]
    by_cases htid : t = tid
    · subst htid
      rw [setAt_same, setAt_same, hlen]
      rfl
    · rw [setAt_other _ _ htid, setAt_other _ _ htid]
      exact h.entries t ht
  · rw [hs.numInstsInROB, sumThreadEntries, hs.threadEntries, hs.MaxThreads]
    have hsum := sum_setAt rob.threadEntries tid (rob.threadEntries tid - 1) rob.MaxThreads
      hs.tidBound
    have ht := h.total
    unfold sumThreadEntries at ht
    omega
  · rw [hs.numInstsInROB, hs.numEntries]
    have := h.bound
    omega

theorem Counted.stepCall {rob rob1 : ROB} {c : Call} {ev : List Event} (h : Counted rob)
    (hs : rob.step c = .ok (rob1, ev)) : Counted rob1 := by
  cases c with
  | insertInst inst =>
    simp only [ROB.step] at hs
    cases hi : rob.insertInst inst with
    | error e => simp [hi] at hs
    | ok r =>
      simp only [hi, Except.ok.injEq, Prod.mk.injEq] at hs
      rw [← hs.1]
      exact h.insert hi
  | retireHead tid =>
    simp only [ROB.step] at hs
    cases hi : rob.retireHead tid with
    | error e => simp [hi] at hs
    | ok r =>
      obtain ⟨r, p⟩ := r
      simp only [hi, Except.ok.injEq, Prod.mk.injEq] at hs
      rw [← hs.1]
      exact h.retire hi
  | squash n tid =>
    simp only [ROB.step] at hs
    cases hi : rob.squash n tid with
    | error e => simp [hi] at hs
    | ok r =>
      simp only [hi, Except.ok.injEq, Prod.mk.injEq] at hs
      rw [← hs.1]
      exact h.frame (squash_frame hi)
  | doSquash tid =>
    simp only [ROB.step] at hs
    cases hi : rob.doSquash tid with
    | error e => simp [hi] at hs
    | ok r =>
      simp only [hi, Except.ok.injEq, Prod.mk.injEq] at hs
      rw [← hs.1]
      exact h.frame (doSquash_frame hi)

theorem run_cons_ok {rob rob2 : ROB} {c : Call} {cs : List Call} {evs : List Event}
    (h : rob.run (c :: cs) = .ok (rob2, evs)) :
    ∃ rob1 ev evs1, rob.step c = .ok (rob1, ev) ∧ rob1.run cs = .ok (rob2, evs1) ∧
      evs = ev ++ evs1 := by
  simp only [run] at h
  cases hs : rob.step c with
  | error e => simp [hs] at h
  | ok r =>
    obtain ⟨r, ev⟩ := r
    simp only [hs] at h
    cases hr : r.run cs with
    | error e => simp [hr] at h
    | ok q =>
      obtain ⟨q, evs1⟩ := q
      simp only [hr, Except.ok.injEq, Prod.mk.injEq] at h
      exact ⟨r, ev, evs1, rfl, h.1 ▸ hr, h.2.symm⟩

theorem Counted.runCalls {cs : List Call} : ∀ {rob rob1 : ROB} {evs : List Event},
    Counted rob → rob.run cs = .ok (rob1, evs) → Counted rob1 := by
  induction cs with
  | nil =>
    intro rob rob1 evs h hr
    simp only [ROB.run, Except.ok.injEq, Prod.mk.injEq] at hr
    rw [← hr.1]
    exact h
  | cons c cs ih =>
    intro rob rob1 evs h hr
    obtain ⟨r, ev, evs1, hs, hrest, -⟩ := run_cons_ok hr
    exact ih (h.stepCall hs) hrest

theorem run_take_ok {cs : List Call} : ∀ {rob rob1 : ROB} {evs : List Event} (k : Nat),
    rob.run cs = .ok (rob1, evs) → ∃ r e, rob.run (cs.take k) = .ok (r, e) := by
  induction cs with
  | nil =>
    intro rob rob1 evs k _
    exact ⟨rob, [], by simp [ROB.run]⟩
  | cons c cs ih =>
    intro rob rob1 evs k hr
    cases k with
    | zero => exact ⟨rob, [], by simp [ROB.run]⟩
    | succ k =>
      obtain ⟨r, ev, evs1, hs, hrest, -⟩ := run_cons_ok hr
      obtain ⟨q, e, hq⟩ := ih k hrest
      exact ⟨q, ev ++ e, by simp [ROB.run, hs, hq]⟩

theorem Counted.reset (rob : ROB)
    (hempty : ∀ tid, tid < rob.MaxThreads → rob.instList tid = []) : Counted rob.resetState := by
  constructor
  · intro tid ht
    have ht1 : tid < rob.MaxThreads := ht
    simp only [ROB.resetState, ht1, if_true]
    rw [hempty tid ht1]
    rfl
  · simp only [ROB.resetState, sumThreadEntries]
    symm
    apply Finset.sum_eq_zero
    intro tid ht
    simp [Finset.mem_range.mp ht]
  · simp [ROB.resetState]

/-- C1: starting from a freshly reset ROB (every queue empty, `resetState` just
run), after every call of a sequence of `insertInst` and `retireHead` calls
(and of `squash` and `doSquash` calls, if any) that all succeed,
`numInstsInROB` is the sum of `threadEntries[tid]` over all thread ids and is at
most `numEntries`.  The state after the first `k` calls is the result of
running the first `k` calls. -/
theorem counters_agree_after_every_call (rob0 : ROB) (calls : List Call) (rob1 : ROB)
    (evs : List Event) (hempty : ∀ tid, tid < rob0.MaxThreads → rob0.instList tid = [])
    (hrun : rob0.resetState.run calls = .ok (rob1, evs)) (k : Nat) :
    ∃ r e, rob0.resetState.run (calls.take k) = .ok (r, e) ∧
      r.numInstsInROB = ∑ tid ∈ Finset.range r.MaxThreads, r.threadEntries tid ∧
      r.numInstsInROB ≤ r.numEntries := by
  obtain ⟨r, e, hr⟩ := run_take_ok k hrun
  have hc := (Counted.reset rob0 hempty).runCalls hr
  exact ⟨r, e, hr, hc.total, hc.bound⟩


theorem counters_agree_after_every_call_witness :
    ∃ r e, exRob.resetState.run
        ([Call.insertInst 1, Call.insertInst 2, Call.retireHead 1, Call.insertInst 3].take 3)
          = .ok (r, e) ∧
      r.numInstsInROB = ∑ tid ∈ Finset.range r.MaxThreads, r.threadEntries tid ∧
      r.numInstsInROB ≤ r.numEntries := by
  have hex : ∃ rob1 evs, exRob.resetState.run
      [Call.insertInst 1, Call.insertInst 2, Call.retireHead 1, Call.insertInst 3]
        = .ok (rob1, evs) := ⟨_, _, rfl⟩
  obtain ⟨rob1, evs, h⟩ := hex
  exact counters_agree_after_every_call exRob _ rob1 evs (fun _ _ => rfl) h 3

/-! ## Retirement order -/

theorem insertedOf_append (tid : Nat) (a b : List Event) :
    insertedOf tid (a ++ b) = insertedOf tid a ++ insertedOf tid b := by
  induction a with
  | nil => rfl
  | cons e a ih =>
    cases e with
    | inserted t inst =>
      by_cases h : t = tid
      · simp [insertedOf, h, ih]
      · simp [insertedOf, h, ih]
    | released t inst => simp [insertedOf, ih]

theorem releasedOf_append (tid : Nat) (a b : List Event) :
    releasedOf tid (a ++ b) = releasedOf tid a ++ releasedOf tid b := by
  induction a with
  | nil => rfl
  | cons e a ih =>
    cases e with
    | inserted t inst => simp [releasedOf, ih]
    | released t inst =>
      by_cases h : t = tid
      · simp [releasedOf, h, ih]
      · simp [releasedOf, h, ih]

theorem step_queue {rob rob1 : ROB} {c : Call} {ev : List Event} (tid : Nat)
    (hs : rob.step c = .ok (rob1, ev)) :
    rob.instList tid ++ insertedOf tid ev = releasedOf tid ev ++ rob1.instList tid := by
  cases c with
  | insertInst inst =>
    simp only [ROB.step] at hs
    cases hi : rob.insertInst inst with
    | error e => simp [hi] at hs
    | ok r =>
      simp only [hi, Except.ok.injEq, Prod.mk.injEq] at hs
      obtain ⟨h1, h2⟩ := hs
      subst h1 h2
      have hsp := insertInst_spec hi
      rw [hsp.instList]
      by_cases ht : (rob.insts inst).threadNumber = tid
      · subst ht
        simp [insertedOf, releasedOf, setAt_same]
      · have ht2 : tid ≠ (rob.insts inst).threadNumber := fun h => ht h.symm
        simp [insertedOf, releasedOf, ht, setAt_other _ _ ht2]
  | retireHead t =>
    simp only [ROB.step] at hs
    cases hi : rob.retireHead t with
    | error e => simp [hi] at hs
    | ok r =>
      obtain ⟨r, p⟩ := r
      simp only [hi, Except.ok.injEq, Prod.mk.injEq] at hs
      obtain ⟨h1, h2⟩ := hs
      subst h1 h2
      obtain ⟨rest, hsp⟩ := retireHead_spec hi
      rw [hsp.instList]
      by_cases ht : t = tid
      · subst ht
        simp [insertedOf, releasedOf, setAt_same, hsp.queue]
      · have ht2 : tid ≠ t := fun h => ht h.symm
        simp [insertedOf, releasedOf, ht, setAt_other _ _ ht2]
  | squash n t =>
    simp only [ROB.step] at hs
    cases hi : rob.squash n t with
    | error e => simp [hi] at hs
    | ok r =>
      simp only [hi, Except.ok.injEq, Prod.mk.injEq] at hs
      obtain ⟨h1, h2⟩ := hs
      subst h1 h2
      rw [(squash_frame hi).instList]
      simp [insertedOf, releasedOf]
  | doSquash t =>
    simp only [ROB.step] at hs
    cases hi : rob.doSquash t with
    | error e => simp [hi] at hs
    | ok r =>
      simp only [hi, Except.ok.injEq, Prod.mk.injEq] at hs
      obtain ⟨h1, h2⟩ := hs
      subst h1 h2
      rw [(doSquash_frame hi).instList]
      simp [insertedOf, releasedOf]

theorem run_queue {cs : List Call} (tid : Nat) : ∀ {rob rob1 : ROB} {evs : List Event},
    rob.run cs = .ok (rob1, evs) →
    rob.instList tid ++ insertedOf tid evs = releasedOf tid evs ++ rob1.instList tid := by
  induction cs with
  | nil =>
    intro rob rob1 evs hr
    simp only [ROB.run, Except.ok.injEq, Prod.mk.injEq] at hr
    obtain ⟨h1, h2⟩ := hr
    subst h1 h2
    simp [insertedOf, releasedOf]
  | cons c cs ih =>
    intro rob rob1 evs hr
    obtain ⟨r, ev, evs1, hs, hrest, hev⟩ := run_cons_ok hr
    subst hev
    rw [insertedOf_append, releasedOf_append, ← List.append_assoc, step_queue tid hs,
      List.append_assoc, ih hrest, List.append_assoc]

/-- C2: retirement per thread is first in, first out.  For every thread `tid`
whose queue is empty at the start and every sequence of `insertInst`,
`retireHead`, `squash` and `doSquash` calls that all succeed, the instructions
released by the successive `retireHead(tid)` calls are, in order, an initial
segment of the instructions inserted into thread `tid` in insertion order; what
is left of the inserted instructions is the thread's queue. -/
theorem retirement_is_fifo (rob0 : ROB) (calls : List Call) (rob1 : ROB) (evs : List Event)
    (tid : Nat) (hempty : rob0.instList tid = [])
    (hrun : rob0.run calls = .ok (rob1, evs)) :
    releasedOf tid evs <+: insertedOf tid evs ∧
      insertedOf tid evs = releasedOf tid evs ++ rob1.instList tid := by
  have h := run_queue tid hrun
  rw [hempty, List.nil_append] at h
  exact ⟨⟨rob1.instList tid, h.symm⟩, h⟩

theorem retirement_is_fifo_witness :
    releasedOf 1 [.inserted 1 1, .inserted 0 2, .inserted 1 3, .released 1 1, .released 0 2]
      <+: insertedOf 1 [.inserted 1 1, .inserted 0 2, .inserted 1 3, .released 1 1, .released 0 2]
    ∧ insertedOf 1 [.inserted 1 1, .inserted 0 2, .inserted 1 3, .released 1 1, .released 0 2]
      = releasedOf 1 [.inserted 1 1, .inserted 0 2, .inserted 1 3, .released 1 1, .released 0 2]
        ++ [3] := by
  have hex : ∃ rob1, exRob.run
      [Call.insertInst 1, Call.insertInst 2, Call.insertInst 3, Call.retireHead 1,
        Call.retireHead 0]
        = .ok (rob1, [.inserted 1 1, .inserted 0 2, .inserted 1 3, .released 1 1, .released 0 2])
        ∧ rob1.instList 1 = [3] :=
    ⟨_, rfl, rfl⟩
  obtain ⟨rob1, h, hq⟩ := hex
  have := retirement_is_fifo exRob _ rob1 _ 1 rfl h
  rw [hq] at this
  exact this

/-! ## Retiring from an empty queue -/

/-- C3 (the code does not do this): thread 0 of the example ROB holds one
instruction and thread 1 holds none, `threadEntries[1] == 0`.  The call
`retireHead(1)` passes `assert(numInstsInROB > 0)` and dereferences
`instList[1].begin()` of the empty list; it is not rejected by an assertion.
The sibling query `isHeadReady(1)` guards the same read by
`threadEntries[1] != 0`. -/
theorem retireHead_empty_thread_not_asserted :
    ∃ rob, exRob.insertInst 2 = .ok rob ∧ rob.numInstsInROB = 1 ∧ rob.threadEntries 1 = 0 ∧
      rob.instList 1 = [] ∧ rob.retireHead 1 = .error .undefined ∧
      rob.isHeadReady 1 = .ok false :=
  ⟨_, rfl, rfl, rfl, rfl, rfl, rfl⟩

/-! ## The head and tail pointers after an insertion -/

/-- C4: after every successful `insertInst(inst)` the tail pointer refers to
`inst`, at the back of its thread's queue; the head pointer refers to `inst`
when the buffer was globally empty before the call (`numInstsInROB == 0`) and is
left unchanged otherwise. -/
theorem insertInst_tail_and_head (rob rob1 : ROB) (inst : Nat)
    (h : rob.insertInst inst = .ok rob1) :
    rob1.deref rob1.tail = some inst ∧
      rob1.lastIt (rob.insts inst).threadNumber = some rob1.tail ∧
      (rob.numInstsInROB = 0 → rob1.deref rob1.head = some inst) ∧
      (rob.numInstsInROB ≠ 0 → rob1.head = rob.head) := by
  have hs := insertInst_spec h
  have hl : rob1.instList (rob.insts inst).threadNumber
      = rob.instList (rob.insts inst).threadNumber ++ [inst] := by
    rw [hs.instList, setAt_same]
  refine ⟨?_, ?_, ?_, ?_⟩
  · rw [hs.tail, ← hs.erased, deref_node, hl]
    simp
  · rw [lastIt_of_ne_nil (by rw [hl]; simp), hl, hs.tail, hs.erased]
    simp
  · intro h0
    rw [hs.head, if_pos h0]
    have hd := deref_node rob1 (rob.insts inst).threadNumber 0
    rw [Nat.add_zero, hs.erased, hl] at hd
    rw [hd, ← hs.headInst h0]
    cases (rob.instList (rob.insts inst).threadNumber ++ [inst]) <;> simp
  · intro h0
    rw [hs.head, if_neg h0]

theorem insertInst_tail_and_head_witness :
    ∃ rob1, exRob.insertInst 2 = .ok rob1 ∧ rob1.deref rob1.tail = some 2 ∧
      rob1.lastIt (exRob.insts 2).threadNumber = some rob1.tail ∧
      (exRob.numInstsInROB = 0 → rob1.deref rob1.head = some 2) ∧
      (exRob.numInstsInROB ≠ 0 → rob1.head = exRob.head) := by
  have hex : ∃ rob1, exRob.insertInst 2 = .ok rob1 := ⟨_, rfl⟩
  obtain ⟨rob1, h⟩ := hex
  exact ⟨rob1, h, insertInst_tail_and_head exRob rob1 2 h⟩

/-! ## The two scenarios -/

/-- C8: squash width 2, one active thread that is not exiting, holding the
instructions with sequence numbers 1 to 5 inserted in this order.
`squash(2, 0)` runs a first `doSquash` pass that marks exactly 5 and 4 squashed
and ready to commit, leaves `doneSquashing[0]` false and the cursor on sequence
number 3; a second `doSquash(0)` marks exactly 3, leaves 1 and 2 unmarked, sets
`doneSquashing[0]` and resets the cursor to the end of the list. -/
theorem squash_scenario :
    ∃ r5 evs r6 r7,
      squashScenario.run [.insertInst 1, .insertInst 2, .insertInst 3, .insertInst 4,
        .insertInst 5] = .ok (r5, evs) ∧
      r5.instList 0 = [1, 2, 3, 4, 5] ∧
      [1, 2, 3, 4, 5].map r5.seqOf = [1, 2, 3, 4, 5] ∧
      [1, 2, 3, 4, 5].map (fun p => ((r5.insts p).squashed, (r5.insts p).canCommit))
        = [(false, false), (false, false), (false, false), (false, false), (false, false)] ∧
      r5.squashMarking 2 0 = .ok (r6, [5, 4]) ∧
      [1, 2, 3, 4, 5].map (fun p => ((r6.insts p).squashed, (r6.insts p).canCommit))
        = [(false, false), (false, false), (false, false), (true, true), (true, true)] ∧
      r6.doneSquashing 0 = false ∧
      r6.deref (r6.squashIt 0) = some 3 ∧
      r6.doSquashMarking 0 = .ok (r7, [3]) ∧
      [1, 2, 3, 4, 5].map (fun p => ((r7.insts p).squashed, (r7.insts p).canCommit))
        = [(false, false), (false, false), (true, true), (true, true), (true, true)] ∧
      r7.doneSquashing 0 = true ∧
      r7.squashIt 0 = .endOf 0 ∧
      r7.instList 0 = [1, 2, 3, 4, 5] :=
  ⟨_, _, _, _, rfl, rfl, rfl, rfl, rfl, rfl, rfl, rfl, rfl, rfl, rfl, rfl, rfl⟩

/-- C9: capacity 4, policy `Dynamic`, one active thread.  After inserting the
instructions with sequence numbers 1 to 4, none ready to commit, `canCommit()`
is false; once the head instruction is marked ready `canCommit()` is true, and
one `retireHead(0)` releases the instruction with sequence number 1 with `inROB`
cleared and `committed` set, leaves `threadEntries[0] == 3` and
`numInstsInROB == 3`, and leaves the head pointer on the instruction with
sequence number 2. -/
theorem commit_scenario :
    ∃ r4 evs r5 released,
      commitScenario.run [.insertInst 1, .insertInst 2, .insertInst 3, .insertInst 4]
        = .ok (r4, evs) ∧
      r4.instList 0 = [1, 2, 3, 4] ∧
      [1, 2, 3, 4].map r4.seqOf = [1, 2, 3, 4] ∧
      [1, 2, 3, 4].map (fun p => (r4.insts p).canCommit) = [false, false, false, false] ∧
      r4.canCommit = .ok false ∧
      (r4.markReady 1).canCommit = .ok true ∧
      (r4.markReady 1).retireHead 0 = .ok (r5, released) ∧
      r5.seqOf released = 1 ∧
      (r5.insts released).inROB = false ∧
      (r5.insts released).committed = true ∧
      r5.threadEntries 0 = 3 ∧
      r5.numInstsInROB = 3 ∧
      (r5.deref r5.head).map r5.seqOf = some 2 ∧
      r5.instList 0 = [2, 3, 4] :=
  ⟨_, _, _, _, rfl, rfl, rfl, rfl, rfl, rfl, rfl, rfl, rfl, rfl, rfl, rfl, rfl, rfl⟩

/-! ## Quotas under the partitioned policy -/

theorem resetEntriesLoop_partitioned (n : Nat) (threads : List Nat) :
    ∀ rob : ROB, rob.robPolicy = .Partitioned →
      ∀ tid, (resetEntriesLoop n threads rob).maxEntries tid
        = if tid ∈ threads then rob.numEntries / n else rob.maxEntries tid := by
  induction threads with
  | nil =>
    intro rob _ tid
    simp [resetEntriesLoop]
  | cons t threads ih =>
    intro rob hp tid
    simp only [resetEntriesLoop, hp, if_true]
    rw [ih _ rfl]
    by_cases h1 : tid ∈ threads
    · simp [h1]
    · by_cases h2 : tid = t
      · subst h2
        simp [h1, setAt_same]
      · simp [h1, h2, setAt_other _ _ h2]

/-- C10: under the `Partitioned` policy, after `resetEntries()` with `n >= 1`
active threads every active thread's `maxEntries[tid]` is `numEntries / n` by
integer division and `maxEntries` of the other threads is unchanged;
`entryAmount(n)` returns the same `numEntries / n`.  Under every other policy
`entryAmount` returns 0.  `entryAmount` is a query: it returns a number and no
state. -/
theorem partitioned_quota (rob : ROB) :
    (rob.robPolicy = .Partitioned →
      (∀ tid ∈ rob.activeThreads,
        rob.resetEntries.maxEntries tid = rob.numEntries / rob.activeThreads.length) ∧
      (∀ tid, tid ∉ rob.activeThreads → rob.resetEntries.maxEntries tid = rob.maxEntries tid) ∧
      (∀ n, 1 ≤ n → rob.entryAmount n = .ok (rob.numEntries / n))) ∧
    (rob.robPolicy ≠ .Partitioned → ∀ n, rob.entryAmount n = .ok 0) := by
  constructor
  · intro hp
    have hre : rob.resetEntries
        = resetEntriesLoop rob.activeThreads.length rob.activeThreads rob := by
      simp [resetEntries, hp]
    refine ⟨?_, ?_, ?_⟩
    · intro tid ht
      rw [hre, resetEntriesLoop_partitioned _ _ _ hp, if_pos ht]
    · intro tid ht
      rw [hre, resetEntriesLoop_partitioned _ _ _ hp, if_neg ht]
    · intro n hn
      have : n ≠ 0 := by omega
      simp [entryAmount, hp, this]
  · intro hp n
    simp [entryAmount, hp]

theorem partitioned_quota_witness :
    (∀ tid ∈ [0, 1, 2, 3], partitionedExample.resetEntries.maxEntries tid = 8) ∧
      partitionedExample.resetEntries.maxEntries 4 = 0 ∧
      partitionedExample.entryAmount 4 = .ok 8 ∧
      squashScenario.entryAmount 4 = .ok 0 := by
  have h := (partitioned_quota partitionedExample).1 rfl
  have h2 := (partitioned_quota squashScenario).2 (by decide) 4
  refine ⟨?_, ?_, ?_, h2⟩
  · intro tid ht
    exact h.1 tid ht
  · exact h.2.1 4 (by decide)
  · exact h.2.2 4 (by decide)

/-! ## The squash loop -/

theorem markAll_nil (insts : Nat → DynInst) : markAll insts [] = insts := by
  funext p
  simp [markAll]

theorem markAll_cons (insts : Nat → DynInst) (p : Nat) (ps : List Nat) :
    markAll (setAt insts p (insts p).setSquashed.setCanCommit) ps = markAll insts (p :: ps) := by
  funext x
  by_cases hx : x = p
  · subst hx
    by_cases hm : x ∈ ps
    · simp [markAll, hm, setAt, DynInst.setSquashed, DynInst.setCanCommit]
    · simp [markAll, hm, setAt]
  · by_cases hm : x ∈ ps
    · simp [markAll, hm, hx, setAt]
    · simp [markAll, hm, hx, setAt]

theorem markAll_seqNum (insts : Nat → DynInst) (ps : List Nat) (p : Nat) :
    (markAll insts ps p).seqNum = (insts p).seqNum := by
  by_cases h : p ∈ ps
  · simp [markAll, h, DynInst.setSquashed, DynInst.setCanCommit]
  · simp [markAll, h]

/-- What the squash loop does in every state: it marks the instructions it
lists, at most as many as its quota, each of them above the squash target, and changes no other instruction. -/
theorem doSquashLoop_marks (tid : Nat) (n : Nat) :
    ∀ (rob : ROB) (u : Bool) (m : List Nat) (res : SquashLoop),
      doSquashLoop tid n rob u m = .ok res →
      ∃ new, res.marked = m ++ new ∧ new.length ≤ n ∧
        res.rob.insts = markAll rob.insts new ∧
        (∀ x ∈ new, rob.squashedSeqNum tid < rob.seqOf x) ∧
        res.rob.squashedSeqNum = rob.squashedSeqNum ∧
        res.rob.robStatus = rob.robStatus ∧
        res.rob.tail = rob.tail ∧
        (∀ t, t ≠ tid → res.rob.squashIt t = rob.squashIt t ∧
          res.rob.doneSquashing t = rob.doneSquashing t) := by
  induction n with
  | zero =>
    intro rob u m res h
    simp only [doSquashLoop, Except.ok.injEq] at h
    subst h
    exact ⟨[], by simp, by simp, (markAll_nil _).symm, by simp, rfl, rfl, rfl,
      fun _ _ => ⟨rfl, rfl⟩⟩
  | succ n ih =>
    intro rob u m res h
    have hnil : ∃ new, (⟨rob, u, false, m⟩ : SquashLoop).marked = m ++ new ∧ new.length ≤ n + 1 ∧
        rob.insts = markAll rob.insts new ∧
        (∀ x ∈ new, rob.squashedSeqNum tid < rob.seqOf x) ∧
        rob.squashedSeqNum = rob.squashedSeqNum ∧ rob.robStatus = rob.robStatus ∧
        rob.tail = rob.tail ∧
        (∀ t, t ≠ tid → rob.squashIt t = rob.squashIt t ∧
          rob.doneSquashing t = rob.doneSquashing t) :=
      ⟨[], by simp, by simp, (markAll_nil _).symm, by simp, rfl, rfl, rfl,
        fun _ _ => ⟨rfl, rfl⟩⟩
    simp only [doSquashLoop] at h
    by_cases hend : rob.squashIt tid = .endOf tid
    · simp only [hend, if_true, Except.ok.injEq] at h
      subst h
      exact hnil
    simp only [hend, if_false] at h
    cases hd : rob.deref (rob.squashIt tid) with
    | none => simp [hd] at h
    | some inst =>
      simp only [hd] at h
      by_cases hseq : rob.seqOf inst > rob.squashedSeqNum tid
      swap
      · simp only [hseq, not_false_eq_true, if_true, Except.ok.injEq] at h
        subst h
        exact hnil
      simp only [hseq, not_true, if_false] at h
      by_cases hbeg : rob.squashIt tid
          = ROB.beginIt { rob with
              insts := setAt rob.insts inst (rob.insts inst).setSquashed.setCanCommit } tid
      · simp only [hbeg, if_true, Except.ok.injEq] at h
        subst h
        refine ⟨[inst], rfl, by simp, ?_, ?_, rfl, rfl, rfl, ?_⟩
        · exact (markAll_cons rob.insts inst []).symm.trans (by rw [markAll_nil]) |>.symm
        · intro x hx
          simp only [List.mem_singleton] at hx
          subst hx
          exact hseq
        · intro t ht
          exact ⟨setAt_other _ _ ht, setAt_other _ _ ht⟩
      simp only [hbeg, if_false] at h
      cases hl : (rob.instList tid).getLast? with
      | none => simp [hl] at h
      | some tail_inst =>
        cases hp : ROB.prevIt { rob with
              insts := setAt rob.insts inst (rob.insts inst).setSquashed.setCanCommit }
            (rob.squashIt tid) with
        | none => simp [hl, hp] at h
        | some it =>
          simp only [hl, hp] at h
          obtain ⟨new, h1, h2, h3, h4, h5, h6, h7, h8⟩ := ih _ _ _ _ h
          refine ⟨inst :: new, ?_, ?_, ?_, ?_, h5, h6, h7, ?_⟩
          · rw [h1]; simp
          · simp; omega
          · rw [h3]
            exact markAll_cons rob.insts inst new
          · intro x hx
            rcases List.mem_cons.mp hx with hx | hx
            · subst hx; exact hseq
            · have := h4 x hx
              simp only [seqOf] at this ⊢
              by_cases hxi : x = inst
              · subst hxi; exact hseq
              · simpa [setAt, hxi] using this
          · intro t ht
            obtain ⟨a, b⟩ := h8 t ht
            exact ⟨a.trans (setAt_other _ _ ht), b⟩

theorem getElem?_append_cons (pre : List Nat) (p : Nat) (suf : List Nat) :
    (pre ++ p :: suf)[pre.length]? = some p := by
  induction pre with
  | nil => simp
  | cons a l ih => simpa using ih

theorem exists_getLast?_of_ne_nil {l : List Nat} (h : l ≠ []) : ∃ t, l.getLast? = some t := by
  cases hl : l.getLast? with
  | none => exact absurd (List.getLast?_eq_none_iff.mp hl) h
  | some t => exact ⟨t, rfl⟩

theorem CursorAt.deref {rob : ROB} {tid : Nat} {pre : List Nat} {p : Nat} {suf : List Nat}
    (h : CursorAt rob tid pre p suf) : rob.deref (rob.squashIt tid) = some p := by
  rw [h.2, deref_node, h.1]
  exact getElem?_append_cons pre p suf

theorem CursorAt.beginIt {rob : ROB} {tid : Nat} {pre : List Nat} {p : Nat} {suf : List Nat}
    (h : CursorAt rob tid pre p suf) : rob.beginIt tid = .node tid (rob.erased tid) := by
  cases pre with
  | nil => exact beginIt_of_cons h.1
  | cons a l => exact beginIt_of_cons h.1

theorem CursorAt.not_end {rob : ROB} {tid : Nat} {pre : List Nat} {p : Nat} {suf : List Nat}
    (h : CursorAt rob tid pre p suf) : rob.squashIt tid ≠ .endOf tid := by
  rw [h.2]
  intro hc
  cases hc

/-- The squash loop started with its cursor on an instruction of the queue runs
to its end, and either marks everything from the cursor to the front of the
queue and returns from `doSquash`, or marks the instructions `mid` behind a new
cursor position and stops there because the quota is used up or the
instruction under the cursor is not above the squash target. -/
theorem doSquashLoop_cursor (tid : Nat) (n : Nat) :
    ∀ (rob : ROB) (u : Bool) (m pre : List Nat) (p : Nat) (suf : List Nat),
      CursorAt rob tid pre p suf →
      ∃ res, doSquashLoop tid n rob u m = .ok res ∧
        ((res.returned = true ∧ res.marked = m ++ (pre ++ [p]).reverse ∧
            res.rob.squashIt tid = .endOf tid ∧ res.rob.doneSquashing tid = true) ∨
          (res.returned = false ∧ ∃ pre1 p1 mid, pre ++ [p] = pre1 ++ p1 :: mid ∧
            res.marked = m ++ mid.reverse ∧ CursorAt res.rob tid pre1 p1 (mid ++ suf) ∧
            res.rob.doneSquashing = rob.doneSquashing ∧
            (mid.length = n ∨ rob.seqOf p1 ≤ rob.squashedSeqNum tid))) := by
  induction n with
  | zero =>
    intro rob u m pre p suf hc
    refine ⟨⟨rob, u, false, m⟩, rfl, Or.inr ⟨rfl, pre, p, [], by simp, by simp, ?_, rfl, Or.inl rfl⟩⟩
    simpa using hc
  | succ n ih =>
    intro rob u m pre p suf hc
    by_cases hseq : rob.seqOf p > rob.squashedSeqNum tid
    swap
    · refine ⟨⟨rob, u, false, m⟩, ?_, Or.inr ⟨rfl, pre, p, [], by simp, by simp, ?_, rfl,
        Or.inr (by omega)⟩⟩
      · simp [doSquashLoop, hc.not_end, hc.deref, hseq]
      · simpa using hc
    have hc1 : CursorAt { rob with
        insts := setAt rob.insts p (rob.insts p).setSquashed.setCanCommit } tid pre p suf := hc
    rcases List.eq_nil_or_concat pre with hpre | ⟨pre0, p0, hpre⟩
    · subst hpre
      refine ⟨⟨{ rob with
          insts := setAt rob.insts p (rob.insts p).setSquashed.setCanCommit
          squashIt := setAt rob.squashIt tid (.endOf tid)
          doneSquashing := setAt rob.doneSquashing tid true }, u, true, m ++ [p]⟩,
        ?_, Or.inl ⟨rfl, rfl, ?_, ?_⟩⟩
      · simp only [doSquashLoop, hc.not_end, hc.deref, hseq, if_false, not_true]
        rw [if_pos]
        rw [hc1.beginIt]
        simpa using hc.2
      · simp [setAt_same]
      · simp [setAt_same]
    · rw [List.concat_eq_append] at hpre
      subst hpre
      have hne : rob.squashIt tid ≠ ROB.beginIt { rob with
          insts := setAt rob.insts p (rob.insts p).setSquashed.setCanCommit } tid := by
        rw [hc1.beginIt, hc.2]
        intro hcontra
        simp at hcontra
      have hlast : ∃ t, (rob.instList tid).getLast? = some t := by
        apply exists_getLast?_of_ne_nil
        rw [hc.1]
        simp
      obtain ⟨t, ht⟩ := hlast
      have hprev : ROB.prevIt { rob with
          insts := setAt rob.insts p (rob.insts p).setSquashed.setCanCommit } (rob.squashIt tid)
          = some (.node tid (rob.erased tid + pre0.length)) := by
        rw [hc.2]
        simp [prevIt]
      have hc2 : CursorAt { rob with
          insts := setAt rob.insts p (rob.insts p).setSquashed.setCanCommit
          squashIt := setAt rob.squashIt tid (.node tid (rob.erased tid + pre0.length)) }
          tid pre0 p0 (p :: suf) := by
        constructor
        · have := hc.1
          simpa using this
        · simp [setAt_same]
      obtain ⟨res, hres, hshape⟩ := ih _ (if p = t then true else u) (m ++ [p]) pre0 p0
        (p :: suf) hc2
      refine ⟨res, ?_, ?_⟩
      · simp only [doSquashLoop, hc.not_end, hc.deref, hseq, if_false, not_true, hne, ht, hprev]
        exact hres
      · rcases hshape with ⟨h1, h2, h3, h4⟩ | ⟨h1, pre1, p1, mid, h2, h3, h4, h5, h6⟩
        · refine Or.inl ⟨h1, ?_, h3, h4⟩
          rw [h2]
          simp
        · refine Or.inr ⟨h1, pre1, p1, mid ++ [p], ?_, ?_, ?_, h5, ?_⟩
          · rw [h2]; simp
          · rw [h3]; simp
          · simpa using h4
          · rcases h6 with h6 | h6
            · left; simp [h6]
            · right
              simp only [seqOf] at h6 ⊢
              by_cases hx : p1 = p
              · subst hx
                simpa [setAt, DynInst.setSquashed, DynInst.setCanCommit] using h6
              · simpa [setAt, hx] using h6

/-! ## One call of `doSquash` -/

theorem lastIt_deref {rob : ROB} {tid : Nat} {it : InstIt} (h : rob.lastIt tid = some it) :
    ∃ c, rob.deref it = some c := by
  by_cases hne : rob.instList tid = []
  · simp [lastIt, hne] at h
  rw [lastIt_of_ne_nil hne] at h
  simp only [Option.some.injEq] at h
  subst h
  rw [deref_node]
  have hlen : 0 < (rob.instList tid).length := List.length_pos.mpr hne
  exact ⟨(rob.instList tid)[(rob.instList tid).length - 1], List.getElem?_eq_getElem (by omega)⟩

theorem updateTailLoop_ok (rob : ROB) (threads : List Nat) :
    ∀ (tail : InstIt) (first_valid : Bool),
      (first_valid = false → ∃ c, rob.deref tail = some c) →
      ∃ st, updateTailLoop rob threads (tail, first_valid) = .ok st := by
  induction threads with
  | nil =>
    intro tail fv _
    exact ⟨_, rfl⟩
  | cons tid threads ih =>
    intro tail fv hv
    simp only [updateTailLoop]
    cases hl : rob.lastIt tid with
    | none => exact ih tail fv hv
    | some tail_thread =>
      cases hg : (rob.instList tid).getLast? with
      | none => exact ih tail fv hv
      | some tail_inst =>
        simp only
        cases fv with
        | true =>
          simp only [if_true]
          exact ih tail_thread false (fun _ => lastIt_deref hl)
        | false =>
          obtain ⟨c, hc⟩ := hv rfl
          simp only [hc, Bool.false_eq_true, if_false]
          split
          · exact ih tail_thread false (fun _ => lastIt_deref hl)
          · exact ih tail false (fun _ => ⟨c, hc⟩)

theorem updateTail_ok (rob : ROB) : ∃ t, rob.updateTail = .ok { rob with tail := t } := by
  obtain ⟨st, hst⟩ := updateTailLoop_ok rob rob.activeThreads (.endOf 0) true (by simp)
  exact ⟨st.1, by simp [updateTail, hst]⟩

theorem updateTail_eq {rob rob1 : ROB} (h : rob.updateTail = .ok rob1) :
    ∃ t, rob1 = { rob with tail := t } := by
  obtain ⟨t, ht⟩ := updateTail_ok rob
  rw [ht] at h
  simp only [Except.ok.injEq] at h
  exact ⟨t, h.symm⟩

/-- What one `doSquash` call does in every state in which it succeeds: it marks
the instructions it lists, at most `squashQuota` of them, each above the squash
target, changes no other instruction, and leaves the squash target, the status
and the cursors of the other threads alone. -/
theorem doSquashMarking_marks {rob rob1 : ROB} {tid : Nat} {new : List Nat}
    (h : rob.doSquashMarking tid = .ok (rob1, new)) :
    new.length ≤ rob.squashQuota tid ∧ rob1.insts = markAll rob.insts new ∧
      (∀ x ∈ new, rob.squashedSeqNum tid < rob.seqOf x) ∧
      rob1.squashedSeqNum = rob.squashedSeqNum ∧ rob1.robStatus = rob.robStatus ∧
      (∀ t, t ≠ tid → rob1.squashIt t = rob.squashIt t ∧
        rob1.doneSquashing t = rob.doneSquashing t) := by
  simp only [doSquashMarking] at h
  split at h
  · cases h
  split at h
  · cases h
  cases hd : rob.deref (rob.squashIt tid) with
  | none => simp [hd] at h
  | some inst =>
    simp only [hd] at h
    split at h
    · simp only [Except.ok.injEq, Prod.mk.injEq] at h
      obtain ⟨h1, h2⟩ := h
      subst h1 h2
      exact ⟨by simp, (markAll_nil _).symm, by simp, rfl, rfl,
        fun t ht => ⟨setAt_other _ _ ht, setAt_other _ _ ht⟩⟩
    cases hl : doSquashLoop tid (if rob.threadExiting tid then rob.numEntries else rob.squashWidth)
        rob false [] with
    | error e => simp [hl] at h
    | ok res =>
      obtain ⟨nw, h1, h2, h3, h4, h5, h6, h7, h8⟩ := doSquashLoop_marks _ _ _ _ _ _ hl
      simp only [List.nil_append] at h1
      simp only [hl] at h
      split at h
      · simp only [Except.ok.injEq, Prod.mk.injEq] at h
        obtain ⟨ha, hb⟩ := h
        subst ha hb
        rw [h1]
        exact ⟨h2, h3, h4, h5, h6, h8⟩
      cases hc : res.rob.doSquashCheckDone tid with
      | error e => simp [hc] at h
      | ok rob2 =>
        have hrob2 : rob2.insts = res.rob.insts ∧ rob2.squashedSeqNum = res.rob.squashedSeqNum ∧
            rob2.robStatus = res.rob.robStatus ∧
            (∀ t, t ≠ tid → rob2.squashIt t = res.rob.squashIt t ∧
              rob2.doneSquashing t = res.rob.doneSquashing t) := by
          simp only [doSquashCheckDone] at hc
          cases hd2 : res.rob.deref (res.rob.squashIt tid) with
          | none => simp [hd2] at hc
          | some cur =>
            simp only [hd2] at hc
            split at hc
            · simp only [Except.ok.injEq] at hc
              subst hc
              exact ⟨rfl, rfl, rfl, fun t ht => ⟨setAt_other _ _ ht, setAt_other _ _ ht⟩⟩
            · simp only [Except.ok.injEq] at hc
              subst hc
              exact ⟨rfl, rfl, rfl, fun t ht => ⟨rfl, rfl⟩⟩
        obtain ⟨g1, g2, g3, g4⟩ := hrob2
        simp only [hc] at h
        split at h
        · cases ht : rob2.updateTail with
          | error e => simp [ht] at h
          | ok rob3 =>
            obtain ⟨t, htl⟩ := updateTail_eq ht
            simp only [ht, Except.ok.injEq, Prod.mk.injEq] at h
            obtain ⟨ha, hb⟩ := h
            subst ha hb htl
            rw [h1]
            exact ⟨h2, g1.trans h3, h4, g2.trans h5, g3.trans h6,
              fun t ht => ⟨(g4 t ht).1.trans (h8 t ht).1, (g4 t ht).2.trans (h8 t ht).2⟩⟩
        · simp only [Except.ok.injEq, Prod.mk.injEq] at h
          obtain ⟨ha, hb⟩ := h
          subst ha hb
          rw [h1]
          exact ⟨h2, g1.trans h3, h4, g2.trans h5, g3.trans h6,
            fun t ht => ⟨(g4 t ht).1.trans (h8 t ht).1, (g4 t ht).2.trans (h8 t ht).2⟩⟩

theorem CursorAt.same_queue {rob rob1 : ROB} {tid : Nat} {pre : List Nat} {p : Nat}
    {suf : List Nat} (h : CursorAt rob tid pre p suf) (hl : rob1.instList = rob.instList)
    (he : rob1.erased = rob.erased) (hs : rob1.squashIt tid = rob.squashIt tid) :
    CursorAt rob1 tid pre p suf := by
  unfold CursorAt
  rw [hl, he, hs]
  exact h

theorem doSquash_tail_part (rob2 : ROB) (u : Bool) (mk : List Nat) :
    ∃ t, (if u = true then
            match rob2.updateTail with
            | .error e => .error e
            | .ok rob3 => .ok (rob3, mk)
          else (.ok (rob2, mk) : Except Fault (ROB × List Nat)))
        = .ok ({ rob2 with tail := t }, mk) := by
  cases u with
  | true =>
    obtain ⟨t, ht⟩ := updateTail_ok rob2
    exact ⟨t, by simp only [if_true, ht]⟩
  | false => exact ⟨rob2.tail, by simp⟩

/-- One `doSquash` call with the cursor on an instruction of the queue and a
quota of at least one succeeds.  It marks the instructions `new`, which lie
directly in front of the ones marked before, and either finishes (the cursor
went past the front of the queue, or stands on an instruction that is not above
the squash target) or leaves the cursor in front of `new`, having marked at
least one instruction. -/
theorem doSquashMarking_cursor {rob : ROB} {tid : Nat} {pre : List Nat} {p : Nat}
    {suf : List Nat} (hc : CursorAt rob tid pre p suf) (hb : tid < rob.MaxThreads)
    (hq : 1 ≤ rob.squashQuota tid) :
    ∃ rob1 new, rob.doSquashMarking tid = .ok (rob1, new) ∧
      ∃ rem, pre ++ [p] = rem ++ new.reverse ∧
        ((rob1.doneSquashing tid = true ∧ rob1.squashIt tid = .endOf tid ∧
            (rem = [] ∨ ∃ r, rem.getLast? = some r ∧ rob.seqOf r ≤ rob.squashedSeqNum tid)) ∨
          (rob1.doneSquashing tid = rob.doneSquashing tid ∧ new ≠ [] ∧
            ∃ pre1 p1, rem = pre1 ++ [p1] ∧ CursorAt rob1 tid pre1 p1 (new.reverse ++ suf))) := by
  have hnb : ¬ rob.MaxThreads ≤ tid := by omega
  by_cases hlt : rob.seqOf p < rob.squashedSeqNum tid
  · refine ⟨{ rob with
        squashIt := setAt rob.squashIt tid (.endOf tid)
        doneSquashing := setAt rob.doneSquashing tid true }, [], ?_, pre ++ [p], by simp,
      Or.inl ⟨?_, ?_, Or.inr ⟨p, by simp, by omega⟩⟩⟩
    · simp only [doSquashMarking, hnb, hc.not_end, hc.deref, hlt, if_true, if_false]
    · simp [setAt_same]
    · simp [setAt_same]
  obtain ⟨res, hres, hshape⟩ := doSquashLoop_cursor tid (rob.squashQuota tid) rob false [] pre p
    suf hc
  have hfr := doSquashLoop_frame _ _ _ _ _ _ hres
  obtain ⟨nw, m1, -, -, -, m5, -, -, -⟩ := doSquashLoop_marks _ _ _ _ _ _ hres
  have hunf : rob.doSquashMarking tid
      = if res.returned then .ok (res.rob, res.marked)
        else
          match res.rob.doSquashCheckDone tid with
          | .error e => .error e
          | .ok rob2 =>
            if res.robTailUpdate then
              match rob2.updateTail with
              | .error e => .error e
              | .ok rob3 => .ok (rob3, res.marked)
            else .ok (rob2, res.marked) := by
    simp only [doSquashMarking, hnb, hc.not_end, hc.deref, hlt, if_false]
    have : doSquashLoop tid (if rob.threadExiting tid = true then rob.numEntries
        else rob.squashWidth) rob false [] = .ok res := hres
    rw [this]
  rcases hshape with ⟨h1, h2, h3, h4⟩ | ⟨h1, pre1, p1, mid, h2, h3, h4, h5, h6⟩
  · refine ⟨res.rob, res.marked, ?_, [], ?_, Or.inl ⟨h4, h3, Or.inl rfl⟩⟩
    · rw [hunf, h1]; rfl
    · rw [h2]; simp
  · simp only [List.nil_append] at h3
    have hseqp1 : res.rob.seqOf p1 = rob.seqOf p1 := hfr.seqNum p1
    by_cases hle : rob.seqOf p1 ≤ rob.squashedSeqNum tid
    · -- the check after the loop finds the squash done
      obtain ⟨rob2, hcd, d1, d2⟩ : ∃ rob2, res.rob.doSquashCheckDone tid = .ok rob2 ∧
          rob2.doneSquashing tid = true ∧ rob2.squashIt tid = .endOf tid := by
        refine ⟨{ res.rob with
              squashIt := setAt res.rob.squashIt tid (.endOf tid)
              doneSquashing := setAt res.rob.doneSquashing tid true }, ?_, ?_, ?_⟩
        · simp only [doSquashCheckDone, h4.deref, hseqp1, m5, hle, if_true]
        · simp [setAt_same]
        · simp [setAt_same]
      obtain ⟨t, ht⟩ := doSquash_tail_part rob2 res.robTailUpdate res.marked
      have e : rob.doSquashMarking tid = .ok ({ rob2 with tail := t }, res.marked) := by
        simp only [hunf, h1, hcd, Bool.false_eq_true, if_false]
        exact ht
      refine ⟨_, res.marked, e, pre1 ++ [p1], ?_, Or.inl ⟨d1, d2, Or.inr ⟨p1, by simp, hle⟩⟩⟩
      rw [h2, h3]; simp
    · -- the squash goes on at the next call
      have hmid : mid.length = rob.squashQuota tid := by
        rcases h6 with h6 | h6
        · exact h6
        · exact absurd h6 hle
      have hcd : res.rob.doSquashCheckDone tid = .ok res.rob := by
        simp only [doSquashCheckDone, h4.deref, hseqp1, m5, hle, if_false]
      obtain ⟨t, ht⟩ := doSquash_tail_part res.rob res.robTailUpdate res.marked
      have e : rob.doSquashMarking tid = .ok ({ res.rob with tail := t }, res.marked) := by
        simp only [hunf, h1, hcd, Bool.false_eq_true, if_false]
        exact ht
      refine ⟨_, res.marked, e, pre1 ++ [p1], ?_, Or.inr ⟨?_, ?_, pre1, p1, rfl, ?_⟩⟩
      · rw [h2, h3]; simp
      · show res.rob.doneSquashing tid = _
        rw [h5]
      · rw [h3]
        intro hnil
        have : mid = [] := by simpa using hnil
        rw [this] at hmid
        simp at hmid
        omega
      · rw [h3, List.reverse_reverse]
        exact h4.same_queue rfl rfl rfl

/-! ## Squashing until done -/

theorem markAll_append (insts : Nat → DynInst) (a b : List Nat) :
    markAll (markAll insts a) b = markAll insts (a ++ b) := by
  funext x
  by_cases ha : x ∈ a <;> by_cases hb : x ∈ b <;>
    simp [markAll, ha, hb, DynInst.setSquashed, DynInst.setCanCommit]

theorem squashQuota_of_frame {r r1 : ROB} (hf : SquashFrame r r1) (tid : Nat) :
    r1.squashQuota tid = r.squashQuota tid := by
  simp only [squashQuota, hf.threadExiting, hf.numEntries, hf.squashWidth]

theorem squashUntilDoneMarking_done (fuel : Nat) {rob : ROB} {tid : Nat}
    (h : rob.doneSquashing tid = true) : squashUntilDoneMarking fuel rob tid = .ok (rob, []) := by
  cases fuel with
  | zero => rfl
  | succ n => simp [squashUntilDoneMarking, h]

theorem squashUntilDoneMarking_cursor (tid : Nat) :
    ∀ (fuel : Nat) (rob : ROB) (pre : List Nat) (p : Nat) (suf : List Nat),
      pre.length < fuel → CursorAt rob tid pre p suf → rob.doneSquashing tid = false →
      tid < rob.MaxThreads → 1 ≤ rob.squashQuota tid →
      ∃ rob1 new, squashUntilDoneMarking fuel rob tid = .ok (rob1, new) ∧
        rob1.doneSquashing tid = true ∧ rob1.squashIt tid = .endOf tid ∧
        rob1.insts = markAll rob.insts new ∧
        (∀ x ∈ new, rob.squashedSeqNum tid < rob.seqOf x) ∧
        SquashFrame rob rob1 ∧
        ∃ rem, pre ++ [p] = rem ++ new.reverse ∧
          (rem = [] ∨ ∃ r, rem.getLast? = some r ∧ rob.seqOf r ≤ rob.squashedSeqNum tid) := by
  intro fuel
  induction fuel with
  | zero =>
    intro rob pre p suf hlen
    omega
  | succ n ih =>
    intro rob pre p suf hlen hc hd hb hq
    obtain ⟨rob1, new1, hcall, rem, hsplit, hcase⟩ := doSquashMarking_cursor hc hb hq
    obtain ⟨-, m2, m3, m4, -, -⟩ := doSquashMarking_marks hcall
    have hfr := doSquashMarking_frame hcall
    rcases hcase with ⟨c1, c2, c3⟩ | ⟨c1, c2, pre1, p1, c3, c4⟩
    · refine ⟨rob1, new1, ?_, c1, c2, m2, m3, hfr, rem, hsplit, c3⟩
      simp only [squashUntilDoneMarking, hd, hcall, squashUntilDoneMarking_done n c1,
        Bool.false_eq_true, if_false, List.append_nil]
    · have hlen1 : pre1.length < n := by
        have hl := congrArg List.length hsplit
        rw [c3] at hl
        simp only [List.length_append, List.length_singleton, List.length_reverse] at hl
        have : 0 < new1.length := List.length_pos.mpr c2
        omega
      have hd1 : rob1.doneSquashing tid = false := by rw [c1, hd]
      have hb1 : tid < rob1.MaxThreads := by rw [hfr.MaxThreads]; exact hb
      have hq1 : 1 ≤ rob1.squashQuota tid := by rw [squashQuota_of_frame hfr]; exact hq
      obtain ⟨rob2, new2, hrest, e1, e2, e3, e4, e5, rem2, e6, e7⟩ :=
        ih rob1 pre1 p1 (new1.reverse ++ suf) hlen1 c4 hd1 hb1 hq1
      refine ⟨rob2, new1 ++ new2, ?_, e1, e2, ?_, ?_, hfr.trans e5, rem2, ?_, ?_⟩
      · simp only [squashUntilDoneMarking, hd, hcall, hrest, Bool.false_eq_true, if_false]
      · rw [e3, m2, markAll_append]
      · intro x hx
        rcases List.mem_append.mp hx with hx | hx
        · exact m3 x hx
        · have := e4 x hx
          rw [m4] at this
          simp only [seqOf] at this ⊢
          rw [hfr.seqNum] at this
          exact this
      · rw [hsplit, c3, e6]
        simp
      · rcases e7 with e7 | ⟨r, e7, e8⟩
        · exact Or.inl e7
        · refine Or.inr ⟨r, e7, ?_⟩
          rw [m4] at e8
          simp only [seqOf] at e8 ⊢
          rw [hfr.seqNum] at e8
          exact e8

theorem squashUntilDone_of_marking (tid : Nat) :
    ∀ (fuel : Nat) (rob rob1 : ROB) (new : List Nat),
      squashUntilDoneMarking fuel rob tid = .ok (rob1, new) →
      squashUntilDone fuel rob tid = .ok rob1 := by
  intro fuel
  induction fuel with
  | zero =>
    intro rob rob1 new h
    simp only [squashUntilDoneMarking, Except.ok.injEq, Prod.mk.injEq] at h
    simp [squashUntilDone, h.1]
  | succ n ih =>
    intro rob rob1 new h
    simp only [squashUntilDoneMarking] at h
    simp only [squashUntilDone]
    cases hd : rob.doneSquashing tid with
    | true =>
      simp only [hd, if_true, Except.ok.injEq, Prod.mk.injEq] at h
      simp [h.1]
    | false =>
      simp only [hd, Bool.false_eq_true, if_false] at h
      simp only [Bool.false_eq_true, if_false, doSquash]
      cases hc : rob.doSquashMarking tid with
      | error e => simp [hc] at h
      | ok r =>
        obtain ⟨r, m⟩ := r
        simp only [hc] at h
        cases hr : squashUntilDoneMarking n r tid with
        | error e => simp [hr] at h
        | ok q =>
          obtain ⟨q, ms⟩ := q
          simp only [hr, Except.ok.injEq, Prod.mk.injEq] at h
          rw [← h.1]
          exact ih _ _ _ hr

theorem squashAndDrain_of_marking {fuel : Nat} {rob rob1 : ROB} {n tid : Nat} {new : List Nat}
    (h : squashAndDrainMarking fuel rob n tid = .ok (rob1, new)) :
    squashAndDrain fuel rob n tid = .ok rob1 := by
  simp only [squashAndDrainMarking] at h
  simp only [squashAndDrain, squash]
  cases hc : rob.squashMarking n tid with
  | error e => simp [hc] at h
  | ok r =>
    obtain ⟨r, m⟩ := r
    simp only [hc] at h
    cases hr : squashUntilDoneMarking fuel r tid with
    | error e => simp [hr] at h
    | ok q =>
      obtain ⟨q, ms⟩ := q
      simp only [hr, Except.ok.injEq, Prod.mk.injEq] at h
      rw [← h.1]
      exact squashUntilDone_of_marking _ _ _ _ _ hr

/-- The call `squash(T, tid)` on a thread with a non-empty queue, followed by
`doSquash(tid)` while `doneSquashing[tid]` is false, finishes within as many
`doSquash` calls as the queue is long when at least one instruction may be
marked per call.  The instructions marked are, from the back of the queue, all
those behind `rem`; each of them is above the target `T`, and `rem` is empty or
ends in an instruction that is not above `T`. -/
theorem squashAndDrainMarking_spec (rob : ROB) (T tid : Nat) (hb : tid < rob.MaxThreads)
    (hne : rob.instList tid ≠ []) (hq : 1 ≤ rob.squashQuota tid) :
    ∃ rob1 new, squashAndDrainMarking (rob.instList tid).length rob T tid = .ok (rob1, new) ∧
      rob1.doneSquashing tid = true ∧ rob1.squashIt tid = .endOf tid ∧
      rob1.insts = markAll rob.insts new ∧ (∀ x ∈ new, T < rob.seqOf x) ∧
      SquashFrame rob rob1 ∧
      ∃ rem, rob.instList tid = rem ++ new.reverse ∧
        (rem = [] ∨ ∃ r, rem.getLast? = some r ∧ rob.seqOf r ≤ T) := by
  rcases List.eq_nil_or_concat (rob.instList tid) with hnil | ⟨pre, p, hq0⟩
  · exact absurd hnil hne
  rw [List.concat_eq_append] at hq0
  have hnb : ¬ rob.MaxThreads ≤ tid := by omega
  have hemp : rob.isEmptyOf tid = false := by
    simp [isEmptyOf, hq0]
  -- the state in which `squash` calls `doSquash`
  obtain ⟨rob0, hstart, hcur, hdone, htarget, hinsts, hfr0⟩ : ∃ rob0,
      rob.squashMarking T tid = rob0.doSquashMarking tid ∧ CursorAt rob0 tid pre p [] ∧
      rob0.doneSquashing tid = false ∧ rob0.squashedSeqNum tid = T ∧ rob0.insts = rob.insts ∧
      SquashFrame rob rob0 := by
    refine ⟨{ rob with
        robStatus := setAt rob.robStatus tid .ROBSquashing
        doneSquashing := setAt rob.doneSquashing tid false
        squashedSeqNum := setAt rob.squashedSeqNum tid T
        squashIt := setAt rob.squashIt tid (.node tid (rob.erased tid + pre.length)) },
      ?_, ?_, ?_, ?_, rfl, ?_⟩
    · have hl : ROB.lastIt { rob with
          robStatus := setAt rob.robStatus tid .ROBSquashing
          doneSquashing := setAt rob.doneSquashing tid false
          squashedSeqNum := setAt rob.squashedSeqNum tid T } tid
          = some (.node tid (rob.erased tid + pre.length)) := by
        rw [lastIt_of_ne_nil (by exact hne)]
        simp [hq0]
      simp only [squashMarking, hnb, hemp, hl, if_false, Bool.false_eq_true]
    · exact ⟨by simpa using hq0, by simp [setAt_same]⟩
    · simp [setAt_same]
    · simp [setAt_same]
    · constructor <;> intros <;> rfl
  have hb0 : tid < rob0.MaxThreads := by rw [hfr0.MaxThreads]; exact hb
  have hq1 : 1 ≤ rob0.squashQuota tid := by rw [squashQuota_of_frame hfr0]; exact hq
  have hlen : pre.length < (rob.instList tid).length + 1 := by
    rw [hq0]; simp; omega
  obtain ⟨rob1, new, hrun, e1, e2, e3, e4, e5, rem, e6, e7⟩ :=
    squashUntilDoneMarking_cursor tid _ rob0 pre p [] hlen hcur hdone hb0 hq1
  refine ⟨rob1, new, ?_, e1, e2, ?_, ?_, hfr0.trans e5, rem, ?_, ?_⟩
  · simp only [squashUntilDoneMarking, hdone, Bool.false_eq_true, if_false] at hrun
    simp only [squashAndDrainMarking, hstart]
    exact hrun
  · rw [e3, hinsts]
  · intro x hx
    have := e4 x hx
    rw [htarget] at this
    simp only [seqOf, hinsts] at this ⊢
    exact this
  · rw [hq0, e6]
  · rw [htarget] at e7
    simp only [seqOf, hinsts] at e7 ⊢
    exact e7

/-! ## Squashing above a target -/

theorem sorted_front_le {seq : Nat → Nat} {rem mid : List Nat} {T : Nat}
    (hs : (rem ++ mid).Pairwise (fun a b => seq a < seq b))
    (hrem : rem = [] ∨ ∃ r, rem.getLast? = some r ∧ seq r ≤ T) : ∀ x ∈ rem, seq x ≤ T := by
  intro x hx
  rcases hrem with hrem | ⟨r, hr, hle⟩
  · subst hrem
    simp at hx
  · obtain ⟨ys, hys⟩ := List.getLast?_eq_some_iff.mp hr
    subst hys
    rcases List.mem_append.mp hx with h | h
    · have h1 := (List.pairwise_append.mp hs).1
      have h2 := (List.pairwise_append.mp h1).2.2 x h r (by simp)
      omega
    · simp only [List.mem_singleton] at h
      subst h
      exact hle

theorem squashQuota_pos {rob : ROB} (tid : Nat) (hw : 1 ≤ rob.squashWidth)
    (hcap : 0 < rob.numEntries) : 1 ≤ rob.squashQuota tid := by
  unfold squashQuota
  split <;> omega

/-- C6: for every thread `tid` whose queue is non-empty with sequence numbers
strictly increasing from front to back, every target `T` and every squash width
of at least one (in a buffer of at least one entry, as it must have to hold the
queue): `squash(T, tid)` followed by `doSquash(tid)` while `doneSquashing[tid]`
is false reaches `doneSquashing[tid] == true` after finitely many calls, none of
which fails.  In the resulting state every instruction of the thread with
sequence number above `T` is marked squashed and ready to commit, every
instruction with sequence number at most `T` is as it was, and the queue is as
it was. -/
theorem squash_marks_above_target (rob : ROB) (tid T : Nat) (hb : tid < rob.MaxThreads)
    (hne : rob.instList tid ≠ [])
    (hsorted : (rob.instList tid).Pairwise (fun a b => rob.seqOf a < rob.seqOf b))
    (hw : 1 ≤ rob.squashWidth) (hcap : 0 < rob.numEntries) :
    ∃ fuel rob1, squashAndDrain fuel rob T tid = .ok rob1 ∧
      rob1.doneSquashing tid = true ∧
      (∀ p ∈ rob.instList tid, T < rob.seqOf p →
        (rob1.insts p).squashed = true ∧ (rob1.insts p).canCommit = true) ∧
      (∀ p ∈ rob.instList tid, rob.seqOf p ≤ T → rob1.insts p = rob.insts p) ∧
      rob1.instList tid = rob.instList tid := by
  obtain ⟨rob1, new, hrun, hdone, -, hinsts, habove, hfr, rem, hsplit, hrem⟩ :=
    squashAndDrainMarking_spec rob T tid hb hne (squashQuota_pos tid hw hcap)
  rw [hsplit] at hsorted
  have hle := sorted_front_le hsorted hrem
  refine ⟨_, rob1, squashAndDrain_of_marking hrun, hdone, ?_, ?_, by rw [hfr.instList]⟩
  · intro p hp hgt
    have hmem : p ∈ new := by
      rw [hsplit] at hp
      rcases List.mem_append.mp hp with h | h
      · have := hle p h
        omega
      · exact List.mem_reverse.mp h
    rw [hinsts]
    simp [markAll, hmem, DynInst.setSquashed, DynInst.setCanCommit]
  · intro p _ hlep
    have hnot : p ∉ new := by
      intro hmem
      have := habove p hmem
      omega
    rw [hinsts]
    simp [markAll, hnot]

theorem squashMarking_marks {rob rob1 : ROB} {T tid : Nat} {new : List Nat}
    (h : rob.squashMarking T tid = .ok (rob1, new)) :
    new.length ≤ rob.squashQuota tid ∧ rob1.insts = markAll rob.insts new := by
  simp only [squashMarking] at h
  split at h
  · cases h
  split at h
  · simp only [Except.ok.injEq, Prod.mk.injEq] at h
    obtain ⟨h1, h2⟩ := h
    subst h1 h2
    exact ⟨by simp, (markAll_nil _).symm⟩
  split at h
  · simp only [Except.ok.injEq, Prod.mk.injEq] at h
    obtain ⟨h1, h2⟩ := h
    subst h1 h2
    exact ⟨by simp, (markAll_nil _).symm⟩
  · obtain ⟨m1, m2, -⟩ := doSquashMarking_marks h
    exact ⟨m1, m2⟩

/-! ## Squashing with nothing to mark -/

/-- The state in which `squash(T, tid)` calls `doSquash(tid)` on a thread whose
queue is `pre ++ [p]`: the target is recorded, `doneSquashing[tid]` is false and
the cursor is on `p`, the back of the queue. -/
theorem squashMarking_enters (rob : ROB) (T tid : Nat) (pre : List Nat) (p : Nat)
    (hb : tid < rob.MaxThreads) (hq0 : rob.instList tid = pre ++ [p]) :
    ∃ rob0, rob.squashMarking T tid = rob0.doSquashMarking tid ∧ CursorAt rob0 tid pre p [] ∧
      rob0.doneSquashing tid = false ∧ rob0.squashedSeqNum tid = T ∧ rob0.insts = rob.insts ∧
      SquashFrame rob rob0 := by
  have hnb : ¬ rob.MaxThreads ≤ tid := by omega
  have hne : rob.instList tid ≠ [] := by rw [hq0]; simp
  have hemp : rob.isEmptyOf tid = false := by
    simp [isEmptyOf, hq0]
  refine ⟨{ rob with
      robStatus := setAt rob.robStatus tid .ROBSquashing
      doneSquashing := setAt rob.doneSquashing tid false
      squashedSeqNum := setAt rob.squashedSeqNum tid T
      squashIt := setAt rob.squashIt tid (.node tid (rob.erased tid + pre.length)) },
    ?_, ?_, ?_, ?_, rfl, ?_⟩
  · have hl : ROB.lastIt { rob with
        robStatus := setAt rob.robStatus tid .ROBSquashing
        doneSquashing := setAt rob.doneSquashing tid false
        squashedSeqNum := setAt rob.squashedSeqNum tid T } tid
        = some (.node tid (rob.erased tid + pre.length)) := by
      rw [lastIt_of_ne_nil (by exact hne)]
      simp [hq0]
    simp only [squashMarking, hnb, hemp, hl, if_false, Bool.false_eq_true]
  · exact ⟨by simpa using hq0, by simp [setAt_same]⟩
  · simp [setAt_same]
  · simp [setAt_same]
  · constructor <;> intros <;> rfl

/-- A `doSquash` call whose cursor is on an instruction that is not above the
squash target marks nothing and finishes the squash, whatever the quota. -/
theorem doSquashMarking_not_above {rob : ROB} {tid : Nat} {pre : List Nat} {p : Nat}
    {suf : List Nat} (hc : CursorAt rob tid pre p suf) (hb : tid < rob.MaxThreads)
    (hle : rob.seqOf p ≤ rob.squashedSeqNum tid) :
    ∃ rob1, rob.doSquashMarking tid = .ok (rob1, []) ∧ rob1.doneSquashing tid = true ∧
      rob1.insts = rob.insts := by
  have hnb : ¬ rob.MaxThreads ≤ tid := by omega
  have hngt : ¬ rob.seqOf p > rob.squashedSeqNum tid := by omega
  by_cases hlt : rob.seqOf p < rob.squashedSeqNum tid
  · refine ⟨{ rob with
        squashIt := setAt rob.squashIt tid (.endOf tid)
        doneSquashing := setAt rob.doneSquashing tid true }, ?_, ?_, rfl⟩
    · simp only [doSquashMarking, hnb, hc.not_end, hc.deref, hlt, if_true, if_false]
    · simp [setAt_same]
  have hloop : ∀ n, doSquashLoop tid n rob false [] = .ok ⟨rob, false, false, []⟩ := by
    intro n
    cases n with
    | zero => rfl
    | succ n => simp [doSquashLoop, hc.not_end, hc.deref, hngt]
  refine ⟨{ rob with
      squashIt := setAt rob.squashIt tid (.endOf tid)
      doneSquashing := setAt rob.doneSquashing tid true }, ?_, ?_, rfl⟩
  · simp only [doSquashMarking, hnb, hc.not_end, hc.deref, hlt, if_false, hloop,
      doSquashCheckDone, hle, if_true, Bool.false_eq_true]
  · simp [setAt_same]

/-- A `doSquash` call with a quota of zero whose cursor is on an instruction
above the squash target changes nothing. -/
theorem doSquashMarking_zero_quota {rob : ROB} {tid : Nat} {pre : List Nat} {p : Nat}
    {suf : List Nat} (hc : CursorAt rob tid pre p suf) (hb : tid < rob.MaxThreads)
    (hq : rob.squashQuota tid = 0) (hgt : rob.squashedSeqNum tid < rob.seqOf p) :
    rob.doSquashMarking tid = .ok (rob, []) := by
  have hnb : ¬ rob.MaxThreads ≤ tid := by omega
  have hlt : ¬ rob.seqOf p < rob.squashedSeqNum tid := by omega
  have hle : ¬ rob.seqOf p ≤ rob.squashedSeqNum tid := by omega
  have hq1 : (if rob.threadExiting tid = true then rob.numEntries else rob.squashWidth) = 0 := hq
  simp only [doSquashMarking, hnb, hc.not_end, hc.deref, hlt, if_false, hq1, doSquashLoop,
    doSquashCheckDone, hle, Bool.false_eq_true]

theorem squashUntilDoneMarking_zero_quota {rob : ROB} {tid : Nat} {pre : List Nat} {p : Nat}
    {suf : List Nat} (hc : CursorAt rob tid pre p suf) (hb : tid < rob.MaxThreads)
    (hq : rob.squashQuota tid = 0) (hgt : rob.squashedSeqNum tid < rob.seqOf p)
    (hd : rob.doneSquashing tid = false) :
    ∀ fuel, squashUntilDoneMarking fuel rob tid = .ok (rob, []) := by
  intro fuel
  induction fuel with
  | zero => rfl
  | succ n ih =>
    simp only [squashUntilDoneMarking, hd, Bool.false_eq_true, if_false,
      doSquashMarking_zero_quota hc hb hq hgt, ih, List.append_nil]

/-- With a quota of zero and the back of the queue above the target,
`squash(T, tid)` followed by any number of `doSquash(tid)` calls marks nothing
and never finishes. -/
theorem squashAndDrainMarking_zero_quota (rob : ROB) (T tid : Nat) (pre : List Nat) (p : Nat)
    (hb : tid < rob.MaxThreads) (hq0 : rob.instList tid = pre ++ [p])
    (hq : rob.squashQuota tid = 0) (hgt : T < rob.seqOf p) :
    ∀ fuel, ∃ rob1, squashAndDrainMarking fuel rob T tid = .ok (rob1, []) ∧
      rob1.doneSquashing tid = false ∧ rob1.insts = rob.insts := by
  intro fuel
  obtain ⟨rob0, hstart, hcur, hdone, htarget, hinsts, hfr0⟩ :=
    squashMarking_enters rob T tid pre p hb hq0
  have hb0 : tid < rob0.MaxThreads := by rw [hfr0.MaxThreads]; exact hb
  have hqz : rob0.squashQuota tid = 0 := by rw [squashQuota_of_frame hfr0]; exact hq
  have hgt0 : rob0.squashedSeqNum tid < rob0.seqOf p := by
    rw [htarget]
    simp only [seqOf, hinsts]
    exact hgt
  refine ⟨rob0, ?_, hdone, hinsts⟩
  simp only [squashAndDrainMarking, hstart, doSquashMarking_zero_quota hcur hb0 hqz hgt0,
    squashUntilDoneMarking_zero_quota hcur hb0 hqz hgt0 hdone fuel, List.append_nil]

/-- When the back of the queue is not above the target, `squash(T, tid)` marks
nothing and finishes at once, whatever the quota. -/
theorem squashAndDrainMarking_not_above (rob : ROB) (T tid : Nat) (pre : List Nat) (p : Nat)
    (hb : tid < rob.MaxThreads) (hq0 : rob.instList tid = pre ++ [p])
    (hle : rob.seqOf p ≤ T) :
    ∀ fuel, ∃ rob1, squashAndDrainMarking fuel rob T tid = .ok (rob1, []) ∧
      rob1.doneSquashing tid = true ∧ rob1.insts = rob.insts := by
  intro fuel
  obtain ⟨rob0, hstart, hcur, hdone, htarget, hinsts, hfr0⟩ :=
    squashMarking_enters rob T tid pre p hb hq0
  have hb0 : tid < rob0.MaxThreads := by rw [hfr0.MaxThreads]; exact hb
  have hle0 : rob0.seqOf p ≤ rob0.squashedSeqNum tid := by
    rw [htarget]
    simp only [seqOf, hinsts]
    exact hle
  obtain ⟨rob1, h1, hd1, hi1⟩ := doSquashMarking_not_above hcur hb0 hle0
  refine ⟨rob1, ?_, hd1, by rw [hi1, hinsts]⟩
  simp only [squashAndDrainMarking, hstart, h1, squashUntilDoneMarking_done fuel hd1,
    List.append_nil]

theorem sorted_le_back {seq : Nat → Nat} {pre : List Nat} {p : Nat}
    (hs : (pre ++ [p]).Pairwise (fun a b => seq a < seq b)) : ∀ x ∈ pre ++ [p], seq x ≤ seq p := by
  intro x hx
  rcases List.mem_append.mp hx with h | h
  · have := (List.pairwise_append.mp hs).2.2 x h p (by simp)
    omega
  · simp only [List.mem_singleton] at h
    subst h
    exact Nat.le_refl _

/-- C7, as the code has it: squash work is bounded per call.  Every
`doSquash(tid)` call, also the one made by `squash`, marks at most `squashWidth`
instructions when the thread is not exiting and at most `numEntries` when it is,
and changes no instruction but the ones it marks.  It is exact in total when
that bound is at least one or no instruction of the queue is above the target:
for a non-empty queue with strictly increasing sequence numbers the calls from
`squash(T, tid)` then reach `doneSquashing[tid]`, and the instructions they mark
number the minimum of the queue length and the number of instructions of the
thread with sequence number above `T`.  When the bound is zero and the back of
the queue is above the target, `squash(T, tid)` followed by any number of
`doSquash(tid)` calls marks no instruction and `doneSquashing[tid]` stays false.
On an empty queue `squash(T, tid)` does nothing. -/
theorem squash_work_bounded_and_exact (rob : ROB) (tid T : Nat) :
    (∀ rob1 new, rob.doSquashMarking tid = .ok (rob1, new) →
      new.length ≤ (if rob.threadExiting tid then rob.numEntries else rob.squashWidth) ∧
      rob1.insts = markAll rob.insts new) ∧
    (∀ rob1 new, rob.squashMarking T tid = .ok (rob1, new) →
      new.length ≤ (if rob.threadExiting tid then rob.numEntries else rob.squashWidth) ∧
      rob1.insts = markAll rob.insts new) ∧
    (tid < rob.MaxThreads → rob.instList tid ≠ [] →
      (rob.instList tid).Pairwise (fun a b => rob.seqOf a < rob.seqOf b) →
      (1 ≤ (if rob.threadExiting tid then rob.numEntries else rob.squashWidth) ∨
        ∀ p ∈ rob.instList tid, rob.seqOf p ≤ T) →
      ∃ fuel rob1 new, squashAndDrainMarking fuel rob T tid = .ok (rob1, new) ∧
        rob1.doneSquashing tid = true ∧
        new.length = min (rob.instList tid).length
          ((rob.instList tid).countP (fun p => T < rob.seqOf p))) ∧
    (tid < rob.MaxThreads →
      (if rob.threadExiting tid then rob.numEntries else rob.squashWidth) = 0 →
      ∀ b, (rob.instList tid).getLast? = some b → T < rob.seqOf b →
      ∀ fuel, ∃ rob1, squashAndDrainMarking fuel rob T tid = .ok (rob1, []) ∧
        rob1.doneSquashing tid = false ∧ rob1.insts = rob.insts) ∧
    (tid < rob.MaxThreads → rob.instList tid = [] →
      rob.squashMarking T tid = .ok (rob, [])) := by
  refine ⟨?_, ?_, ?_, ?_, ?_⟩
  · intro rob1 new h
    obtain ⟨m1, m2, -⟩ := doSquashMarking_marks h
    exact ⟨m1, m2⟩
  · intro rob1 new h
    exact squashMarking_marks h
  · intro hb hne hsorted hcase
    by_cases hq : 1 ≤ rob.squashQuota tid
    · obtain ⟨rob1, new, hrun, hdone, -, -, habove, -, rem, hsplit, hrem⟩ :=
        squashAndDrainMarking_spec rob T tid hb hne hq
      refine ⟨_, rob1, new, hrun, hdone, ?_⟩
      rw [hsplit] at hsorted
      have hle := sorted_front_le hsorted hrem
      have hcount : (rob.instList tid).countP (fun p => T < rob.seqOf p) = new.length := by
        rw [hsplit, List.countP_append]
        have h1 : rem.countP (fun p => decide (T < rob.seqOf p)) = 0 := by
          rw [List.countP_eq_zero]
          intro x hx
          have := hle x hx
          simp
          omega
        have h2 : new.reverse.countP (fun p => decide (T < rob.seqOf p))
            = new.reverse.length := by
          rw [List.countP_eq_length]
          intro x hx
          have := habove x (List.mem_reverse.mp hx)
          simpa using this
        rw [h1, h2]
        simp
      rw [hcount]
      have : new.length ≤ (rob.instList tid).length := by
        rw [hsplit]
        simp
      omega
    · have hall : ∀ p ∈ rob.instList tid, rob.seqOf p ≤ T := by
        rcases hcase with hcase | hcase
        · exact absurd hcase hq
        · exact hcase
      rcases List.eq_nil_or_concat (rob.instList tid) with hnil | ⟨pre, p, hq0⟩
      · exact absurd hnil hne
      rw [List.concat_eq_append] at hq0
      have hp : rob.seqOf p ≤ T := hall p (by rw [hq0]; simp)
      obtain ⟨rob1, hrun, hdone, -⟩ := squashAndDrainMarking_not_above rob T tid pre p hb hq0 hp 0
      refine ⟨0, rob1, [], hrun, hdone, ?_⟩
      have h0 : (rob.instList tid).countP (fun p => T < rob.seqOf p) = 0 := by
        rw [List.countP_eq_zero]
        intro x hx
        have := hall x hx
        simp
        omega
      rw [h0]
      simp
  · intro hb hq b hlast hgt
    obtain ⟨pre, hpre⟩ := List.getLast?_eq_some_iff.mp hlast
    exact squashAndDrainMarking_zero_quota rob T tid pre b hb hpre hq hgt
  · intro hb hnil
    have hnb : ¬ rob.MaxThreads ≤ tid := by omega
    simp [squashMarking, hnb, isEmptyOf, hnil]

theorem squashScenarioLoaded_sorted :
    (squashScenarioLoaded.instList 0).Pairwise
      (fun a b => squashScenarioLoaded.seqOf a < squashScenarioLoaded.seqOf b) := by
  decide

theorem squash_marks_above_target_witness :
    squashScenarioLoaded.instList 0 = [1, 2, 3, 4, 5] ∧
    ∃ fuel rob1, squashAndDrain fuel squashScenarioLoaded 2 0 = .ok rob1 ∧
      rob1.doneSquashing 0 = true ∧
      (∀ p ∈ squashScenarioLoaded.instList 0, 2 < squashScenarioLoaded.seqOf p →
        (rob1.insts p).squashed = true ∧ (rob1.insts p).canCommit = true) ∧
      (∀ p ∈ squashScenarioLoaded.instList 0, squashScenarioLoaded.seqOf p ≤ 2 →
        rob1.insts p = squashScenarioLoaded.insts p) ∧
      rob1.instList 0 = squashScenarioLoaded.instList 0 :=
  ⟨rfl, squash_marks_above_target squashScenarioLoaded 0 2 (by decide) (by decide)
    squashScenarioLoaded_sorted (by decide) (by decide)⟩

theorem squash_work_bounded_and_exact_witness :
    (∃ r6 r7, squashScenarioLoaded.squashMarking 2 0 = .ok (r6, [5, 4]) ∧
      r6.doSquashMarking 0 = .ok (r7, [3]) ∧
      [5, 4].length ≤ (if squashScenarioLoaded.threadExiting 0 then
        squashScenarioLoaded.numEntries else squashScenarioLoaded.squashWidth) ∧
      r6.insts = markAll squashScenarioLoaded.insts [5, 4] ∧
      [3].length ≤ (if r6.threadExiting 0 then r6.numEntries else r6.squashWidth) ∧
      r7.insts = markAll r6.insts [3]) ∧
    (∃ fuel rob1 new, squashAndDrainMarking fuel squashScenarioLoaded 2 0 = .ok (rob1, new) ∧
      rob1.doneSquashing 0 = true ∧
      new.length = min (squashScenarioLoaded.instList 0).length
        ((squashScenarioLoaded.instList 0).countP
          (fun p => 2 < squashScenarioLoaded.seqOf p))) ∧
    (∃ fuel rob1 new, squashAndDrainMarking fuel squashZeroWidthLoaded 5 0 = .ok (rob1, new) ∧
      rob1.doneSquashing 0 = true ∧
      new.length = min (squashZeroWidthLoaded.instList 0).length
        ((squashZeroWidthLoaded.instList 0).countP
          (fun p => 5 < squashZeroWidthLoaded.seqOf p))) ∧
    (∀ fuel, ∃ rob1, squashAndDrainMarking fuel squashZeroWidthLoaded 4 0 = .ok (rob1, []) ∧
      rob1.doneSquashing 0 = false ∧ rob1.insts = squashZeroWidthLoaded.insts) := by
  have hex : ∃ r6 r7, squashScenarioLoaded.squashMarking 2 0 = .ok (r6, [5, 4]) ∧
      r6.doSquashMarking 0 = .ok (r7, [3]) := ⟨_, _, rfl, rfl⟩
  obtain ⟨r6, r7, h6, h7⟩ := hex
  have b6 := (squash_work_bounded_and_exact squashScenarioLoaded 0 2).2.1 r6 [5, 4] h6
  have b7 := (squash_work_bounded_and_exact r6 0 2).1 r7 [3] h7
  exact ⟨⟨r6, r7, h6, h7, b6.1, b6.2, b7.1, b7.2⟩,
    (squash_work_bounded_and_exact squashScenarioLoaded 0 2).2.2.1 (by decide) (by decide)
      squashScenarioLoaded_sorted (Or.inl (by decide)),
    (squash_work_bounded_and_exact squashZeroWidthLoaded 0 5).2.2.1 (by decide) (by decide)
      (by decide) (Or.inr (by decide)),
    (squash_work_bounded_and_exact squashZeroWidthLoaded 0 4).2.2.2.1 (by decide) rfl 5 rfl
      (by decide)⟩

/-- C7 fails as stated: squash width zero, one thread that is not exiting,
holding the instructions with sequence numbers 1 to 5 in increasing order.  The
minimum of the queue length and the number of instructions above the target 2
is 3, but `squash(2, 0)` followed by any number of `doSquash(0)` calls marks no
instruction and `doneSquashing[0]` stays false. -/
theorem squash_zero_width_counterexample :
    squashZeroWidthLoaded.instList 0 = [1, 2, 3, 4, 5] ∧
    (squashZeroWidthLoaded.instList 0).Pairwise
      (fun a b => squashZeroWidthLoaded.seqOf a < squashZeroWidthLoaded.seqOf b) ∧
    squashZeroWidthLoaded.threadExiting 0 = false ∧ squashZeroWidthLoaded.squashWidth = 0 ∧
    min (squashZeroWidthLoaded.instList 0).length
      ((squashZeroWidthLoaded.instList 0).countP
        (fun p => 2 < squashZeroWidthLoaded.seqOf p)) = 3 ∧
    (∃ rob1, squashZeroWidthLoaded.squashMarking 2 0 = .ok (rob1, []) ∧
      rob1.doneSquashing 0 = false ∧ rob1.doSquashMarking 0 = .ok (rob1, [])) ∧
    ∀ fuel, ∃ rob1, squashAndDrainMarking fuel squashZeroWidthLoaded 2 0 = .ok (rob1, []) ∧
      rob1.doneSquashing 0 = false ∧ rob1.insts = squashZeroWidthLoaded.insts :=
  ⟨rfl, by decide, rfl, rfl, by decide, ⟨_, rfl, rfl, rfl⟩,
    squashAndDrainMarking_zero_quota squashZeroWidthLoaded 2 0 [1, 2, 3, 4] 5 (by decide) rfl rfl
      (by decide)⟩

/-! ## The head pointer refers to the oldest instruction -/

theorem Counted.all_empty {rob : ROB} (h : Counted rob) (h0 : rob.numInstsInROB = 0)
    (tid : Nat) (ht : tid < rob.MaxThreads) : rob.instList tid = [] := by
  have hsum := h.total
  rw [h0] at hsum
  unfold sumThreadEntries at hsum
  have hz := (Finset.sum_eq_zero_iff.mp hsum.symm) tid (Finset.mem_range.mpr ht)
  have := h.entries tid ht
  rw [hz] at this
  exact List.length_eq_zero.mp this.symm

theorem Counted.exists_nonempty {rob : ROB} (h : Counted rob) (h0 : rob.numInstsInROB ≠ 0) :
    ∃ tid, tid < rob.MaxThreads ∧ rob.instList tid ≠ [] := by
  by_contra hc
  apply h0
  rw [h.total]
  unfold sumThreadEntries
  apply Finset.sum_eq_zero
  intro tid ht
  have ht1 := Finset.mem_range.mp ht
  rw [h.entries tid ht1]
  by_cases hl : rob.instList tid = []
  · rw [hl]; rfl
  · exact absurd ⟨tid, ht1, hl⟩ hc

theorem insertInst_seqOf {rob rob1 : ROB} {inst : Nat} (h : rob.insertInst inst = .ok rob1) :
    rob1.seqOf = rob.seqOf := by
  funext p
  simp only [seqOf, (insertInst_spec h).insts]
  by_cases hp : p = inst
  · subst hp; simp [setAt, DynInst.setInROB]
  · simp [setAt, hp]

theorem retireHead_seqOf {rob rob1 : ROB} {tid head_inst : Nat}
    (h : rob.retireHead tid = .ok (rob1, head_inst)) : rob1.seqOf = rob.seqOf := by
  obtain ⟨rest, hs⟩ := retireHead_spec h
  funext p
  simp only [seqOf, hs.insts]
  by_cases hp : p = head_inst
  · subst hp; simp [setAt, DynInst.clearInROB, DynInst.setCommitted]
  · simp [setAt, hp]

theorem insertInst_threadNumber {rob rob1 : ROB} {inst : Nat}
    (h : rob.insertInst inst = .ok rob1) (p : Nat) :
    (rob1.insts p).threadNumber = (rob.insts p).threadNumber := by
  simp only [(insertInst_spec h).insts]
  by_cases hp : p = inst
  · subst hp; simp [setAt, DynInst.setInROB]
  · simp [setAt, hp]

theorem retireHead_threadNumber {rob rob1 : ROB} {tid head_inst : Nat}
    (h : rob.retireHead tid = .ok (rob1, head_inst)) (p : Nat) :
    (rob1.insts p).threadNumber = (rob.insts p).threadNumber := by
  obtain ⟨rest, hs⟩ := retireHead_spec h
  simp only [hs.insts]
  by_cases hp : p = head_inst
  · subst hp; simp [setAt, DynInst.clearInROB, DynInst.setCommitted]
  · simp [setAt, hp]

theorem HeadInv.insertOrdered {rob rob1 : ROB} {inst : Nat} (hi : HeadInv rob)
    (h : rob.insertInst inst = .ok rob1)
    (hact : (rob.insts inst).threadNumber ∈ rob.activeThreads)
    (hnew : ∀ tid, ∀ p ∈ rob.instList tid, rob.seqOf p < rob.seqOf inst) : HeadInv rob1 := by
  have hs := insertInst_spec h
  have hseq := insertInst_seqOf h
  have hlist : ∀ tid, tid ≠ (rob.insts inst).threadNumber → rob1.instList tid = rob.instList tid := by
    intro tid ht
    rw [hs.instList, setAt_other _ _ ht]
  have hthr : rob1.instList (rob.insts inst).threadNumber
      = rob.instList (rob.insts inst).threadNumber ++ [inst] := by
    rw [hs.instList, setAt_same]
  constructor
  · exact hi.counted.insert h
  · intro tid ht
    rw [hs.activeThreads] at ht
    have hne : tid ≠ (rob.insts inst).threadNumber := fun e => ht (e ▸ hact)
    rw [hlist tid hne]
    exact hi.inactive tid ht
  · intro tid ht
    rw [hs.MaxThreads] at ht
    have hne : tid ≠ (rob.insts inst).threadNumber := by
      have := hs.tidBound
      omega
    rw [hlist tid hne]
    exact hi.outside tid ht
  · intro tid
    rw [hseq]
    by_cases ht : tid = (rob.insts inst).threadNumber
    · subst ht
      rw [hthr, List.pairwise_append]
      refine ⟨hi.sorted _, List.pairwise_singleton _ _, ?_⟩
      intro a ha b hb
      simp only [List.mem_singleton] at hb
      subst hb
      exact hnew _ a ha
    · rw [hlist tid ht]
      exact hi.sorted tid
  · intro _
    unfold HeadIsOldest
    rw [hs.activeThreads, hseq]
    by_cases h0 : rob.numInstsInROB = 0
    · -- the buffer was empty: the new instruction is the only one
      have hall : ∀ tid, rob.instList tid = [] := by
        intro tid
        by_cases ht : tid < rob.MaxThreads
        · exact hi.counted.all_empty h0 tid ht
        · exact hi.outside tid (by omega)
      refine ⟨inst, ?_, ⟨_, hact, by rw [hthr]; simp⟩, ?_⟩
      · rw [hs.head, if_pos h0]
        have hd := deref_node rob1 (rob.insts inst).threadNumber 0
        rw [Nat.add_zero, hs.erased, hthr, hall] at hd
        rw [hd]
        simp
      · intro tid _ q hq
        by_cases ht : tid = (rob.insts inst).threadNumber
        · subst ht
          rw [hthr, hall] at hq
          simp only [List.nil_append, List.mem_singleton] at hq
          rw [hq]
        · rw [hlist tid ht, hall] at hq
          simp at hq
    · -- the buffer was not empty: the head pointer stays
      obtain ⟨p, hp1, ⟨t, ht, hp2⟩, hp3⟩ := hi.head h0
      refine ⟨p, ?_, ⟨t, ht, ?_⟩, ?_⟩
      · rw [hs.head, if_neg h0]
        cases hh : rob.head with
        | endOf t0 => rw [hh] at hp1; simp [deref] at hp1
        | node t0 k =>
          rw [hh] at hp1
          simp only [deref] at hp1 ⊢
          rw [hs.erased]
          by_cases hk : rob.erased t0 ≤ k
          · simp only [hk, if_true] at hp1 ⊢
            by_cases ht0 : t0 = (rob.insts inst).threadNumber
            · subst ht0
              rw [hthr]
              have hlt : k - rob.erased (rob.insts inst).threadNumber
                  < (rob.instList (rob.insts inst).threadNumber).length := by
                by_contra hc
                rw [List.getElem?_eq_none (by omega)] at hp1
                cases hp1
              rw [List.getElem?_append_left hlt]
              exact hp1
            · rw [hlist t0 ht0]
              exact hp1
          · simp [hk] at hp1
      · by_cases ht0 : t = (rob.insts inst).threadNumber
        · subst ht0
          rw [hthr]
          exact List.mem_append_left _ hp2
        · rw [hlist t ht0]
          exact hp2
      · intro tid htid q hq
        by_cases ht0 : tid = (rob.insts inst).threadNumber
        · subst ht0
          rw [hthr] at hq
          rcases List.mem_append.mp hq with hq | hq
          · exact hp3 _ htid q hq
          · simp only [List.mem_singleton] at hq
            subst hq
            exact Nat.le_of_lt (hnew t p hp2)
        · rw [hlist tid ht0] at hq
          exact hp3 tid htid q hq

theorem HeadInv.retireFront {rob rob1 : ROB} {tid head_inst : Nat} (hi : HeadInv rob)
    (h : rob.retireHead tid = .ok (rob1, head_inst)) : HeadInv rob1 := by
  obtain ⟨rest, hs⟩ := retireHead_spec h
  have hseq := retireHead_seqOf h
  have hcount := hi.counted.retire h
  have hlist : ∀ t, t ≠ tid → rob1.instList t = rob.instList t := by
    intro t ht
    rw [hs.instList, setAt_other _ _ ht]
  have hthr : rob1.instList tid = rest := by
    rw [hs.instList, setAt_same]
  have hinact : ∀ t, t ∉ rob1.activeThreads → rob1.instList t = [] := by
    intro t ht
    rw [hs.activeThreads] at ht
    have hne : t ≠ tid := by
      intro e
      subst e
      have := hi.inactive t ht
      rw [hs.queue] at this
      cases this
    rw [hlist t hne]
    exact hi.inactive t ht
  have hsorted : ∀ t, (rob1.instList t).Pairwise (fun a b => rob1.seqOf a < rob1.seqOf b) := by
    intro t
    rw [hseq]
    by_cases ht : t = tid
    · subst ht
      rw [hthr]
      have := hi.sorted t
      rw [hs.queue] at this
      exact (List.pairwise_cons.mp this).2
    · rw [hlist t ht]
      exact hi.sorted t
  refine ⟨hcount, hinact, ?_, hsorted, ?_⟩
  · intro t ht
    rw [hs.MaxThreads] at ht
    have hne : t ≠ tid := by
      have := hs.tidBound
      omega
    rw [hlist t hne]
    exact hi.outside t ht
  · intro hn
    obtain ⟨t, _, htne⟩ := hcount.exists_nonempty hn
    rcases hs.head with ⟨hall, _⟩ | ⟨t1, ht1, a, l, hal, hhead, hmin⟩
    · exfalso
      apply htne
      by_cases hta : t ∈ rob1.activeThreads
      · exact hall t hta
      · exact hinact t hta
    · refine ⟨a, ?_, ⟨t1, ht1, by rw [hal]; simp⟩, ?_⟩
      · rw [hhead]
        have hd := deref_node rob1 t1 0
        rw [Nat.add_zero, hal] at hd
        rw [hd]
        simp
      · intro t2 ht2 q hq
        cases hl2 : rob1.instList t2 with
        | nil => rw [hl2] at hq; simp at hq
        | cons b l2 =>
          have h1 := hmin t2 ht2 b l2 hl2
          rw [hl2] at hq
          rcases List.mem_cons.mp hq with hq | hq
          · subst hq; exact h1
          · have hso := hsorted t2
            rw [hl2] at hso
            have := (List.pairwise_cons.mp hso).1 q hq
            omega

theorem HeadInv.squashFrame {r r1 : ROB} (hf : SquashFrame r r1) (h : HeadInv r) : HeadInv r1 := by
  have hseq : r1.seqOf = r.seqOf := by
    funext p
    exact hf.seqNum p
  have hderef : ∀ it, r1.deref it = r.deref it := by
    intro it
    cases it with
    | endOf t => rfl
    | node t k => simp only [deref, hf.erased, hf.instList]
  constructor
  · exact h.counted.frame hf
  · intro tid ht
    rw [hf.activeThreads] at ht
    rw [hf.instList]
    exact h.inactive tid ht
  · intro tid ht
    rw [hf.MaxThreads] at ht
    rw [hf.instList]
    exact h.outside tid ht
  · intro tid
    rw [hf.instList, hseq]
    exact h.sorted tid
  · intro hn
    rw [hf.numInstsInROB] at hn
    obtain ⟨p, h1, h2, h3⟩ := h.head hn
    unfold HeadIsOldest
    rw [hf.head, hderef, hf.activeThreads, hf.instList, hseq]
    exact ⟨p, h1, h2, h3⟩

theorem step_preserves {rob rob1 : ROB} {c : Call} {ev : List Event}
    (h : rob.step c = .ok (rob1, ev)) :
    rob1.seqOf = rob.seqOf ∧ rob1.activeThreads = rob.activeThreads ∧
      (∀ p, (rob1.insts p).threadNumber = (rob.insts p).threadNumber) ∧
      (∀ tid, ∀ p ∈ rob1.instList tid, p ∈ rob.instList tid ∨ c = .insertInst p) := by
  cases c with
  | insertInst inst =>
    simp only [ROB.step] at h
    cases hi : rob.insertInst inst with
    | error e => simp [hi] at h
    | ok r =>
      simp only [hi, Except.ok.injEq, Prod.mk.injEq] at h
      obtain ⟨h1, -⟩ := h
      subst h1
      have hs := insertInst_spec hi
      refine ⟨insertInst_seqOf hi, hs.activeThreads, insertInst_threadNumber hi, ?_⟩
      intro tid p hp
      rw [hs.instList] at hp
      by_cases ht : tid = (rob.insts inst).threadNumber
      · subst ht
        rw [setAt_same] at hp
        rcases List.mem_append.mp hp with hp | hp
        · exact Or.inl hp
        · simp only [List.mem_singleton] at hp
          subst hp
          exact Or.inr rfl
      · rw [setAt_other _ _ ht] at hp
        exact Or.inl hp
  | retireHead t =>
    simp only [ROB.step] at h
    cases hi : rob.retireHead t with
    | error e => simp [hi] at h
    | ok r =>
      obtain ⟨r, q⟩ := r
      simp only [hi, Except.ok.injEq, Prod.mk.injEq] at h
      obtain ⟨h1, -⟩ := h
      subst h1
      obtain ⟨rest, hs⟩ := retireHead_spec hi
      refine ⟨retireHead_seqOf hi, hs.activeThreads, retireHead_threadNumber hi, ?_⟩
      intro tid p hp
      rw [hs.instList] at hp
      by_cases ht : tid = t
      · subst ht
        rw [setAt_same] at hp
        rw [hs.queue]
        exact Or.inl (List.mem_cons_of_mem _ hp)
      · rw [setAt_other _ _ ht] at hp
        exact Or.inl hp
  | squash n t =>
    simp only [ROB.step] at h
    cases hi : rob.squash n t with
    | error e => simp [hi] at h
    | ok r =>
      simp only [hi, Except.ok.injEq, Prod.mk.injEq] at h
      obtain ⟨h1, -⟩ := h
      subst h1
      have hf := squash_frame hi
      refine ⟨funext hf.seqNum, hf.activeThreads, hf.threadNumber, ?_⟩
      intro tid p hp
      rw [hf.instList] at hp
      exact Or.inl hp
  | doSquash t =>
    simp only [ROB.step] at h
    cases hi : rob.doSquash t with
    | error e => simp [hi] at h
    | ok r =>
      simp only [hi, Except.ok.injEq, Prod.mk.injEq] at h
      obtain ⟨h1, -⟩ := h
      subst h1
      have hf := doSquash_frame hi
      refine ⟨funext hf.seqNum, hf.activeThreads, hf.threadNumber, ?_⟩
      intro tid p hp
      rw [hf.instList] at hp
      exact Or.inl hp

theorem HeadInv.stepOrdered {rob rob1 : ROB} {c : Call} {ev : List Event} (hi : HeadInv rob)
    (h : rob.step c = .ok (rob1, ev))
    (hact : ∀ inst, c = .insertInst inst → (rob.insts inst).threadNumber ∈ rob.activeThreads)
    (hnew : ∀ inst, c = .insertInst inst →
      ∀ tid, ∀ p ∈ rob.instList tid, rob.seqOf p < rob.seqOf inst) : HeadInv rob1 := by
  cases c with
  | insertInst inst =>
    simp only [ROB.step] at h
    cases hc : rob.insertInst inst with
    | error e => simp [hc] at h
    | ok r =>
      simp only [hc, Except.ok.injEq, Prod.mk.injEq] at h
      rw [← h.1]
      exact hi.insertOrdered hc (hact inst rfl) (hnew inst rfl)
  | retireHead t =>
    simp only [ROB.step] at h
    cases hc : rob.retireHead t with
    | error e => simp [hc] at h
    | ok r =>
      obtain ⟨r, q⟩ := r
      simp only [hc, Except.ok.injEq, Prod.mk.injEq] at h
      rw [← h.1]
      exact hi.retireFront hc
  | squash n t =>
    simp only [ROB.step] at h
    cases hc : rob.squash n t with
    | error e => simp [hc] at h
    | ok r =>
      simp only [hc, Except.ok.injEq, Prod.mk.injEq] at h
      rw [← h.1]
      exact hi.squashFrame (squash_frame hc)
  | doSquash t =>
    simp only [ROB.step] at h
    cases hc : rob.doSquash t with
    | error e => simp [hc] at h
    | ok r =>
      simp only [hc, Except.ok.injEq, Prod.mk.injEq] at h
      rw [← h.1]
      exact hi.squashFrame (doSquash_frame hc)

theorem insertsOf_cons_sub (c : Call) (cs : List Call) :
    (∀ q ∈ insertsOf cs, q ∈ insertsOf (c :: cs)) ∧
      (∀ inst, c = .insertInst inst → insertsOf (c :: cs) = inst :: insertsOf cs) ∧
      ((∀ inst, c ≠ .insertInst inst) → insertsOf (c :: cs) = insertsOf cs) := by
  cases c <;> simp [insertsOf]
  intro q hq
  exact Or.inr hq

theorem HeadInv.runOrdered {cs : List Call} : ∀ {rob rob1 : ROB} {evs : List Event},
    HeadInv rob →
    (∀ inst ∈ insertsOf cs, (rob.insts inst).threadNumber ∈ rob.activeThreads) →
    (insertsOf cs).Pairwise (fun a b => rob.seqOf a < rob.seqOf b) →
    (∀ tid, ∀ p ∈ rob.instList tid, ∀ q ∈ insertsOf cs, rob.seqOf p < rob.seqOf q) →
    rob.run cs = .ok (rob1, evs) → HeadInv rob1 := by
  induction cs with
  | nil =>
    intro rob rob1 evs hi _ _ _ hr
    simp only [ROB.run, Except.ok.injEq, Prod.mk.injEq] at hr
    rw [← hr.1]
    exact hi
  | cons c cs ih =>
    intro rob rob1 evs hi hact hseq hnew hr
    obtain ⟨r, ev, evs1, hs, hrest, -⟩ := run_cons_ok hr
    obtain ⟨s1, s2, s3⟩ := insertsOf_cons_sub c cs
    obtain ⟨p1, p2, p3, p4⟩ := step_preserves hs
    have hir : HeadInv r := by
      refine hi.stepOrdered hs ?_ ?_
      · intro inst hc
        exact hact inst (by rw [s2 inst hc]; simp)
      · intro inst hc tid p hp
        exact hnew tid p hp inst (by rw [s2 inst hc]; simp)
    refine ih hir ?_ ?_ ?_ hrest
    · intro inst hinst
      rw [p3, p2]
      exact hact inst (s1 inst hinst)
    · rw [p1]
      by_cases hc : ∃ inst, c = .insertInst inst
      · obtain ⟨inst, hc⟩ := hc
        rw [s2 inst hc] at hseq
        exact (List.pairwise_cons.mp hseq).2
      · rw [s3 (fun inst e => hc ⟨inst, e⟩)] at hseq
        exact hseq
    · intro tid p hp q hq
      rw [p1]
      rcases p4 tid p hp with hold | hc
      · exact hnew tid p hold q (s1 q hq)
      · rw [s2 p hc] at hseq
        exact (List.pairwise_cons.mp hseq).1 q hq

theorem HeadInv.fresh (rob : ROB) (hempty : ∀ tid, rob.instList tid = []) :
    HeadInv rob.resetState := by
  have hl : ∀ tid, rob.resetState.instList tid = [] := hempty
  constructor
  · exact Counted.reset rob (fun tid _ => hempty tid)
  · intro tid _; exact hl tid
  · intro tid _; exact hl tid
  · intro tid; rw [hl tid]; exact List.Pairwise.nil
  · intro h; exact absurd rfl h

/-- C5, as the code has it: starting from a freshly reset ROB with empty
queues, after any sequence of `insertInst` and `retireHead` calls (`squash` and
`doSquash` calls may come in between) that all succeed, in which every
instruction is inserted into an active thread and has a larger sequence number
than every instruction inserted before it, whatever the thread, and which leaves
at least one instruction in an active thread, the head pointer refers to the
instruction with the least sequence number among the instructions the active
threads hold. -/
theorem head_is_oldest_when_inserted_in_order (rob0 : ROB) (calls : List Call) (rob1 : ROB)
    (evs : List Event) (hempty : ∀ tid, rob0.instList tid = [])
    (hrun : rob0.resetState.run calls = .ok (rob1, evs))
    (hactive : ∀ inst ∈ insertsOf calls, (rob0.insts inst).threadNumber ∈ rob0.activeThreads)
    (hseq : (insertsOf calls).Pairwise (fun a b => rob0.seqOf a < rob0.seqOf b))
    (hheld : ∃ tid ∈ rob1.activeThreads, rob1.instList tid ≠ []) : HeadIsOldest rob1 := by
  have hinv : HeadInv rob1 :=
    (HeadInv.fresh rob0 hempty).runOrdered hactive hseq
      (fun tid p hp => by
        have : rob0.resetState.instList tid = [] := hempty tid
        rw [this] at hp
        simp at hp) hrun
  apply hinv.head
  intro h0
  obtain ⟨tid, _, hne⟩ := hheld
  apply hne
  by_cases ht : tid < rob1.MaxThreads
  · exact hinv.counted.all_empty h0 tid ht
  · exact hinv.outside tid (by omega)

theorem head_is_oldest_when_inserted_in_order_witness :
    HeadIsOldest (stateAfter exRob.resetState
      [.insertInst 2, .insertInst 3, .insertInst 4, .retireHead 0]) := by
  have hex : ∃ evs, exRob.resetState.run
      [.insertInst 2, .insertInst 3, .insertInst 4, .retireHead 0]
      = .ok (stateAfter exRob.resetState
          [.insertInst 2, .insertInst 3, .insertInst 4, .retireHead 0], evs) := ⟨_, rfl⟩
  obtain ⟨evs, h⟩ := hex
  exact head_is_oldest_when_inserted_in_order exRob _ _ evs (fun _ => rfl) h (by decide)
    (by decide) ⟨0, by decide, by decide⟩

/-- C5 fails as stated.  In the first run instruction 3 (thread 1, sequence
number 3) is inserted before instruction 2 (thread 0, sequence number 2): the
sequence numbers increase within each thread, both threads are active, and the
head pointer stays on instruction 3 although instruction 2 is older.  In the
second run thread 1 is not active: instruction 1 goes to thread 1 and
instruction 2 to thread 0, and the head pointer stays on instruction 1, which no
active thread holds. -/
theorem head_not_oldest_counterexample :
    ((∃ evs, exRob.resetState.run [.insertInst 3, .insertInst 2]
        = .ok (stateAfter exRob.resetState [.insertInst 3, .insertInst 2], evs)) ∧
      (∀ tid, tid < 4 →
        ((stateAfter exRob.resetState [.insertInst 3, .insertInst 2]).instList tid).Pairwise
          (fun a b => exRob.seqOf a < exRob.seqOf b)) ∧
      (stateAfter exRob.resetState [.insertInst 3, .insertInst 2]).activeThreads = [0, 1] ∧
      (stateAfter exRob.resetState [.insertInst 3, .insertInst 2]).instList 0 = [2] ∧
      (stateAfter exRob.resetState [.insertInst 3, .insertInst 2]).instList 1 = [3] ∧
      ¬ HeadIsOldest (stateAfter exRob.resetState [.insertInst 3, .insertInst 2])) ∧
    ((∃ evs, exRobOneActive.resetState.run [.insertInst 1, .insertInst 2]
        = .ok (stateAfter exRobOneActive.resetState [.insertInst 1, .insertInst 2], evs)) ∧
      (stateAfter exRobOneActive.resetState [.insertInst 1, .insertInst 2]).activeThreads
        = [0] ∧
      (stateAfter exRobOneActive.resetState [.insertInst 1, .insertInst 2]).instList 0 = [2] ∧
      (stateAfter exRobOneActive.resetState [.insertInst 1, .insertInst 2]).instList 1 = [1] ∧
      ¬ HeadIsOldest
        (stateAfter exRobOneActive.resetState [.insertInst 1, .insertInst 2])) := by
  refine ⟨⟨⟨_, rfl⟩, by decide, rfl, rfl, rfl, ?_⟩, ⟨⟨_, rfl⟩, rfl, rfl, rfl, ?_⟩⟩
  · rintro ⟨p, h1, -, h3⟩
    have hd : (stateAfter exRob.resetState [.insertInst 3, .insertInst 2]).deref
        (stateAfter exRob.resetState [.insertInst 3, .insertInst 2]).head = some 3 := rfl
    rw [hd] at h1
    cases h1
    have := h3 0 (by decide) 2 (by decide)
    revert this
    decide
  · rintro ⟨p, h1, ⟨tid, ht, hp⟩, -⟩
    have hd : (stateAfter exRobOneActive.resetState [.insertInst 1, .insertInst 2]).deref
        (stateAfter exRobOneActive.resetState [.insertInst 1, .insertInst 2]).head = some 1 := rfl
    rw [hd] at h1
    cases h1
    have ha : (stateAfter exRobOneActive.resetState [.insertInst 1, .insertInst 2]).activeThreads
        = [0] := rfl
    rw [ha] at ht
    simp only [List.mem_singleton] at ht
    subst ht
    revert hp
    decide

/-! ## Quotas under the threshold policy and with one active thread -/

theorem resetEntriesLoop_fields (n : Nat) (threads : List Nat) :
    ∀ rob : ROB, (resetEntriesLoop n threads rob).robPolicy = rob.robPolicy ∧
      (resetEntriesLoop n threads rob).numEntries = rob.numEntries ∧
      (resetEntriesLoop n threads rob).instList = rob.instList ∧
      (resetEntriesLoop n threads rob).threadEntries = rob.threadEntries ∧
      (resetEntriesLoop n threads rob).numInstsInROB = rob.numInstsInROB ∧
      (resetEntriesLoop n threads rob).MaxThreads = rob.MaxThreads := by
  induction threads with
  | nil =>
    intro rob
    simp [resetEntriesLoop]
  | cons t threads ih =>
    intro rob
    simp only [resetEntriesLoop]
    split
    · exact ih _
    · split
      · exact ih _
      · exact ih _

theorem resetEntriesLoop_threshold_one (threads : List Nat) :
    ∀ rob : ROB, rob.robPolicy = .Threshold →
      ∀ tid, (resetEntriesLoop 1 threads rob).maxEntries tid
        = if tid ∈ threads then rob.numEntries else rob.maxEntries tid := by
  induction threads with
  | nil =>
    intro rob _ tid
    simp [resetEntriesLoop]
  | cons t threads ih =>
    intro rob hp tid
    simp only [resetEntriesLoop, hp]
    rw [if_neg (by decide), if_pos ⟨trivial, trivial⟩, ih _ rfl]
    by_cases h1 : tid ∈ threads
    · simp [h1]
    · by_cases h2 : tid = t
      · subst h2
        simp [h1, setAt_same]
      · simp [h1, h2, setAt_other _ _ h2]

theorem resetEntriesLoop_unchanged (n : Nat) (threads : List Nat) :
    ∀ rob : ROB, rob.robPolicy ≠ .Partitioned → ¬ (rob.robPolicy = .Threshold ∧ n = 1) →
      (resetEntriesLoop n threads rob).maxEntries = rob.maxEntries := by
  induction threads with
  | nil =>
    intro rob _ _
    simp [resetEntriesLoop]
  | cons t threads ih =>
    intro rob h1 h2
    simp only [resetEntriesLoop]
    rw [if_neg h1, if_neg h2]
    exact ih rob h1 h2

/-- C11, as the code has it: with exactly one active thread, `resetEntries()`
sets that thread's `maxEntries` to `numEntries` under the `Threshold` policy
(the single-thread override) and also under the `Partitioned` policy, where it
is `numEntries / 1`; with capacity 32 that is 32 under both.  Under `Dynamic`
the call leaves every `maxEntries` as it was. -/
theorem single_active_thread_quota (rob : ROB) (tid : Nat) (h1 : rob.activeThreads = [tid]) :
    (rob.robPolicy = .Threshold → rob.resetEntries.maxEntries tid = rob.numEntries) ∧
    (rob.robPolicy = .Partitioned → rob.resetEntries.maxEntries tid = rob.numEntries) ∧
    (rob.robPolicy = .Dynamic → rob.resetEntries.maxEntries = rob.maxEntries) := by
  refine ⟨?_, ?_, ?_⟩
  · intro hp
    have hre : rob.resetEntries = resetEntriesLoop 1 [tid] rob := by
      simp [resetEntries, hp, h1]
    rw [hre, resetEntriesLoop_threshold_one _ _ hp]
    simp
  · intro hp
    have hre : rob.resetEntries = resetEntriesLoop 1 [tid] rob := by
      simp [resetEntries, hp, h1]
    rw [hre, resetEntriesLoop_partitioned _ _ _ hp]
    simp
  · intro hp
    unfold resetEntries
    split
    · exact resetEntriesLoop_unchanged _ _ rob (by rw [hp]; decide) (by rw [hp]; simp)
    · rfl

theorem single_active_thread_quota_witness :
    ((partitionedExample.resetEntries.setActiveThreads [0]).resetEntries.maxEntries 0
        = (partitionedExample.resetEntries.setActiveThreads [0]).numEntries) ∧
      ((thresholdExample.resetEntries.setActiveThreads [0]).resetEntries.maxEntries 0
        = (thresholdExample.resetEntries.setActiveThreads [0]).numEntries) ∧
      (thresholdExample.resetEntries.setActiveThreads [0]).numEntries = 32 :=
  ⟨(single_active_thread_quota (partitionedExample.resetEntries.setActiveThreads [0]) 0
      rfl).2.1 rfl,
    (single_active_thread_quota (thresholdExample.resetEntries.setActiveThreads [0]) 0
      rfl).1 rfl, rfl⟩

/-- C11 fails as stated: under `Partitioned` with capacity 32, after
`resetEntries()` with four active threads each quota is 8, and after the switch
to the one active thread 0 and another `resetEntries()` the quota of thread 0
is `32 / 1 = 32`. -/
theorem partitioned_single_thread_counterexample :
    partitionedExample.robPolicy = .Partitioned ∧
      partitionedExample.numEntries = 32 ∧
      [0, 1, 2, 3].map partitionedExample.resetEntries.maxEntries = [8, 8, 8, 8] ∧
      (partitionedExample.resetEntries.setActiveThreads [0]).resetEntries.maxEntries 0 = 32 := by
  decide

/-- C12, as the code has it: under the `Threshold` policy `resetEntries()` sets
the `maxEntries` of the active thread to `numEntries` when exactly one thread is
active, and leaves every `maxEntries` as it was when the number of active
threads is not one; the quotas of threads that are not active are never
changed.  The constructor sets the quota of every thread context to the
configured threshold. -/
theorem threshold_quota (rob : ROB) (hp : rob.robPolicy = .Threshold) :
    (rob.activeThreads.length = 1 →
      ∀ tid ∈ rob.activeThreads, rob.resetEntries.maxEntries tid = rob.numEntries) ∧
    (rob.activeThreads.length ≠ 1 → rob.resetEntries.maxEntries = rob.maxEntries) ∧
    (∀ tid, tid ∉ rob.activeThreads → rob.resetEntries.maxEntries tid = rob.maxEntries tid) ∧
    (∀ (M : Nat) (params : RunaheadO3CPUParams) (insts : Nat → DynInst) (active : List Nat)
      (exiting : Nat → Bool) (tid : Nat), params.smtROBPolicy = .Threshold →
      tid < params.numThreads →
      (construct M params insts active exiting).maxEntries tid = params.smtROBThreshold) := by
  have hre : rob.resetEntries
      = resetEntriesLoop rob.activeThreads.length rob.activeThreads rob := by
    simp [resetEntries, hp]
  refine ⟨?_, ?_, ?_, ?_⟩
  · intro h1 tid ht
    rw [hre, h1, resetEntriesLoop_threshold_one _ _ hp, if_pos ht]
  · intro h1
    rw [hre]
    exact resetEntriesLoop_unchanged _ _ rob (by rw [hp]; decide) (fun h => h1 h.2)
  · intro tid ht
    rw [hre]
    by_cases h1 : rob.activeThreads.length = 1
    · rw [h1, resetEntriesLoop_threshold_one _ _ hp, if_neg ht]
    · rw [resetEntriesLoop_unchanged _ _ rob (by rw [hp]; decide) (fun h => h1 h.2)]
  · intro M params insts active exiting tid hpol ht
    simp [construct, resetState, hpol, ht]

theorem threshold_quota_witness :
    (∀ tid ∈ [0], (thresholdExample.setActiveThreads [0]).resetEntries.maxEntries tid = 32) ∧
      thresholdExample.resetEntries.maxEntries = thresholdExample.maxEntries ∧
      thresholdExample.maxEntries 0 = 10 := by
  have h := threshold_quota (thresholdExample.setActiveThreads [0]) rfl
  have h2 := threshold_quota thresholdExample rfl
  exact ⟨h.1 rfl, h2.2.1 (by decide), h2.2.2.2 4 ⟨.Threshold, 32, 2, 4, 10⟩ scHeap [0, 1, 2, 3]
    (fun _ => false) 0 rfl (by decide)⟩

/-- C12 fails as stated: threshold 10, capacity 32.  After a `resetEntries()`
with thread 0 the only active thread its quota is 32; after threads 0 and 1 are
active again and `resetEntries()` is called, the quota of thread 0 is still 32
and not the threshold, while the quota of thread 1 is 10. -/
theorem threshold_not_restored_counterexample :
    thresholdExample.robPolicy = .Threshold ∧
      thresholdExample.maxEntries 0 = 10 ∧
      (thresholdExample.setActiveThreads [0]).resetEntries.maxEntries 0 = 32 ∧
      (((thresholdExample.setActiveThreads [0]).resetEntries.setActiveThreads
        [0, 1]).resetEntries.activeThreads = [0, 1]) ∧
      (((thresholdExample.setActiveThreads [0]).resetEntries.setActiveThreads
        [0, 1]).resetEntries.maxEntries 0 = 32) ∧
      (((thresholdExample.setActiveThreads [0]).resetEntries.setActiveThreads
        [0, 1]).resetEntries.maxEntries 1 = 10) := by
  decide

/-! ## Marking every instruction as a runahead instruction -/

theorem markRunaheadList_apply (l : List Nat) :
    ∀ (insts : Nat → DynInst) (p : Nat),
      markRunaheadList insts l p = if p ∈ l then (insts p).setRunaheadInst else insts p := by
  induction l with
  | nil =>
    intro insts p
    simp [markRunaheadList]
  | cons a l ih =>
    intro insts p
    simp only [markRunaheadList]
    rw [ih]
    by_cases hp : p = a
    · subst hp
      by_cases hl : p ∈ l
      · simp [hl, setAt, DynInst.setRunaheadInst]
      · simp [hl, setAt]
    · by_cases hl : p ∈ l
      · simp [hl, hp, setAt]
      · simp [hl, hp, setAt]

theorem markRunaheadThreads_apply (rob : ROB) (tids : List Nat) :
    ∀ (insts : Nat → DynInst) (p : Nat),
      markRunaheadThreads rob tids insts p
        = if ∃ tid ∈ tids, p ∈ rob.instList tid then (insts p).setRunaheadInst
          else insts p := by
  induction tids with
  | nil =>
    intro insts p
    simp [markRunaheadThreads]
  | cons t tids ih =>
    intro insts p
    simp only [markRunaheadThreads]
    rw [ih, markRunaheadList_apply]
    by_cases h1 : ∃ tid ∈ tids, p ∈ rob.instList tid
    · have h2 : ∃ tid ∈ t :: tids, p ∈ rob.instList tid := by
        obtain ⟨tid, ht, hp⟩ := h1
        exact ⟨tid, List.mem_cons_of_mem _ ht, hp⟩
      rw [if_pos h1, if_pos h2]
      by_cases h3 : p ∈ rob.instList t
      · simp [h3, DynInst.setRunaheadInst]
      · simp [h3]
    · rw [if_neg h1]
      by_cases h3 : p ∈ rob.instList t
      · have h2 : ∃ tid ∈ t :: tids, p ∈ rob.instList tid := ⟨t, List.mem_cons_self _ _, h3⟩
        rw [if_pos h2, if_pos h3]
      · have h2 : ¬ ∃ tid ∈ t :: tids, p ∈ rob.instList tid := by
          rintro ⟨tid, ht, hp⟩
          rcases List.mem_cons.mp ht with ht | ht
          · subst ht; exact h3 hp
          · exact h1 ⟨tid, ht, hp⟩
        rw [if_neg h2, if_neg h3]

/-- What `markAllRunahead` does to the instruction objects: the instructions
held in the queue of a thread get the runahead flag, the others are left as they
are. -/
theorem markAllRunahead_insts (rob : ROB) (p : Nat) :
    rob.markAllRunahead.insts p
      = if ∃ tid, tid < rob.MaxThreads ∧ p ∈ rob.instList tid then
          (rob.insts p).setRunaheadInst
        else rob.insts p := by
  simp only [markAllRunahead]
  rw [markRunaheadThreads_apply]
  by_cases h : ∃ tid, tid < rob.MaxThreads ∧ p ∈ rob.instList tid
  · have h2 : ∃ tid ∈ List.range rob.MaxThreads, p ∈ rob.instList tid := by
      obtain ⟨tid, ht, hp⟩ := h
      exact ⟨tid, List.mem_range.mpr ht, hp⟩
    rw [if_pos h, if_pos h2]
  · have h2 : ¬ ∃ tid ∈ List.range rob.MaxThreads, p ∈ rob.instList tid := by
      rintro ⟨tid, ht, hp⟩
      exact h ⟨tid, List.mem_range.mp ht, hp⟩
    rw [if_neg h, if_neg h2]

theorem Counted.numInsts_pos {rob : ROB} (h : Counted rob) {tid : Nat}
    (hb : tid < rob.MaxThreads) (hne : rob.instList tid ≠ []) : 0 < rob.numInstsInROB := by
  rw [h.total]
  unfold sumThreadEntries
  have hle : rob.threadEntries tid ≤ ∑ t ∈ Finset.range rob.MaxThreads, rob.threadEntries t :=
    Finset.single_le_sum (f := rob.threadEntries) (fun _ _ => Nat.zero_le _)
      (Finset.mem_range.mpr hb)
  have hlen := h.entries tid hb
  have : 0 < (rob.instList tid).length := List.length_pos.mpr hne
  omega

/-- C20: `markAllRunahead()` sets the runahead flag of every instruction held in
the queue of a thread and changes nothing else: no other flag of these
instructions, no other instruction, and no field of the ROB (queues, counters,
quotas, head and tail pointers, squash state).  After it, in a state in which
the counters agree with the queues, `retireHead(tid)` on a thread with a
non-empty queue releases the instruction at the front of the queue whether or
not it is ready to commit. -/
theorem markAllRunahead_effect (rob : ROB) :
    (∀ tid, tid < rob.MaxThreads → ∀ p ∈ rob.instList tid,
      rob.markAllRunahead.insts p = { rob.insts p with runaheadInst := true }) ∧
    (∀ p, (∀ tid, tid < rob.MaxThreads → p ∉ rob.instList tid) →
      rob.markAllRunahead.insts p = rob.insts p) ∧
    rob.markAllRunahead = { rob with insts := rob.markAllRunahead.insts } ∧
    (Counted rob → ∀ tid head_inst rest, tid < rob.MaxThreads →
      rob.instList tid = head_inst :: rest →
      ∃ rob1, rob.markAllRunahead.retireHead tid = .ok (rob1, head_inst) ∧
        rob1.instList tid = rest) := by
  refine ⟨?_, ?_, rfl, ?_⟩
  · intro tid ht p hp
    rw [markAllRunahead_insts, if_pos ⟨tid, ht, hp⟩]
    rfl
  · intro p hp
    rw [markAllRunahead_insts, if_neg]
    rintro ⟨tid, ht, hmem⟩
    exact hp tid ht hmem
  · intro hc tid head_inst rest hb hl
    have hpos : 0 < rob.markAllRunahead.numInstsInROB :=
      hc.numInsts_pos hb (by rw [hl]; simp)
    have hnb : ¬ rob.markAllRunahead.MaxThreads ≤ tid := by
      have : rob.markAllRunahead.MaxThreads = rob.MaxThreads := rfl
      omega
    have hl1 : rob.markAllRunahead.instList tid = head_inst :: rest := hl
    have hra : (rob.markAllRunahead.insts head_inst).isRunaheadInst = true := by
      rw [markAllRunahead_insts, if_pos ⟨tid, hb, by rw [hl]; simp⟩]
      rfl
    have hex : ∃ r, rob.markAllRunahead.retireHead tid = .ok (r, head_inst) := by
      unfold retireHead
      rw [if_neg (not_not.mpr hpos), if_neg hnb]
      simp only [hl1]
      rw [if_neg (by simp [hra])]
      exact ⟨_, rfl⟩
    obtain ⟨r, hr⟩ := hex
    obtain ⟨rest1, hs⟩ := retireHead_spec hr
    refine ⟨r, hr, ?_⟩
    rw [hs.instList, setAt_same]
    have := hs.queue
    rw [hl1] at this
    exact (List.cons.inj this).2.symm

theorem commitScenarioLoaded_counted : Counted commitScenarioLoaded := by
  have hex : ∃ evs, commitScenario.run
      [.insertInst 1, .insertInst 2, .insertInst 3, .insertInst 4]
      = .ok (commitScenarioLoaded, evs) := ⟨_, rfl⟩
  obtain ⟨evs, h⟩ := hex
  have h0 : Counted commitScenario := Counted.reset _ (fun _ _ => rfl)
  exact h0.runCalls h

theorem markAllRunahead_effect_witness :
    commitScenarioLoaded.instList 0 = [1, 2, 3, 4] ∧
      (commitScenarioLoaded.insts 1).canCommit = false ∧
      commitScenarioLoaded.retireHead 0 = .error .assertion ∧
      ∃ rob1, commitScenarioLoaded.markAllRunahead.retireHead 0 = .ok (rob1, 1) ∧
        rob1.instList 0 = [2, 3, 4] :=
  ⟨rfl, rfl, rfl,
    (markAllRunahead_effect commitScenarioLoaded).2.2.2 commitScenarioLoaded_counted 0 1
      [2, 3, 4] (by decide) rfl⟩

/-! ## Squash removes nothing -/

/-- C13: squash never removes instructions.  For every state, thread and target
a successful `squash(target, tid)` and a successful `doSquash(tid)` leave every
thread's queue, every `threadEntries[tid]`, `numInstsInROB` and every
`maxEntries[tid]` as they were.  Of the other operations `insertInst` only
appends to a queue, `resetEntries`, `resetState` and `markAllRunahead` leave the
queues as they are, and `retireHead(tid)` removes the front of the queue of
`tid` and leaves the other queues: it is the only operation that shortens a
queue. -/
theorem squash_removes_nothing (rob : ROB) :
    (∀ target tid rob1, rob.squash target tid = .ok rob1 →
      rob1.instList = rob.instList ∧ rob1.threadEntries = rob.threadEntries ∧
      rob1.numInstsInROB = rob.numInstsInROB ∧ rob1.maxEntries = rob.maxEntries) ∧
    (∀ tid rob1, rob.doSquash tid = .ok rob1 →
      rob1.instList = rob.instList ∧ rob1.threadEntries = rob.threadEntries ∧
      rob1.numInstsInROB = rob.numInstsInROB ∧ rob1.maxEntries = rob.maxEntries) ∧
    (∀ inst rob1, rob.insertInst inst = .ok rob1 →
      ∀ t, ∃ added, rob1.instList t = rob.instList t ++ added) ∧
    rob.resetEntries.instList = rob.instList ∧
    rob.resetState.instList = rob.instList ∧
    rob.markAllRunahead.instList = rob.instList ∧
    (∀ tid rob1 head_inst, rob.retireHead tid = .ok (rob1, head_inst) →
      rob.instList tid = head_inst :: rob1.instList tid ∧
      ∀ t, t ≠ tid → rob1.instList t = rob.instList t) := by
  refine ⟨?_, ?_, ?_, ?_, rfl, rfl, ?_⟩
  · intro target tid rob1 h
    have hf := squash_frame h
    exact ⟨hf.instList, hf.threadEntries, hf.numInstsInROB, hf.maxEntries⟩
  · intro tid rob1 h
    have hf := doSquash_frame h
    exact ⟨hf.instList, hf.threadEntries, hf.numInstsInROB, hf.maxEntries⟩
  · intro inst rob1 h t
    have hs := insertInst_spec h
    rw [hs.instList]
    by_cases ht : t = (rob.insts inst).threadNumber
    · subst ht
      exact ⟨[inst], by rw [setAt_same]⟩
    · exact ⟨[], by rw [setAt_other _ _ ht, List.append_nil]⟩
  · unfold resetEntries
    split
    · exact (resetEntriesLoop_fields _ _ rob).2.2.1
    · rfl
  · intro tid rob1 head_inst h
    obtain ⟨rest, hs⟩ := retireHead_spec h
    refine ⟨?_, ?_⟩
    · rw [hs.instList, setAt_same]
      exact hs.queue
    · intro t ht
      rw [hs.instList, setAt_other _ _ ht]

theorem squash_removes_nothing_witness :
    ∃ r6 r7, squashScenarioLoaded.squash 2 0 = .ok r6 ∧ r6.doSquash 0 = .ok r7 ∧
      (r6.instList = squashScenarioLoaded.instList ∧
        r6.threadEntries = squashScenarioLoaded.threadEntries ∧
        r6.numInstsInROB = squashScenarioLoaded.numInstsInROB ∧
        r6.maxEntries = squashScenarioLoaded.maxEntries) ∧
      (r7.instList = r6.instList ∧ r7.threadEntries = r6.threadEntries ∧
        r7.numInstsInROB = r6.numInstsInROB ∧ r7.maxEntries = r6.maxEntries) ∧
      squashScenarioLoaded.instList 0 = [1, 2, 3, 4, 5] := by
  have hex : ∃ r6 r7, squashScenarioLoaded.squash 2 0 = .ok r6 ∧ r6.doSquash 0 = .ok r7 :=
    ⟨_, _, rfl, rfl⟩
  obtain ⟨r6, r7, h6, h7⟩ := hex
  exact ⟨r6, r7, h6, h7, (squash_removes_nothing squashScenarioLoaded).1 2 0 r6 h6,
    (squash_removes_nothing r6).2.1 0 r7 h7, rfl⟩

/-! ## The head pointer after a retirement -/

/-- C15: after every successful `retireHead(tid)`, when some active thread has a
non-empty queue the head pointer is the front of a non-empty active thread's
queue whose front sequence number is least among the fronts of the non-empty
active queues; and the head pointer is the end of list 0, the "empty" value,
exactly when every active thread's queue is empty (as it is when no thread is
active). -/
theorem retireHead_head_pointer (rob rob1 : ROB) (tid head_inst : Nat)
    (h : rob.retireHead tid = .ok (rob1, head_inst)) :
    ((∃ t ∈ rob1.activeThreads, rob1.instList t ≠ []) →
      ∃ t ∈ rob1.activeThreads, ∃ a l, rob1.instList t = a :: l ∧
        rob1.head = rob1.beginIt t ∧ rob1.deref rob1.head = some a ∧
        ∀ t1 ∈ rob1.activeThreads, ∀ a1 l1, rob1.instList t1 = a1 :: l1 →
          rob1.seqOf a ≤ rob1.seqOf a1) ∧
    (rob1.head = .endOf 0 ↔ ∀ t ∈ rob1.activeThreads, rob1.instList t = []) := by
  obtain ⟨rest, hs⟩ := retireHead_spec h
  rcases hs.head with ⟨hall, hhead⟩ | ⟨t, ht, a, l, hal, hhead, hmin⟩
  · refine ⟨?_, ?_⟩
    · rintro ⟨t, ht, hne⟩
      exact absurd (hall t ht) hne
    · exact ⟨fun _ => hall, fun _ => hhead⟩
  · refine ⟨fun _ => ⟨t, ht, a, l, hal, ?_, ?_, hmin⟩, ?_⟩
    · rw [hhead, beginIt_of_cons hal]
    · rw [hhead]
      have hd := deref_node rob1 t 0
      rw [Nat.add_zero, hal] at hd
      rw [hd]
      simp
    · constructor
      · intro he
        rw [hhead] at he
        cases he
      · intro hall
        have := hall t ht
        rw [hal] at this
        cases this

theorem retireHead_head_pointer_witness :
    ∃ rob1, (commitScenarioLoaded.markReady 1).retireHead 0 = .ok (rob1, 1) ∧
      ((∃ t ∈ rob1.activeThreads, rob1.instList t ≠ []) →
        ∃ t ∈ rob1.activeThreads, ∃ a l, rob1.instList t = a :: l ∧
          rob1.head = rob1.beginIt t ∧ rob1.deref rob1.head = some a ∧
          ∀ t1 ∈ rob1.activeThreads, ∀ a1 l1, rob1.instList t1 = a1 :: l1 →
            rob1.seqOf a ≤ rob1.seqOf a1) ∧
      (rob1.head = .endOf 0 ↔ ∀ t ∈ rob1.activeThreads, rob1.instList t = []) := by
  have hex : ∃ rob1, (commitScenarioLoaded.markReady 1).retireHead 0 = .ok (rob1, 1) :=
    ⟨_, rfl⟩
  obtain ⟨rob1, h⟩ := hex
  exact ⟨rob1, h, retireHead_head_pointer _ rob1 0 1 h⟩

/-! ## When a retirement is rejected -/

/-- C16, as the code has it: for every thread `tid` with `threadEntries[tid] > 0`,
in a state in which the counters agree with the queues, `retireHead(tid)` is
rejected by its assertion when the head instruction is neither marked as a
runahead instruction nor ready to commit, and releases the head instruction
otherwise: a head instruction marked as a runahead instruction is released
without its readiness being checked, and any other head instruction is released
only when it is ready to commit.  The squashed flag is not looked at. -/
theorem retireHead_rejected_iff (rob : ROB) (tid : Nat) (hc : Counted rob)
    (hb : tid < rob.MaxThreads) (he : 0 < rob.threadEntries tid) :
    ∃ head_inst rest, rob.instList tid = head_inst :: rest ∧
      (((rob.insts head_inst).runaheadInst = false ∧ (rob.insts head_inst).canCommit = false) →
        rob.retireHead tid = .error .assertion) ∧
      (((rob.insts head_inst).runaheadInst = true ∨ (rob.insts head_inst).canCommit = true) →
        ∃ rob1, rob.retireHead tid = .ok (rob1, head_inst)) := by
  have hlen := hc.entries tid hb
  cases hl : rob.instList tid with
  | nil =>
    rw [hl] at hlen
    simp at hlen
    omega
  | cons head_inst rest =>
    have hpos : 0 < rob.numInstsInROB := hc.numInsts_pos hb (by rw [hl]; simp)
    have hnb : ¬ rob.MaxThreads ≤ tid := by omega
    refine ⟨head_inst, rest, rfl, ?_, ?_⟩
    · rintro ⟨h1, h2⟩
      unfold retireHead
      rw [if_neg (not_not.mpr hpos), if_neg hnb]
      simp only [hl]
      rw [if_pos]
      simp [DynInst.isRunaheadInst, DynInst.readyToCommit, h1, h2]
    · intro h1
      unfold retireHead
      rw [if_neg (not_not.mpr hpos), if_neg hnb]
      simp only [hl]
      rw [if_neg]
      · exact ⟨_, rfl⟩
      · simp only [DynInst.isRunaheadInst, DynInst.readyToCommit]
        rintro ⟨h2, h3⟩
        rcases h1 with h1 | h1
        · exact h2 h1
        · exact h3 h1

theorem retireHead_rejected_iff_witness :
    ∃ head_inst rest, commitScenarioLoaded.instList 0 = head_inst :: rest ∧
      (((commitScenarioLoaded.insts head_inst).runaheadInst = false ∧
          (commitScenarioLoaded.insts head_inst).canCommit = false) →
        commitScenarioLoaded.retireHead 0 = .error .assertion) ∧
      (((commitScenarioLoaded.insts head_inst).runaheadInst = true ∨
          (commitScenarioLoaded.insts head_inst).canCommit = true) →
        ∃ rob1, commitScenarioLoaded.retireHead 0 = .ok (rob1, head_inst)) :=
  retireHead_rejected_iff commitScenarioLoaded 0 commitScenarioLoaded_counted (by decide)
    (by decide)

/-- C16 fails as stated.  In the first state the head instruction 1 of thread 0
is marked as a runahead instruction, is not squashed and not ready to commit,
and `retireHead(0)` releases it.  In the second state the head instruction is
marked squashed, is not ready to commit and is not a runahead instruction, and
`retireHead(0)` is rejected by the assertion on its readiness. -/
theorem retireHead_squashed_counterexample :
    (commitScenarioLoaded.markAllRunahead.threadEntries 0 = 4 ∧
      commitScenarioLoaded.markAllRunahead.instList 0 = [1, 2, 3, 4] ∧
      (commitScenarioLoaded.markAllRunahead.insts 1).squashed = false ∧
      (commitScenarioLoaded.markAllRunahead.insts 1).canCommit = false ∧
      ∃ rob1, commitScenarioLoaded.markAllRunahead.retireHead 0 = .ok (rob1, 1)) ∧
    ((commitScenarioLoaded.markSquashedOutside 1).threadEntries 0 = 4 ∧
      (commitScenarioLoaded.markSquashedOutside 1).instList 0 = [1, 2, 3, 4] ∧
      ((commitScenarioLoaded.markSquashedOutside 1).insts 1).squashed = true ∧
      ((commitScenarioLoaded.markSquashedOutside 1).insts 1).canCommit = false ∧
      (commitScenarioLoaded.markSquashedOutside 1).retireHead 0 = .error .assertion) :=
  ⟨⟨rfl, rfl, rfl, rfl, _, rfl⟩, ⟨rfl, rfl, rfl, rfl, rfl⟩⟩

/-! ## The entry count is the queue length -/

theorem Counted.of_fields {r r1 : ROB} (h : Counted r) (h1 : r1.MaxThreads = r.MaxThreads)
    (h2 : r1.threadEntries = r.threadEntries) (h3 : r1.instList = r.instList)
    (h4 : r1.numInstsInROB = r.numInstsInROB) (h5 : r1.numEntries = r.numEntries) :
    Counted r1 := by
  constructor
  · intro tid ht
    rw [h2, h3]
    exact h.entries tid (h1 ▸ ht)
  · rw [h4, sumThreadEntries, h2, h1]
    exact h.total
  · rw [h4, h5]
    exact h.bound

theorem counted_of_reachable {rob : ROB} (h : Reachable rob) : Counted rob := by
  induction h with
  | construct M params insts active exiting => exact Counted.reset _ (fun _ _ => rfl)
  | insertInst inst _ hi ih => exact ih.insert hi
  | retireHead tid head_inst _ hr ih => exact ih.retire hr
  | squash n tid _ hs ih => exact ih.frame (squash_frame hs)
  | doSquash tid _ hs ih => exact ih.frame (doSquash_frame hs)
  | @resetEntries rob _ ih =>
    have hf : rob.resetEntries.MaxThreads = rob.MaxThreads ∧
        rob.resetEntries.threadEntries = rob.threadEntries ∧
        rob.resetEntries.instList = rob.instList ∧
        rob.resetEntries.numInstsInROB = rob.numInstsInROB ∧
        rob.resetEntries.numEntries = rob.numEntries := by
      unfold resetEntries
      split
      · obtain ⟨-, f2, f3, f4, f5, f6⟩ := resetEntriesLoop_fields rob.activeThreads.length
          rob.activeThreads rob
        exact ⟨f6, f4, f3, f5, f2⟩
      · exact ⟨rfl, rfl, rfl, rfl, rfl⟩
    exact ih.of_fields hf.1 hf.2.1 hf.2.2.1 hf.2.2.2.1 hf.2.2.2.2
  | setActiveThreads at_ptr _ ih => exact ih.of_fields rfl rfl rfl rfl rfl
  | markReady inst _ ih => exact ih.of_fields rfl rfl rfl rfl rfl

/-- C17: in every state reachable from the freshly constructed ROB by
successful `insertInst`, `retireHead`, `squash` and `doSquash` calls and by
`resetEntries` calls (also with the CPU changing the active threads and
instructions becoming ready in between), for every thread id `tid`
`threadEntries[tid]` is the length of `instList[tid]`; so `isHeadReady(tid)`
returns a value and `readHeadInst(tid)` does not read the front of an empty
list. -/
theorem entry_count_is_queue_length (rob : ROB) (h : Reachable rob) (tid : Nat)
    (hb : tid < rob.MaxThreads) :
    rob.threadEntries tid = (rob.instList tid).length ∧
      (∃ b, rob.isHeadReady tid = .ok b) ∧
      rob.readHeadInst tid ≠ .error .undefined := by
  have hc := counted_of_reachable h
  have hlen := hc.entries tid hb
  have hnb : ¬ rob.MaxThreads ≤ tid := by omega
  refine ⟨hlen, ?_, ?_⟩
  · unfold isHeadReady
    rw [if_neg hnb]
    cases hl : rob.instList tid with
    | nil =>
      rw [hl] at hlen
      simp [hlen]
    | cons a l =>
      split
      · exact ⟨_, rfl⟩
      · exact ⟨_, rfl⟩
  · unfold readHeadInst
    rw [if_neg hnb]
    cases hl : rob.instList tid with
    | nil =>
      rw [hl] at hlen
      simp [hlen]
    | cons a l =>
      split
      · simp only
        split <;> simp
      · simp

theorem entry_count_is_queue_length_witness :
    ∃ rob, exRob.insertInst 2 = .ok rob ∧
      rob.threadEntries 0 = (rob.instList 0).length ∧
      (∃ b, rob.isHeadReady 0 = .ok b) ∧
      rob.readHeadInst 0 ≠ .error .undefined := by
  have hex : ∃ rob, exRob.insertInst 2 = .ok rob ∧ rob.MaxThreads = 4 := ⟨_, rfl, rfl⟩
  obtain ⟨rob, h, hm⟩ := hex
  have hr : Reachable rob := Reachable.insertInst 2 (Reachable.construct _ _ _ _ _) h
  exact ⟨rob, h, entry_count_is_queue_length rob hr 0 (by rw [hm]; decide)⟩

/-! ## Recomputing the tail pointer -/

theorem lastIt_deref_back {rob : ROB} {tid : Nat} {it : InstIt} {b : Nat}
    (h : rob.lastIt tid = some it) (hb : (rob.instList tid).getLast? = some b) :
    rob.deref it = some b := by
  by_cases hne : rob.instList tid = []
  · simp [lastIt, hne] at h
  rw [lastIt_of_ne_nil hne] at h
  simp only [Option.some.injEq] at h
  subst h
  rw [deref_node, ← List.getLast?_eq_getElem?]
  exact hb

theorem lastIt_getLast?_cases (rob : ROB) (tid : Nat) :
    (rob.instList tid = [] ∧ rob.lastIt tid = none ∧ (rob.instList tid).getLast? = none) ∨
    (∃ it b, rob.lastIt tid = some it ∧ (rob.instList tid).getLast? = some b) := by
  by_cases hne : rob.instList tid = []
  · exact Or.inl ⟨hne, by simp [lastIt, hne], by simp [hne]⟩
  · obtain ⟨b, hb⟩ := exists_getLast?_of_ne_nil hne
    exact Or.inr ⟨_, b, lastIt_of_ne_nil hne, hb⟩

/-- The loop of `updateTail` once a first non-empty queue has been seen: it
ends on the back of the queue it started from or of a scanned queue, and no
scanned back and not the starting one has a greater sequence number. -/
theorem updateTailLoop_later (rob : ROB) (threads : List Nat) :
    ∀ (tail : InstIt) (t0 b0 : Nat), rob.lastIt t0 = some tail →
      (rob.instList t0).getLast? = some b0 →
      ∃ it t b, updateTailLoop rob threads (tail, false) = .ok (it, false) ∧
        (t = t0 ∨ t ∈ threads) ∧ rob.lastIt t = some it ∧
        (rob.instList t).getLast? = some b ∧ rob.seqOf b0 ≤ rob.seqOf b ∧
        ∀ t1 ∈ threads, ∀ b1, (rob.instList t1).getLast? = some b1 →
          rob.seqOf b1 ≤ rob.seqOf b := by
  induction threads with
  | nil =>
    intro tail t0 b0 h1 h2
    exact ⟨tail, t0, b0, rfl, Or.inl rfl, h1, h2, Nat.le_refl _, by simp⟩
  | cons tid threads ih =>
    intro tail t0 b0 h1 h2
    have hd := lastIt_deref_back h1 h2
    rcases lastIt_getLast?_cases rob tid with ⟨-, e1, e2⟩ | ⟨it1, b1, e1, e2⟩
    · have e : updateTailLoop rob (tid :: threads) (tail, false)
          = updateTailLoop rob threads (tail, false) := by
        simp [updateTailLoop, e1, e2]
      rw [e]
      obtain ⟨it, t, b, i1, i2, i3, i4, i5, i6⟩ := ih tail t0 b0 h1 h2
      refine ⟨it, t, b, i1, ?_, i3, i4, i5, ?_⟩
      · rcases i2 with i2 | i2
        · exact Or.inl i2
        · exact Or.inr (List.mem_cons_of_mem _ i2)
      · intro t1 ht1 c hc
        rcases List.mem_cons.mp ht1 with ht1 | ht1
        · subst ht1
          rw [e2] at hc
          cases hc
        · exact i6 t1 ht1 c hc
    · by_cases hgt : rob.seqOf b1 > rob.seqOf b0
      · have e : updateTailLoop rob (tid :: threads) (tail, false)
            = updateTailLoop rob threads (it1, false) := by
          simp [updateTailLoop, e1, e2, hd, hgt]
        rw [e]
        obtain ⟨it, t, b, i1, i2, i3, i4, i5, i6⟩ := ih it1 tid b1 e1 e2
        refine ⟨it, t, b, i1, ?_, i3, i4, by omega, ?_⟩
        · rcases i2 with i2 | i2
          · subst i2
            exact Or.inr (List.mem_cons_self _ _)
          · exact Or.inr (List.mem_cons_of_mem _ i2)
        · intro t1 ht1 c hc
          rcases List.mem_cons.mp ht1 with ht1 | ht1
          · subst ht1
            rw [e2] at hc
            cases hc
            exact i5
          · exact i6 t1 ht1 c hc
      · have e : updateTailLoop rob (tid :: threads) (tail, false)
            = updateTailLoop rob threads (tail, false) := by
          simp [updateTailLoop, e1, e2, hd, hgt]
        rw [e]
        obtain ⟨it, t, b, i1, i2, i3, i4, i5, i6⟩ := ih tail t0 b0 h1 h2
        refine ⟨it, t, b, i1, ?_, i3, i4, i5, ?_⟩
        · rcases i2 with i2 | i2
          · exact Or.inl i2
          · exact Or.inr (List.mem_cons_of_mem _ i2)
        · intro t1 ht1 c hc
          rcases List.mem_cons.mp ht1 with ht1 | ht1
          · subst ht1
            rw [e2] at hc
            cases hc
            omega
          · exact i6 t1 ht1 c hc

/-- The loop of `updateTail` from its start: either every scanned queue is
empty and nothing changed, or it ends on the back of a scanned queue whose
sequence number is greatest among the backs of the scanned queues. -/
theorem updateTailLoop_first (rob : ROB) (threads : List Nat) :
    ∀ (tail : InstIt),
      ((∀ t ∈ threads, rob.instList t = []) ∧
        updateTailLoop rob threads (tail, true) = .ok (tail, true)) ∨
      (∃ it, updateTailLoop rob threads (tail, true) = .ok (it, false) ∧
        ∃ t ∈ threads, ∃ b, rob.lastIt t = some it ∧ (rob.instList t).getLast? = some b ∧
          ∀ t1 ∈ threads, ∀ b1, (rob.instList t1).getLast? = some b1 →
            rob.seqOf b1 ≤ rob.seqOf b) := by
  induction threads with
  | nil =>
    intro tail
    exact Or.inl ⟨by simp, rfl⟩
  | cons tid threads ih =>
    intro tail
    rcases lastIt_getLast?_cases rob tid with ⟨e0, e1, e2⟩ | ⟨it1, b1, e1, e2⟩
    · have e : updateTailLoop rob (tid :: threads) (tail, true)
          = updateTailLoop rob threads (tail, true) := by
        simp [updateTailLoop, e1, e2]
      rw [e]
      rcases ih tail with ⟨i1, i2⟩ | ⟨it, i1, t, ht, b, i2, i3, i4⟩
      · refine Or.inl ⟨?_, i2⟩
        intro t ht
        rcases List.mem_cons.mp ht with ht | ht
        · subst ht; exact e0
        · exact i1 t ht
      · refine Or.inr ⟨it, i1, t, List.mem_cons_of_mem _ ht, b, i2, i3, ?_⟩
        intro t1 ht1 c hc
        rcases List.mem_cons.mp ht1 with ht1 | ht1
        · subst ht1
          rw [e2] at hc
          cases hc
        · exact i4 t1 ht1 c hc
    · have e : updateTailLoop rob (tid :: threads) (tail, true)
          = updateTailLoop rob threads (it1, false) := by
        simp [updateTailLoop, e1, e2]
      rw [e]
      obtain ⟨it, t, b, i1, i2, i3, i4, i5, i6⟩ := updateTailLoop_later rob threads it1 tid b1 e1 e2
      refine Or.inr ⟨it, i1, t, ?_, b, i3, i4, ?_⟩
      · rcases i2 with i2 | i2
        · subst i2
          exact List.mem_cons_self _ _
        · exact List.mem_cons_of_mem _ i2
      · intro t1 ht1 c hc
        rcases List.mem_cons.mp ht1 with ht1 | ht1
        · subst ht1
          rw [e2] at hc
          cases hc
          exact i5
        · exact i6 t1 ht1 c hc

/-- What `updateTail` computes. -/
theorem updateTail_spec {rob rob1 : ROB} (h : rob.updateTail = .ok rob1) :
    TailIsYoungest rob1 := by
  obtain ⟨t, ht⟩ := updateTail_eq h
  unfold updateTail at h
  rcases updateTailLoop_first rob rob.activeThreads (.endOf 0) with
    ⟨i1, i2⟩ | ⟨it, i1, t0, ht0, b, i2, i3, i4⟩
  · rw [i2] at h
    simp only [Except.ok.injEq] at h
    subst h
    exact Or.inl ⟨i1, rfl⟩
  · rw [i1] at h
    simp only [Except.ok.injEq] at h
    subst h
    exact Or.inr ⟨t0, ht0, b, i3, i2, i4⟩

/-! ## The tail flag of the squash loop -/

/-- The flag `robTailUpdate` of the squash loop: when the loop ends without
returning from `doSquash`, the flag is set if it was set before or if the loop
started on the back of the queue and marked an instruction. -/
theorem doSquashLoop_flag (tid : Nat) (n : Nat) :
    ∀ (rob : ROB) (u : Bool) (m pre : List Nat) (p : Nat) (suf : List Nat) (res : SquashLoop),
      CursorAt rob tid pre p suf → doSquashLoop tid n rob u m = .ok res →
      res.returned = false → (u = true ∨ (suf = [] ∧ res.marked ≠ m)) →
      res.robTailUpdate = true := by
  induction n with
  | zero =>
    intro rob u m pre p suf res hc h hr hu
    simp only [doSquashLoop, Except.ok.injEq] at h
    subst h
    rcases hu with hu | ⟨-, hu⟩
    · exact hu
    · exact absurd rfl hu
  | succ n ih =>
    intro rob u m pre p suf res hc h hr hu
    by_cases hseq : rob.seqOf p > rob.squashedSeqNum tid
    swap
    · simp only [doSquashLoop, hc.not_end, hc.deref, hseq, if_false, not_false_eq_true, if_true,
        Except.ok.injEq] at h
      subst h
      rcases hu with hu | ⟨-, hu⟩
      · exact hu
      · exact absurd rfl hu
    have hc1 : CursorAt { rob with
        insts := setAt rob.insts p (rob.insts p).setSquashed.setCanCommit } tid pre p suf := hc
    rcases List.eq_nil_or_concat pre with hpre | ⟨pre0, p0, hpre⟩
    · subst hpre
      have hb : rob.squashIt tid = ROB.beginIt { rob with
          insts := setAt rob.insts p (rob.insts p).setSquashed.setCanCommit } tid := by
        rw [hc1.beginIt]
        simpa using hc.2
      simp only [doSquashLoop, hc.not_end, hc.deref, hseq, if_false, not_true] at h
      rw [if_pos hb] at h
      simp only [Except.ok.injEq] at h
      subst h
      cases hr
    · rw [List.concat_eq_append] at hpre
      subst hpre
      have hne : rob.squashIt tid ≠ ROB.beginIt { rob with
          insts := setAt rob.insts p (rob.insts p).setSquashed.setCanCommit } tid := by
        rw [hc1.beginIt, hc.2]
        intro hcontra
        simp at hcontra
      have hlast : ∃ t, (rob.instList tid).getLast? = some t := by
        apply exists_getLast?_of_ne_nil
        rw [hc.1]
        simp
      obtain ⟨t, ht⟩ := hlast
      have hprev : ROB.prevIt { rob with
          insts := setAt rob.insts p (rob.insts p).setSquashed.setCanCommit } (rob.squashIt tid)
          = some (.node tid (rob.erased tid + pre0.length)) := by
        rw [hc.2]
        simp [prevIt]
      have hc2 : CursorAt { rob with
          insts := setAt rob.insts p (rob.insts p).setSquashed.setCanCommit
          squashIt := setAt rob.squashIt tid (.node tid (rob.erased tid + pre0.length)) }
          tid pre0 p0 (p :: suf) := by
        constructor
        · have := hc.1
          simpa using this
        · simp [setAt_same]
      simp only [doSquashLoop, hc.not_end, hc.deref, hseq, if_false, not_true, hne, ht, hprev] at h
      refine ih _ (if p = t then true else u) (m ++ [p]) pre0 p0 (p :: suf) res hc2 h hr
        (Or.inl ?_)
      rcases hu with hu | ⟨hs, -⟩
      · subst hu
        simp
      · subst hs
        rw [hc.1] at ht
        have : t = p := by simpa using ht.symm
        simp [this]

/-! ## One `doSquash` call from a valid cursor -/

theorem doSquash_tail_part_spec (rob2 : ROB) (u : Bool) (mk : List Nat) :
    ∃ t, (if u = true then
            match rob2.updateTail with
            | .error e => .error e
            | .ok rob3 => .ok (rob3, mk)
          else (.ok (rob2, mk) : Except Fault (ROB × List Nat)))
        = .ok ({ rob2 with tail := t }, mk) ∧
      (u = true → TailIsYoungest { rob2 with tail := t }) := by
  cases u with
  | true =>
    obtain ⟨t, ht⟩ := updateTail_ok rob2
    exact ⟨t, by simp only [if_true, ht], fun _ => updateTail_spec ht⟩
  | false => exact ⟨rob2.tail, by simp, fun h => by cases h⟩

/-- One `doSquash` call with the cursor on an instruction of the queue
succeeds, whatever the quota.  It marks the instructions `new`, which lie
directly in front of the cursor position and behind `rem`; the cursor ends at
the end of the list or on the last instruction of `rem`; and when the call
started on the back of the queue, marked an instruction and did not reach the
front of the queue, the tail pointer is what `updateTail` computes; when the
call marked everything up to the front of the queue (`rem` is empty) the tail
pointer is as it was and the squash is done. -/
theorem doSquashMarking_shape {rob : ROB} {tid : Nat} {pre : List Nat} {p : Nat}
    {suf : List Nat} (hc : CursorAt rob tid pre p suf) (hb : tid < rob.MaxThreads) :
    ∃ rob1 new, rob.doSquashMarking tid = .ok (rob1, new) ∧
      ∃ rem, pre ++ [p] = rem ++ new.reverse ∧
        (rob1.squashIt tid = .endOf tid ∨
          ∃ pre1 p1, rem = pre1 ++ [p1] ∧ CursorAt rob1 tid pre1 p1 (new.reverse ++ suf)) ∧
        (suf = [] → new ≠ [] → rem ≠ [] → TailIsYoungest rob1) ∧
        (rem = [] → rob1.tail = rob.tail ∧ rob1.doneSquashing tid = true ∧
          rob1.squashIt tid = .endOf tid) := by
  have hnb : ¬ rob.MaxThreads ≤ tid := by omega
  by_cases hlt : rob.seqOf p < rob.squashedSeqNum tid
  · refine ⟨{ rob with
        squashIt := setAt rob.squashIt tid (.endOf tid)
        doneSquashing := setAt rob.doneSquashing tid true }, [], ?_, pre ++ [p], by simp,
      Or.inl ?_, fun _ h _ => absurd rfl h, fun h => absurd h (by simp)⟩
    · simp only [doSquashMarking, hnb, hc.not_end, hc.deref, hlt, if_true, if_false]
    · simp [setAt_same]
  obtain ⟨res, hres, hshape⟩ := doSquashLoop_cursor tid (rob.squashQuota tid) rob false [] pre p
    suf hc
  have hfr := doSquashLoop_frame _ _ _ _ _ _ hres
  obtain ⟨nw, m1, -, -, -, m5, -, m7, -⟩ := doSquashLoop_marks _ _ _ _ _ _ hres
  have hunf : rob.doSquashMarking tid
      = if res.returned then .ok (res.rob, res.marked)
        else
          match res.rob.doSquashCheckDone tid with
          | .error e => .error e
          | .ok rob2 =>
            if res.robTailUpdate then
              match rob2.updateTail with
              | .error e => .error e
              | .ok rob3 => .ok (rob3, res.marked)
            else .ok (rob2, res.marked) := by
    simp only [doSquashMarking, hnb, hc.not_end, hc.deref, hlt, if_false]
    have : doSquashLoop tid (if rob.threadExiting tid = true then rob.numEntries
        else rob.squashWidth) rob false [] = .ok res := hres
    simp only [this]
  rcases hshape with ⟨h1, h2, h3, h4⟩ | ⟨h1, pre1, p1, mid, h2, h3, h4, h5, h6⟩
  · refine ⟨res.rob, res.marked, ?_, [], ?_, Or.inl h3, fun _ _ h => absurd rfl h,
      fun _ => ⟨m7, h4, h3⟩⟩
    · rw [hunf, h1]; rfl
    · rw [h2]; simp
  · simp only [List.nil_append] at h3
    have hseqp1 : res.rob.seqOf p1 = rob.seqOf p1 := hfr.seqNum p1
    have hflag : suf = [] → res.marked ≠ [] → res.robTailUpdate = true := fun hs hm =>
      doSquashLoop_flag tid (rob.squashQuota tid) rob false [] pre p suf res hc hres h1
        (Or.inr ⟨hs, hm⟩)
    by_cases hle : rob.seqOf p1 ≤ rob.squashedSeqNum tid
    · -- the check after the loop finds the squash done
      obtain ⟨rob2, hcd, d2⟩ : ∃ rob2, res.rob.doSquashCheckDone tid = .ok rob2 ∧
          rob2.squashIt tid = .endOf tid := by
        refine ⟨{ res.rob with
              squashIt := setAt res.rob.squashIt tid (.endOf tid)
              doneSquashing := setAt res.rob.doneSquashing tid true }, ?_, ?_⟩
        · simp only [doSquashCheckDone, h4.deref, hseqp1, m5, hle, if_true]
        · simp [setAt_same]
      obtain ⟨t, ht, hty⟩ := doSquash_tail_part_spec rob2 res.robTailUpdate res.marked
      have e : rob.doSquashMarking tid = .ok ({ rob2 with tail := t }, res.marked) := by
        simp only [hunf, h1, hcd, Bool.false_eq_true, if_false]
        exact ht
      refine ⟨_, res.marked, e, pre1 ++ [p1], ?_, Or.inl d2, fun hs hm _ => hty (hflag hs hm),
        fun h => absurd h (by simp)⟩
      rw [h2, h3]; simp
    · -- the squash goes on at the next call
      have hcd : res.rob.doSquashCheckDone tid = .ok res.rob := by
        simp only [doSquashCheckDone, h4.deref, hseqp1, m5, hle, if_false]
      obtain ⟨t, ht, hty⟩ := doSquash_tail_part_spec res.rob res.robTailUpdate res.marked
      have e : rob.doSquashMarking tid = .ok ({ res.rob with tail := t }, res.marked) := by
        simp only [hunf, h1, hcd, Bool.false_eq_true, if_false]
        exact ht
      refine ⟨_, res.marked, e, pre1 ++ [p1], ?_, Or.inr ⟨pre1, p1, rfl, ?_⟩,
        fun hs hm _ => hty (hflag hs hm), fun h => absurd h (by simp)⟩
      · rw [h2, h3]; simp
      · rw [h3, List.reverse_reverse]
        exact h4.same_queue rfl rfl rfl

theorem markAll_flags (insts : Nat → DynInst) (new : List Nat) (q : Nat) :
    ((insts q).isSquashed = true → (markAll insts new q).isSquashed = true) ∧
      ((insts q).readyToCommit = true → (markAll insts new q).readyToCommit = true) := by
  unfold markAll
  by_cases hq : q ∈ new
  · simp [hq, DynInst.setSquashed, DynInst.setCanCommit, DynInst.isSquashed,
      DynInst.readyToCommit]
  · simp [hq]

/-! ## The tail pointer after a squash pass -/

/-- C18, as the code has it: every `doSquash(tid)` call that starts with the cursor on
an instruction `p` of thread `tid`'s queue, with `pre` in front of it and `suf`
behind it, succeeds and marks at most the instructions from the cursor to the
front of the queue; the first instruction it marks, if any, is `p`, which is the
back of the queue when `suf` is empty.  If the call marks the back of the queue
and does not reach the front of the queue (it marks at most as many
instructions as there are in front of the cursor), then on return the tail
pointer has been recomputed: it is the back of a non-empty active thread's
queue whose back sequence number is greatest among the active threads, or the
end of list 0 if no active thread holds an instruction.  If the call reaches
the front of the queue (it marks every instruction from the cursor to the
front), it returns at once: the tail pointer is as it was before the call, the
squash is done and the cursor is at the end of the list. -/
theorem doSquash_recomputes_tail (rob : ROB) (tid : Nat) (pre : List Nat) (p : Nat)
    (suf : List Nat) (hc : CursorAt rob tid pre p suf) (hb : tid < rob.MaxThreads) :
    ∃ rob1 new, rob.doSquashMarking tid = .ok (rob1, new) ∧ rob.doSquash tid = .ok rob1 ∧
      new.length ≤ pre.length + 1 ∧
      (new ≠ [] → new.head? = some p) ∧
      (suf = [] → (rob.instList tid).getLast? = some p) ∧
      (suf = [] → new ≠ [] → new.length ≤ pre.length → TailIsYoungest rob1) ∧
      (new.length = pre.length + 1 →
        rob1.tail = rob.tail ∧ rob1.doneSquashing tid = true ∧
        rob1.squashIt tid = .endOf tid) := by
  obtain ⟨rob1, new, h, rem, hsplit, -, htail, hfront⟩ := doSquashMarking_shape hc hb
  have hlen : pre.length + 1 = rem.length + new.length := by
    have := congrArg List.length hsplit
    simpa using this
  refine ⟨rob1, new, h, by simp [doSquash, h], by omega, ?_, ?_, ?_, ?_⟩
  · intro hn
    have hr : new.reverse.getLast? = (pre ++ [p]).getLast? := by
      rw [hsplit, List.getLast?_append]
      have : new.reverse ≠ [] := by simpa using hn
      obtain ⟨x, hx⟩ := exists_getLast?_of_ne_nil this
      simp [hx]
    rw [List.getLast?_reverse] at hr
    rw [hr]
    simp
  · intro hs
    rw [hc.1, hs]
    simp
  · intro hs hn hle
    refine htail hs hn ?_
    intro hrem
    rw [hrem] at hlen
    simp at hlen
    omega
  · intro heq
    apply hfront
    apply List.eq_nil_of_length_eq_zero
    omega

theorem doSquash_recomputes_tail_witness :
    (CursorAt exRobTailEntered 0 [2] 4 [] ∧ 0 < exRobTailEntered.MaxThreads ∧
      exRobTailEntered.activeThreads = [0, 1] ∧
      exRobTailEntered.instList 0 = [2, 4] ∧ exRobTailEntered.instList 1 = [7] ∧
      exRobTailEntered.deref exRobTailEntered.tail = some 4 ∧
      ∃ rob1, exRobTailEntered.doSquashMarking 0 = .ok (rob1, [4]) ∧
        exRobTailEntered.doSquash 0 = .ok rob1 ∧
        rob1.deref rob1.tail = some 7 ∧ rob1.tail ≠ exRobTailEntered.tail ∧
        TailIsYoungest rob1) ∧
    (CursorAt exRobEntered 0 [] 2 [] ∧ 0 < exRobEntered.MaxThreads ∧
      ∃ rob1, exRobEntered.doSquashMarking 0 = .ok (rob1, [2]) ∧
        rob1.tail = exRobEntered.tail ∧ rob1.doneSquashing 0 = true ∧
        rob1.squashIt 0 = .endOf 0) := by
  constructor
  · obtain ⟨rob1, new, h, hd, -, -, -, htail, -⟩ :=
      doSquash_recomputes_tail exRobTailEntered 0 [2] 4 [] ⟨rfl, rfl⟩ (by decide)
    have hex : ∃ r, exRobTailEntered.doSquashMarking 0 = .ok (r, [4]) ∧
        r.deref r.tail = some 7 ∧ r.tail ≠ exRobTailEntered.tail := ⟨_, rfl, rfl, by decide⟩
    obtain ⟨r, hr, hr7, hmove⟩ := hex
    rw [hr] at h
    simp only [Except.ok.injEq, Prod.mk.injEq] at h
    obtain ⟨h1, h2⟩ := h
    subst h1 h2
    exact ⟨⟨rfl, rfl⟩, by decide, rfl, rfl, rfl, rfl, r, hr, hd, hr7, hmove,
      htail rfl (by simp) (by decide)⟩
  · obtain ⟨rob1, new, h, -, -, -, -, -, hfront⟩ :=
      doSquash_recomputes_tail exRobEntered 0 [] 2 [] ⟨rfl, rfl⟩ (by decide)
    have hex : ∃ r, exRobEntered.doSquashMarking 0 = .ok (r, [2]) := ⟨_, rfl⟩
    obtain ⟨r, hr⟩ := hex
    rw [hr] at h
    simp only [Except.ok.injEq, Prod.mk.injEq] at h
    obtain ⟨h1, h2⟩ := h
    subst h1 h2
    exact ⟨⟨rfl, rfl⟩, by decide, r, hr, hfront (by decide)⟩

/-- C18 as stated fails: the example ROB holds instruction 5 in thread 1 and
instruction 2, inserted after it, in thread 0; both threads are active and the
tail pointer is on instruction 2.  The `doSquash(0)` call of `squash(0, 0)`
marks instruction 2, the back of thread 0's queue, reaches the front of that
queue and returns at once: the tail pointer is still on instruction 2, whereas
the back with the greatest sequence number among the active threads is
instruction 5 of thread 1. -/
theorem doSquash_tail_not_recomputed_counterexample :
    ∃ rob0 evs rob1,
      exRob.run [.insertInst 5, .insertInst 2] = .ok (rob0, evs) ∧
      rob0.squashMarking 0 0 = .ok (rob1, [2]) ∧
      exRobEntered.doSquashMarking 0 = .ok (rob1, [2]) ∧
      CursorAt exRobEntered 0 [] 2 [] ∧
      rob1.activeThreads = [0, 1] ∧
      rob1.instList 0 = [2] ∧ rob1.instList 1 = [5] ∧
      rob1.seqOf 2 = 2 ∧ rob1.seqOf 5 = 5 ∧
      (rob1.insts 2).isSquashed = true ∧
      rob1.tail = rob0.tail ∧ rob1.deref rob1.tail = some 2 ∧
      ¬ TailIsYoungest rob1 := by
  refine ⟨_, _, _, rfl, rfl, rfl, ⟨rfl, rfl⟩, rfl, rfl, rfl, rfl, rfl, rfl, rfl, rfl, ?_⟩
  intro h
  rcases h with ⟨hall, -⟩ | ⟨t, ht, b, hb, hl, hmax⟩
  · have := hall 0 (by decide)
    revert this
    decide
  · have ht2 : t = 0 ∨ t = 1 := by
      have : t ∈ [0, 1] := ht
      simpa using this
    rcases ht2 with ht2 | ht2
    · subst ht2
      have hb2 : b = 2 := by
        have : some 2 = some b := hb
        simpa using this.symm
      subst hb2
      have := hmax 1 (by decide) 5 rfl
      revert this
      decide
    · subst ht2
      revert hl
      decide

/-! ## The squash cursor invariant -/

/-- C19: in every state in which the squash cursor of thread `tid` is on an
instruction of the thread's queue, with `pre` in front of it, `doSquash(tid)`
succeeds and (a) leaves the cursor at the end of the list ("none") or on an
instruction of the same queue with at most as many instructions in front of it
as before; (b) changes no instruction outside thread `tid`'s queue, hence, when
every queue holds instructions of its own thread, no instruction held by another
thread; (c) leaves every instruction that was marked squashed, or ready to
commit, so marked. -/
theorem doSquash_cursor_invariant (rob : ROB) (tid : Nat) (pre : List Nat) (p : Nat)
    (suf : List Nat) (hc : CursorAt rob tid pre p suf) (hb : tid < rob.MaxThreads) :
    ∃ rob1, rob.doSquash tid = .ok rob1 ∧
      (rob1.squashIt tid = .endOf tid ∨
        ∃ pre1 p1 suf1, CursorAt rob1 tid pre1 p1 suf1 ∧ rob1.instList tid = rob.instList tid ∧
          rob1.erased tid = rob.erased tid ∧ pre1.length ≤ pre.length) ∧
      (∀ q, q ∉ rob.instList tid → rob1.insts q = rob.insts q) ∧
      ((∀ t, ∀ q ∈ rob.instList t, (rob.insts q).threadNumber = t) →
        ∀ t, t ≠ tid → ∀ q ∈ rob.instList t, rob1.insts q = rob.insts q) ∧
      (∀ q, (rob.insts q).isSquashed = true → (rob1.insts q).isSquashed = true) ∧
      (∀ q, (rob.insts q).readyToCommit = true → (rob1.insts q).readyToCommit = true) := by
  obtain ⟨rob1, new, h, rem, hsplit, hcur, -⟩ := doSquashMarking_shape hc hb
  obtain ⟨-, hins, -, -, -, -⟩ := doSquashMarking_marks h
  have hfr := doSquashMarking_frame h
  have hsub : ∀ q, q ∈ new → q ∈ rob.instList tid := by
    intro q hq
    rw [hc.1]
    have : q ∈ pre ++ [p] := by
      rw [hsplit]
      simp [hq]
    simp at this
    simp
    rcases this with h1 | h1
    · exact Or.inl h1
    · exact Or.inr (Or.inl h1)
  have hout : ∀ q, q ∉ rob.instList tid → rob1.insts q = rob.insts q := by
    intro q hq
    rw [hins]
    unfold markAll
    rw [if_neg (fun hin => hq (hsub q hin))]
  refine ⟨rob1, by simp [doSquash, h], ?_, hout, ?_, ?_, ?_⟩
  · rcases hcur with hcur | ⟨pre1, p1, hrem, hcur⟩
    · exact Or.inl hcur
    · refine Or.inr ⟨pre1, p1, _, hcur, ?_, ?_, ?_⟩
      · rw [hfr.instList]
      · rw [hfr.erased]
      · have := congrArg List.length hsplit
        rw [hrem] at this
        simp at this
        omega
  · intro hown t ht q hq
    apply hout
    intro hin
    exact ht ((hown t q hq).symm.trans (hown tid q hin))
  · intro q hq
    rw [hins]
    exact (markAll_flags rob.insts new q).1 hq
  · intro q hq
    rw [hins]
    exact (markAll_flags rob.insts new q).2 hq

theorem doSquash_cursor_invariant_witness :
    CursorAt (stateAfter squashScenarioLoaded [.squash 2 0]) 0 [1, 2] 3 [4, 5] ∧
    0 < (stateAfter squashScenarioLoaded [.squash 2 0]).MaxThreads ∧
    ∃ rob1, (stateAfter squashScenarioLoaded [.squash 2 0]).doSquash 0 = .ok rob1 ∧
      (rob1.squashIt 0 = .endOf 0 ∨
        ∃ pre1 p1 suf1, CursorAt rob1 0 pre1 p1 suf1 ∧
          rob1.instList 0 = (stateAfter squashScenarioLoaded [.squash 2 0]).instList 0 ∧
          rob1.erased 0 = (stateAfter squashScenarioLoaded [.squash 2 0]).erased 0 ∧
          pre1.length ≤ [1, 2].length) ∧
      (∀ q, q ∉ (stateAfter squashScenarioLoaded [.squash 2 0]).instList 0 →
        rob1.insts q = (stateAfter squashScenarioLoaded [.squash 2 0]).insts q) ∧
      ((∀ t, ∀ q ∈ (stateAfter squashScenarioLoaded [.squash 2 0]).instList t,
          ((stateAfter squashScenarioLoaded [.squash 2 0]).insts q).threadNumber = t) →
        ∀ t, t ≠ 0 → ∀ q ∈ (stateAfter squashScenarioLoaded [.squash 2 0]).instList t,
          rob1.insts q = (stateAfter squashScenarioLoaded [.squash 2 0]).insts q) ∧
      (∀ q, ((stateAfter squashScenarioLoaded [.squash 2 0]).insts q).isSquashed = true →
        (rob1.insts q).isSquashed = true) ∧
      (∀ q, ((stateAfter squashScenarioLoaded [.squash 2 0]).insts q).readyToCommit = true →
        (rob1.insts q).readyToCommit = true) :=
  ⟨⟨rfl, rfl⟩, by decide,
    doSquash_cursor_invariant (stateAfter squashScenarioLoaded [.squash 2 0]) 0 [1, 2] 3 [4, 5]
      ⟨rfl, rfl⟩ (by decide)⟩

/-! ## The tail pointer after the last instruction retires -/

/-- C14 (the code does not do this): the example ROB, freshly constructed with
both threads active, takes `insertInst` of instruction 2 (thread 0) and then
`retireHead(0)`, which removes the only instruction in the buffer.  Afterwards
no thread holds an instruction and the head pointer is the end of list 0, but
the tail pointer still refers to the erased node of thread 0 and dereferencing
it is invalid: `retireHead` never writes `tail`. -/
theorem retireHead_leaves_tail_dangling :
    ∃ rob1 rob2 head_inst,
      exRob.insertInst 2 = .ok rob1 ∧ rob1.retireHead 0 = .ok (rob2, head_inst) ∧
      exRob.head = .endOf 0 ∧ exRob.tail = .endOf 0 ∧
      head_inst = 2 ∧ rob2.numInstsInROB = 0 ∧
      rob2.activeThreads = [0, 1] ∧ rob2.instList 0 = [] ∧ rob2.instList 1 = [] ∧
      rob2.head = .endOf 0 ∧
      rob2.tail = rob1.tail ∧ rob2.tail = .node 0 0 ∧ rob2.tail ≠ .endOf 0 ∧
      rob2.deref rob2.tail = none :=
  ⟨_, _, _, rfl, rfl, rfl, rfl, rfl, rfl, rfl, rfl, rfl, rfl, rfl, rfl, by decide, rfl⟩

end ROB

end Runahead
